import Mathlib

/-!
Package mole: the broker side of the reverse tunnel (`src/mole/master.go`).

A shallow embedding of `Master` (the agent registry), `Master.handle` (the
per-connection dispatcher) and `ClusterAgent.Dial`.

* A `net.Conn` is represented by its identity, a natural number.  What happens
  to connections (Close, Write) and to the package-level bus `pub` (Subcribe,
  Publish, Evict) is recorded, in order, in the ghost trace `Sys.log`.
* `time.Now()` reads `Sys.clock` (nanoseconds).  Both readings inside one
  `AddAgent` call are taken at the same instant.
* `sync.RWMutex` makes every `Master` method atomic; each method is one
  state transformer.  `Dial` holds no lock, so other goroutines (runs of
  `handle` on freshly accepted connections) are interleaved explicitly between
  its statements.
* Registry values are `*ClusterAgent` in Go.  `id` and `conn` are never
  assigned after construction, so a record held by a caller is modelled by value.
-/

namespace mole

/-- Identity of a `net.Conn`. -/
abbrev Conn := Nat

/-- One second in nanoseconds (`time.Second`). -/
def Second : Nat := 1000000000

/-- Modelled from the spec: the command kinds `cmdJoin`, `cmdNewWorker`, `cmdLeave`,
`cmdPing` (their declaration is not in `master.go`); §3 enumerates JOIN, NEW_WORKER,
LEAVE, PING. -/
inductive CmdKind
  | cmdJoin
  | cmdNewWorker
  | cmdLeave
  | cmdPing
  deriving DecidableEq, Repr

/-- Modelled from the spec: the decoded control message (its declaration is not in
`master.go`); `handle` reads the fields `Cmd`, `AgentID` and `WorkerID`. -/
structure Command where
  Cmd : CmdKind
  AgentID : String
  WorkerID : String
  deriving DecidableEq, Repr

/-- Modelled from the spec: `newCmd(kind, agentID, workerID)` builds the frame that is
written to a connection (the codec is not in `master.go`).  §4.1 makes `encode`
deterministic and lossless, so a frame is identified with the command it carries. -/
def newCmd (kind : CmdKind) (agentID workerID : String) : Command :=
  { Cmd := kind, AgentID := agentID, WorkerID := workerID }

/-- The record `ClusterAgent` (master.go 139-144). -/
structure ClusterAgent where
  id : String
  conn : Conn
  joinAt : Nat
  lastActive : Nat
  deriving DecidableEq, Repr

/-- The record `clusterWorker` (master.go 187-192). -/
structure clusterWorker where
  agentID : String
  workerID : String
  conn : Conn
  establishedAt : Nat
  deriving DecidableEq, Repr

/-- A value of type `interface{}` travelling on the bus: a `*clusterWorker`, or
anything else. -/
inductive Value
  | worker (cw : clusterWorker)
  | other (tag : Nat)
  deriving DecidableEq, Repr

/-- Ghost trace of the effects the broker performs, oldest first. -/
inductive Event
  | closed (c : Conn)
  | wrote (c : Conn) (frame : Command)
  | published (v : Value)
  | subscribed (sub : Nat)
  | evicted (sub : Nat)
  deriving DecidableEq, Repr

/-- The fields of `Config` that `NewMaster` reads. -/
structure Config where
  Listen : String
  deriving DecidableEq, Repr

/-- The struct `Master` (master.go 12-18); `agents` is a Go map, that is a finite map
with unique keys. -/
structure Master where
  agents : AList (fun _ : String => ClusterAgent)
  listen : String
  authToken : String
  heartbeat : Nat

/-- One subscription of the bus: its predicate and its single-slot channel. -/
structure Subscriber where
  pred : Value → Bool
  ch : Option Value

/-- Modelled from the spec: the Correlation Bus `pub` of §4.2 (its code is not in
`master.go`).  Slot `i` holds the subscription whose channel is number `i`; an evicted
slot is `none`.  In Go the channel returned by `Subcribe` is itself the token handed
to `Evict`. -/
structure Bus where
  subs : List (Option Subscriber)

/-- Modelled from the spec: `subscribe(predicate)` registers a predicate and returns a
fresh channel, empty at first. -/
def Bus.Subcribe (b : Bus) (pred : Value → Bool) : Nat × Bus :=
  (b.subs.length, { subs := b.subs ++ [some { pred := pred, ch := none }] })

/-- Delivery of one value to one subscription: matching values go into the single
slot, and are dropped when the slot is full. -/
def Subscriber.offer (v : Value) (sub : Subscriber) : Subscriber :=
  match sub.pred v, sub.ch with
  | true, none => { sub with ch := some v }
  | _, _ => sub

/-- Modelled from the spec: `publish(value)` delivers the value to every currently
registered subscriber whose predicate matches, without blocking. -/
def Bus.Publish (b : Bus) (v : Value) : Bus :=
  { subs := b.subs.map (Option.map (Subscriber.offer v)) }

/-- Modelled from the spec: `evict(token)` removes a subscription; evicting twice is a
no-op. -/
def Bus.Evict (b : Bus) (sub : Nat) : Bus :=
  { subs := b.subs.set sub none }

/-- The subscription registered under channel `sub`, if any. -/
def Bus.slot (b : Bus) (sub : Nat) : Option Subscriber :=
  b.subs.getD sub none

/-- The value waiting in channel `sub`, if any. -/
def Bus.recv (b : Bus) (sub : Nat) : Option Value :=
  match b.slot sub with
  | some s => s.ch
  | none => none

/-- Whether `sub` is a registered (not evicted) subscription. -/
def Bus.registered (b : Bus) (sub : Nat) : Bool :=
  (b.slot sub).isSome

/-- Whether some registered subscription accepts `v`. -/
def Bus.matches (b : Bus) (v : Value) : Bool :=
  b.subs.any (fun o => match o with
    | some s => s.pred v
    | none => false)

/-- The broker process: the master, the package-level bus, the network as far as the
broker can tell (`down` lists the connections whose peer is gone), the trace of
effects and the wall clock. -/
structure Sys where
  m : Master
  pub : Bus
  down : List Conn
  log : List Event
  clock : Nat

/-- The call `conn.Close()`. -/
def connClose (s : Sys) (c : Conn) : Sys :=
  { s with log := s.log ++ [Event.closed c] }

/-- The call `conn.Write(frame)` under the contract of Go's `net` package: writing to a
connection that was closed locally fails, writing to a connection whose peer is gone
fails, any other write succeeds. Returns the error (if any) and the new state. -/
def connWrite (s : Sys) (c : Conn) (frame : Command) : Option String × Sys :=
  if Event.closed c ∈ s.log then (some "use of closed network connection", s)
  else if c ∈ s.down then (some "broken pipe", s)
  else (none, { s with log := s.log ++ [Event.wrote c frame] })

/-- The constructor `NewMaster` (master.go 20-27). -/
def NewMaster (cfg : Config) : Master :=
  { listen := cfg.Listen
    authToken := "xxx"
    heartbeat := Second * 60
    agents := ∅ }

/-- The method `Master.AddAgent` (master.go 87-104). -/
def AddAgent (s : Sys) (id : String) (conn : Conn) : Sys :=
  let s1 := match s.m.agents.lookup id with
    | some agent => connClose s agent.conn
    | none => s
  let ca : ClusterAgent :=
    { id := id
      conn := conn
      joinAt := s1.clock
      lastActive := s1.clock }
  { s1 with m := { s1.m with agents := s1.m.agents.insert id ca } }

/-- The method `Master.CloseAgent` (master.go 106-113). -/
def CloseAgent (s : Sys) (id : String) : Sys :=
  match s.m.agents.lookup id with
  | some agent =>
    let s1 := connClose s agent.conn
    { s1 with m := { s1.m with agents := s1.m.agents.erase id } }
  | none => s

/-- The method `Master.FreshAgent` (master.go 115-121). -/
def FreshAgent (s : Sys) (id : String) : Sys :=
  match s.m.agents.lookup id with
  | some agent =>
    { s with m := { s.m with agents := s.m.agents.insert id { agent with lastActive := s.clock } } }
  | none => s

/-- The method `Master.Agent` (master.go 125-129); `none` is the nil pointer. -/
def Agent (s : Sys) (id : String) : Option ClusterAgent :=
  s.m.agents.lookup id

/-- The method `Master.Agents` (master.go 131-135). -/
def Agents (s : Sys) : AList (fun _ : String => ClusterAgent) :=
  s.m.agents

/-- The call `pub.Publish(v)`, traced. -/
def publish (s : Sys) (v : Value) : Sys :=
  { s with pub := s.pub.Publish v, log := s.log ++ [Event.published v] }

/-- The method `Master.handle` (master.go 48-85).  `dec` is the result of
`NewDecoder(conn).Decode()` and `valid` is the method `cmd.valid()` (both belong to the
codec, which is not in `master.go`): `valid cmd = none` means the command is valid. -/
def handle (valid : Command → Option String) (s : Sys) (conn : Conn)
    (dec : Except String Command) : Sys :=
  match dec with
  | .error _ => s
  | .ok cmd =>
    match valid cmd with
    | some _ => s
    | none =>
      match cmd.Cmd with
      | .cmdJoin => AddAgent s cmd.AgentID conn
      | .cmdNewWorker =>
        let s1 := publish s (Value.worker
          { agentID := cmd.AgentID
            workerID := cmd.WorkerID
            conn := conn
            establishedAt := s.clock })
        FreshAgent s1 cmd.AgentID
      | .cmdLeave => CloseAgent s cmd.AgentID
      | .cmdPing => FreshAgent s cmd.AgentID

/-- What another goroutine of the broker does while a `Dial` is in progress: `delay`
nanoseconds after the previous event, `Serve` accepts `conn` and runs `handle` on it. -/
structure Act where
  delay : Nat
  conn : Conn
  dec : Except String Command

/-- One interleaved run of `handle`. -/
def Act.run (valid : Command → Option String) (a : Act) (s : Sys) : Sys :=
  handle valid { s with clock := s.clock + a.delay } a.conn a.dec

/-- A sequence of interleaved runs of `handle`. -/
def runActs (valid : Command → Option String) : List Act → Sys → Sys
  | [], s => s
  | a :: rest, s => runActs valid rest (a.run valid s)

/-- What `Dial` hands back: the pair `(net.Conn, error)`, or a run-time panic. -/
inductive DialOutcome
  | ret (conn : Option Conn) (err : Option String)
  | goPanic (msg : String)
  deriving DecidableEq, Repr

/-- The closure `Dial` subscribes with (master.go 158-163). -/
def Dial.pred (id wid : String) : Value → Bool
  | .worker vv => vv.workerID == wid && vv.agentID == id
  | .other _ => false

/-- The `select` of `Dial` (master.go 166-171): the first value found in channel `sub`
is taken; otherwise the other goroutines go on, as long as they act strictly before
`deadline`; when the timer fires first the result is `none`. -/
def Dial.select (valid : Command → Option String) (sub deadline : Nat) :
    List Act → Sys → Option Value × Sys
  | [], s =>
    match s.pub.recv sub with
    | some v => (some v, s)
    | none => (none, { s with clock := deadline })
  | a :: rest, s =>
    match s.pub.recv sub with
    | some v => (some v, s)
    | none =>
      if s.clock + a.delay < deadline then Dial.select valid sub deadline rest (a.run valid s)
      else (none, { s with clock := deadline })

/-- The method `ClusterAgent.Dial` (master.go 147-174).  The receiver is a pointer, so
it may be nil (`none`); `wid` is the result of `randNumber(10)`; `pre` is what the other
goroutines do between the `Write` and the `Subcribe`, `during` what they do afterwards.
The deferred `Evict` runs on every path that follows the subscription. -/
def Dial (valid : Command → Option String) (ca : Option ClusterAgent) (wid : String)
    (pre during : List Act) (s : Sys) : DialOutcome × Sys :=
  match ca with
  | none => (DialOutcome.goPanic "invalid memory address or nil pointer dereference", s)
  | some ca =>
    let command := newCmd CmdKind.cmdNewWorker ca.id wid
    match connWrite s ca.conn command with
    | (some err, s1) => (DialOutcome.ret none (some err), s1)
    | (none, s1) =>
      let s2 := runActs valid pre s1
      let sb := s2.pub.Subcribe (Dial.pred ca.id wid)
      let s3 := { s2 with pub := sb.2, log := s2.log ++ [Event.subscribed sb.1] }
      let r := Dial.select valid sb.1 (s3.clock + Second * 10) during s3
      let s5 := { r.2 with pub := r.2.pub.Evict sb.1, log := r.2.log ++ [Event.evicted sb.1] }
      match r.1 with
      | some (Value.worker cw) => (DialOutcome.ret (some cw.conn) none, s5)
      | some (Value.other _) =>
        (DialOutcome.goPanic "interface conversion: interface \x7b\x7d is not *mole.clusterWorker", s5)
      | none => (DialOutcome.ret none (some "agent Dial(): new worker conn timeout"), s5)

/-- Whether this run of `handle` is the arrival of a connection whose leading frame
decodes to a valid NEW_WORKER command for the pair `(id, wid)`. -/
def Act.offers (valid : Command → Option String) (id wid : String) (a : Act) : Bool :=
  match a.dec with
  | .ok cmd =>
    (valid cmd).isNone && decide (cmd.Cmd = CmdKind.cmdNewWorker)
      && decide (cmd.AgentID = id) && decide (cmd.WorkerID = wid)
  | .error _ => false

/-- Specification of the wait in `Dial`, stated on the arrivals alone: the first
connection among `acts` that arrives as a valid NEW_WORKER for `(id, wid)` strictly less
than `budget` nanoseconds after the wait began, with its arrival time; `none` when the
timer fires first. -/
def arrival (valid : Command → Option String) (id wid : String) :
    Nat → List Act → Option (Nat × Conn)
  | _, [] => none
  | budget, a :: rest =>
    if a.delay < budget then
      if a.offers valid id wid then some (a.delay, a.conn)
      else (arrival valid id wid (budget - a.delay) rest).map (fun p => (a.delay + p.1, p.2))
    else none

/-- Total time taken by a sequence of interleaved runs. -/
def elapsed (acts : List Act) : Nat :=
  (acts.map Act.delay).sum

/-- Modelled from the spec: `validate` of §4.1, which rejects a command that lacks a
field required for its kind; used as a concrete codec in the examples. -/
def specValid (cmd : Command) : Option String :=
  if cmd.AgentID = "" then some "MissingField: agent_id"
  else if cmd.Cmd = CmdKind.cmdNewWorker ∧ cmd.WorkerID = "" then some "MissingField: worker_id"
  else none

/-- A broker that has just started: empty registry, empty bus, nothing traced. -/
def Sys.start (cfg : Config) : Sys :=
  { m := NewMaster cfg
    pub := { subs := [] }
    down := []
    log := []
    clock := 0 }

/-- Listen address used in the examples. -/
def exCfg : Config := { Listen := ":9000" }

/-- A broker on which agent "A1" has joined over connection 1. -/
def exJoined : Sys :=
  handle specValid (Sys.start exCfg) 1 (.ok { Cmd := CmdKind.cmdJoin, AgentID := "A1", WorkerID := "" })

/-- The worker frame an agent sends back for the dial request "0123456789" of "A1". -/
def exWorkerCmd : Command :=
  { Cmd := CmdKind.cmdNewWorker, AgentID := "A1", WorkerID := "0123456789" }

/-- The broker after a dial of "A1" that timed out: nobody answered the request
"0123456789" within ten seconds. -/
def exTimedOut : Sys :=
  (Dial specValid (Agent exJoined "A1") "0123456789" [] [] exJoined).2

end mole

/-!
The retry loop of the example agent (`src/mole/examples/agent/main.go`).

`time.Duration` is an `int64` count of nanoseconds; arithmetic on it wraps.
-/

namespace agentmain

/-- Wrap-around of `int64` arithmetic. -/
def wrapInt64 (x : Int) : Int :=
  (x + 9223372036854775808) % 18446744073709551616 - 9223372036854775808

/-- The constant `time.Second`, in nanoseconds. -/
def Second : Int := 1000000000

/-- The variable `delayMin` (main.go 18). -/
def delayMin : Int := Second

/-- The variable `delayMax` (main.go 19). -/
def delayMax : Int := wrapInt64 (Second * 60)

/-- One pass through the body of the `for` loop (main.go 23-40).  `joinErr` tells
whether `agent.Join()` returned an error.  The result is the new value of `delay` and
the duration handed to `time.Sleep`, if the pass sleeps.  After a successful `Join` the
pass runs `agent.Serve()`, whose error is only logged. -/
def iteration (joinErr : Bool) (delay : Int) : Int × Option Int :=
  if joinErr then
    let delay1 := wrapInt64 (delay * 2)
    let delay2 := if delay1 > delayMax then delayMax else delay1
    (delay2, some delay2)
  else
    (delayMin, none)

/-- The `for` loop run over a finite sequence of outcomes of `agent.Join()`, from a
given `delay`; `sleeps` collects the durations slept so far, oldest first. -/
def loop : List Bool → Int → List Int → Int × List Int
  | [], delay, sleeps => (delay, sleeps)
  | joinErr :: rest, delay, sleeps =>
    match iteration joinErr delay with
    | (d, some sl) => loop rest d (sleeps ++ [sl])
    | (d, none) => loop rest d sleeps

/-- The function `main` (main.go 16-41) on the outcomes of its first `Join` calls: the
value of `delay` after them, and the durations it slept. -/
def main (joins : List Bool) : Int × List Int :=
  loop joins delayMin []

end agentmain

/-!
The obfuscating codec (`src/naivecrypto/naive.go`).

* A Go `string` and a `[]byte` are both sequences of bytes.
* The random text comes from `utils.GenPasswordNonSpecial`, which is not part of this
  repository; it is an argument of `Encode`.
* `base64.StdEncoding`, `strings.SplitN`, `strconv.Atoi` and the conversion of an
  integer to a string are the ones of the Go standard library.
* `int` is 64-bit: subtraction wraps.
-/

namespace naivecrypto

/-- A byte. -/
abbrev Byte := Fin 256

/-- The byte with the given value (modulo 256). -/
def mkByte (n : Nat) : Byte :=
  ⟨n % 256, Nat.mod_lt n (by decide)⟩

/-- Wrap-around of 64-bit signed arithmetic. -/
def wrapInt (x : Int) : Int :=
  (x + 9223372036854775808) % 18446744073709551616 - 9223372036854775808

/-- The variable `luckyNumber` (naive.go 14). -/
def luckyNumber : Int := 9527

/-- The alphabet of `base64.StdEncoding`: the character for a 6-bit value. -/
def encodeStd (i : Nat) : Byte :=
  if i < 26 then mkByte (65 + i)
  else if i < 52 then mkByte (71 + i)
  else if i < 62 then mkByte (i - 4)
  else if i = 62 then mkByte 43
  else mkByte 47

/-- The table `decodeMap` of `base64.StdEncoding`: the 6-bit value of a character of
the alphabet, `none` (0xff in Go) for any other byte. -/
def decodeMap (b : Byte) : Option Nat :=
  if 65 ≤ b.val ∧ b.val ≤ 90 then some (b.val - 65)
  else if 97 ≤ b.val ∧ b.val ≤ 122 then some (b.val - 71)
  else if 48 ≤ b.val ∧ b.val ≤ 57 then some (b.val + 4)
  else if b.val = 43 then some 62
  else if b.val = 47 then some 63
  else none

/-- The function `base64.StdEncoding.EncodeToString`: three bytes give four characters;
one or two remaining bytes are padded with `=`. -/
def base64Encode : List Byte → List Byte
  | a :: b :: c :: rest =>
    let val := a.val * 65536 + b.val * 256 + c.val
    encodeStd (val / 262144 % 64) :: encodeStd (val / 4096 % 64)
      :: encodeStd (val / 64 % 64) :: encodeStd (val % 64) :: base64Encode rest
  | [a, b] =>
    let val := a.val * 65536 + b.val * 256
    [encodeStd (val / 262144 % 64), encodeStd (val / 4096 % 64), encodeStd (val / 64 % 64),
      mkByte 61]
  | [a] =>
    let val := a.val * 65536
    [encodeStd (val / 262144 % 64), encodeStd (val / 4096 % 64), mkByte 61, mkByte 61]
  | [] => []

/-- The three bytes of a quantum of four 6-bit values. -/
def quantum (d0 d1 d2 d3 : Nat) : Byte × Byte × Byte :=
  let val := d0 * 262144 + d1 * 4096 + d2 * 64 + d3
  (mkByte (val / 65536), mkByte (val / 256), mkByte val)

/-- Skips the leading `\r` and `\n`. -/
def skipNewlines : List Byte → List Byte
  | [] => []
  | c :: rest => if c.val = 10 ∨ c.val = 13 then skipNewlines rest else c :: rest

/-- The function `base64.StdEncoding.Decode`, quantum by quantum: `acc` holds the 6-bit
values of the current quantum, `out` the bytes decoded so far.  Newlines are skipped.
The result is the decoded bytes and whether an error is reported; on an error Go returns
the bytes decoded before it. -/
def base64Decode (acc : List Nat) (out : List Byte) : List Byte → List Byte × Bool
  | [] =>
    match acc with
    | [] => (out, false)
    | _ => (out, true)
  | c :: src =>
    match decodeMap c with
    | some v =>
      match acc with
      | [d0, d1, d2] =>
        base64Decode [] (out ++ [(quantum d0 d1 d2 v).1, (quantum d0 d1 d2 v).2.1,
          (quantum d0 d1 d2 v).2.2]) src
      | _ => base64Decode (acc ++ [v]) out src
    | none =>
      if c.val = 10 ∨ c.val = 13 then base64Decode acc out src
      else if c.val ≠ 61 then (out, true)
      else
        match acc with
        | [d0, d1] =>
          match skipNewlines src with
          | [] => (out, true)
          | c2 :: src2 =>
            if c2.val ≠ 61 then (out, true)
            else (out ++ [(quantum d0 d1 0 0).1], decide (skipNewlines src2 ≠ []))
        | [d0, d1, d2] =>
          (out ++ [(quantum d0 d1 d2 0).1, (quantum d0 d1 d2 0).2.1],
            decide (skipNewlines src ≠ []))
        | _ => (out, true)

/-- The conversion `string(r)` of an integer to a string: the UTF-8 encoding of the code
point, or of U+FFFD when `r` is not a valid code point. -/
def runeBytes (r : Int) : List Byte :=
  if r < 0 ∨ 1114111 < r ∨ (55296 ≤ r ∧ r ≤ 57343) then [mkByte 239, mkByte 191, mkByte 189]
  else
    let n := r.toNat
    if n < 128 then [mkByte n]
    else if n < 2048 then [mkByte (192 + n / 64), mkByte (128 + n % 64)]
    else if n < 65536 then
      [mkByte (224 + n / 4096), mkByte (128 + n / 64 % 64), mkByte (128 + n % 64)]
    else
      [mkByte (240 + n / 262144), mkByte (128 + n / 4096 % 64), mkByte (128 + n / 64 % 64),
        mkByte (128 + n % 64)]

/-- The function `obfuscate` (naive.go 59-65). -/
def obfuscate : List Byte → List Byte
  | [] => []
  | b :: rest => runeBytes ((b.val : Int) + 1) ++ obfuscate rest

/-- The function `deobfuscate` (naive.go 67-73). -/
def deobfuscate : List Byte → List Byte
  | [] => []
  | b :: rest => runeBytes ((b.val : Int) - 1) ++ deobfuscate rest

/-- The decimal digits of a natural number, most significant first; `fuel` bounds the
number of digits. -/
def natDigits : Nat → Nat → List Byte
  | 0, n => [mkByte (48 + n % 10)]
  | fuel + 1, n =>
    if n < 10 then [mkByte (48 + n)] else natDigits fuel (n / 10) ++ [mkByte (48 + n % 10)]

/-- The call `fmt.Sprintf("%d", n)`. -/
def itoa (n : Int) : List Byte :=
  if n < 0 then mkByte 45 :: natDigits n.natAbs n.natAbs else natDigits n.natAbs n.natAbs

/-- The value of a string of decimal digits, `none` if a byte is not a digit. -/
def parseDigits (acc : Nat) : List Byte → Option Nat
  | [] => some acc
  | c :: rest =>
    if 48 ≤ c.val ∧ c.val ≤ 57 then parseDigits (acc * 10 + (c.val - 48)) rest else none

/-- The value returned by `strconv.Atoi`, whose error is dropped by the caller: 0 on a
syntax error, the nearest 64-bit integer when the number is out of range. -/
def Atoi (s : List Byte) : Int :=
  let neg := decide (s.head? = some (mkByte 45))
  let digits := if s.head? = some (mkByte 45) ∨ s.head? = some (mkByte 43) then s.tail else s
  match digits with
  | [] => 0
  | _ =>
    match parseDigits 0 digits with
    | none => 0
    | some n =>
      if neg then
        if 9223372036854775808 < n then -9223372036854775808 else -(n : Int)
      else
        if 9223372036854775807 < n then 9223372036854775807 else (n : Int)

/-- The call `strings.SplitN(s, sep, 2)` for a one-byte separator: the text before the
first separator and the text after it, `none` when there is no separator (one field). -/
def splitFirst (sep : Byte) : List Byte → Option (List Byte × List Byte)
  | [] => none
  | c :: rest =>
    if c = sep then some ([], rest)
    else (splitFirst sep rest).map (fun p => (c :: p.1, p.2))

/-- What a call returns: a string, or a run-time panic. -/
inductive Result
  | ret (s : List Byte)
  | goPanic (msg : String)
  deriving DecidableEq, Repr

/-- The function `Encode` (naive.go 18-28); `randomText` is what
`utils.GenPasswordNonSpecial(randomIntRange(10, 20))` returned. -/
def Encode (randomText : List Byte) (data : List Byte) : List Byte :=
  if data.length = 0 then []
  else
    let dataEncoded := base64Encode data
    let luckyLength := itoa ((randomText.length : Int) + luckyNumber)
    let combinedText := randomText ++ dataEncoded ++ [mkByte 59] ++ luckyLength
    obfuscate combinedText

/-- The function `Decode` (naive.go 31-57).  Slicing with a negative bound panics. -/
def Decode (encoded : List Byte) : Result :=
  if encoded.length = 0 then Result.ret []
  else
    let combinedText := deobfuscate encoded
    match splitFirst (mkByte 59) combinedText with
    | none => Result.ret []
    | some (randomAndEncodedText, luckyLength) =>
      let luckyLengthN := Atoi luckyLength
      if luckyLengthN = 0 then Result.ret []
      else
        let realRandomLength := wrapInt (luckyLengthN - luckyNumber)
        if (randomAndEncodedText.length : Int) < realRandomLength then Result.ret []
        else if realRandomLength < 0 then
          Result.goPanic "runtime error: slice bounds out of range"
        else
          let encodedText := randomAndEncodedText.drop realRandomLength.toNat
          Result.ret (base64Decode [] [] encodedText).1

/-- The bytes of a string of ASCII characters. -/
def bytesOf (s : String) : List Byte :=
  s.toList.map (fun c => mkByte c.toNat)

/-- Whether a byte is one of `[0-9a-zA-Z]`. -/
def isAlnum (b : Byte) : Bool :=
  (48 ≤ b.val && b.val ≤ 57) || (65 ≤ b.val && b.val ≤ 90) || (97 ≤ b.val && b.val ≤ 122)

end naivecrypto

/-!
Cycle detection in a single-successor graph (`src/dfs-find-circle/dfs-find-circle.go`).

* A Go `map[string]string` is a finite map with unique keys; `none` stands for the nil
  map.  `range` visits the keys in some order; the model visits them in the order of the
  association list, and the results below do not depend on that order.
* A nil slice and an empty slice are both `[]`.
* The recursion of `dfs4circle` is driven by a step budget (`fuel`); the result is
  `none` only when the budget runs out.
-/

namespace dfs

/-- The type `map[string]string`, when it is not nil. -/
abbrev StrMap := AList (fun _ : String => String)

/-- The type `map[string][]string`. -/
abbrev Circles := AList (fun _ : String => List String)

/-- The struct `graph` (dfs-find-circle.go 49-56). -/
structure graph where
  m : StrMap
  c : Circles

/-- The constructor `NewGraph` (dfs-find-circle.go 58-69): the map is copied entry by
entry; a nil map gives an empty graph. -/
def NewGraph (m : Option StrMap) : graph :=
  let initMap : StrMap :=
    match m with
    | some mm => mm.entries.foldl (fun acc e => acc.insert e.1 e.2) ∅
    | none => ∅
  { m := initMap, c := ∅ }

/-- The method `dfs4circle` (dfs-find-circle.go 101-122), which reads only the field
`m` of the graph; `stack` is the parameter `stacks`.  Each call uses one unit of
`fuel`. -/
def dfs4circle (m : StrMap) (start : String) : Nat → String → List String → Option (List String)
  | 0, _, _ => none
  | fuel + 1, current, stack =>
    if current ∈ stack then
      if current = start then some (stack ++ [current]) else some []
    else
      match m.lookup current with
      | none => some []
      | some dst => dfs4circle m start fuel dst (stack ++ [current])

/-- The call `g.dfs4circle(src, src, nil)` with a budget of one step more than there are
keys. -/
def circleFrom (m : StrMap) (src : String) : Option (List String) :=
  dfs4circle m src (m.keys.length + 1) src []

/-- The method `dfsAll` (dfs-find-circle.go 85-95) on a graph that is not nil. -/
def dfsAll (g : graph) : Option graph :=
  (g.m.keys.foldlM (fun (c : Circles) src =>
      (circleFrom g.m src).map (fun circle =>
        if circle.length > 0 then c.insert src circle else c)) g.c).map
    (fun c => { g with c := c })

/-- The method `Circles` (dfs-find-circle.go 71-74): the map returned and the graph
after the call. -/
def graph.Circles (g : graph) : Option (Circles × graph) :=
  (dfsAll g).map (fun g1 => (g1.c, g1))

/-- The function `CircleDetect` (dfs-find-circle.go 8-15).  The inner `none` is the nil
error; the error built by `fmt.Errorf("circled on %v", g.Circles())` is represented by
the map it prints. -/
def CircleDetect (m : Option StrMap) : Option (Option Circles) :=
  (dfsAll (NewGraph m)).bind (fun g1 =>
    g1.Circles.bind (fun r =>
      if r.1.entries.length > 0 then
        r.2.Circles.map (fun r2 => some r2.1)
      else some none))

/-- The node reached from `k` by following the map `n` times, if the walk gets that
far. -/
def follow (m : StrMap) : Nat → String → Option String
  | 0, k => some k
  | n + 1, k => (follow m n k).bind (fun x => m.lookup x)

/-- Node `k` lies on a cycle: following the map from `k` one or more steps returns
to `k`. -/
def onCycle (m : StrMap) (k : String) : Prop :=
  ∃ n, 0 < n ∧ follow m n k = some k

/-- Decision procedure for `onCycle`: a node on a cycle returns to itself within as
many steps as there are keys. -/
def onCycleB (m : StrMap) (k : String) : Bool :=
  (List.range m.keys.length).any (fun i => decide (follow m (i + 1) k = some k))

/-- The slice that `g.dfs4circle(src, src, nil)` returns (`[]` if the budget of
`circleFrom` were to run out, which it never does). -/
def circleOf (m : StrMap) (src : String) : List String :=
  (circleFrom m src).getD []

/-- The body of the loop of `dfsAll` for one key, as a function on the field `c`. -/
def visit (m : StrMap) (c : Circles) (src : String) : Circles :=
  if (circleOf m src).length > 0 then c.insert src (circleOf m src) else c

/-- The map an argument of type `map[string]string` stands for; nil has no keys. -/
def mapOf (m : Option StrMap) : StrMap :=
  match m with
  | some mm => mm
  | none => ∅

/-- Builds a map from a list of pairs (later pairs win), for the examples. -/
def ofPairs (l : List (String × String)) : StrMap :=
  l.foldl (fun acc e => acc.insert e.1 e.2) ∅

/-- The fifth map of `TestDFS`: "a" leads into the cycle b, c, d, e. -/
def exMap : StrMap :=
  ofPairs [("a", "b"), ("b", "c"), ("c", "d"), ("d", "e"), ("e", "b")]

/-- The method `dfs4path` (dfs-find-circle.go 126-144), which reads only the field `m`
of the graph; `stack` is the parameter `stacks`.  Each call uses one unit of `fuel`. -/
def dfs4path (m : StrMap) : Nat → String → List String → Option (List String × Bool)
  | 0, _, _ => none
  | fuel + 1, start, stack =>
    if start ∈ stack then some (stack ++ [start], true)
    else
      match m.lookup start with
      | none => some (stack ++ [start], false)
      | some dst => dfs4path m fuel dst (stack ++ [start])

/-- The function `PathFromNode` (dfs-find-circle.go 20-23), with a budget of one step
more than there are keys. -/
def PathFromNode (m : Option StrMap) (start : String) : Option (List String × Bool) :=
  dfs4path (NewGraph m).m ((NewGraph m).m.keys.length + 1) start []

/-- The map of `example/example.go`. -/
def exGraph : StrMap :=
  ofPairs [("a", "b"), ("b", "c"), ("c", "d"), ("d", "m"), ("m", "c"), ("k", "n"),
    ("l", "n"), ("x", "c"), ("o", "c"), ("s", "r"), ("r", "n")]

end dfs

/-!
The token limiter (`src/rate-limit/rate.go`, `src/rate-limit/interface.go`).

* A `time.Time` is an instant in nanoseconds (an integer); `time.Now()` is the
  argument `now` of every method.  The two readings of the clock inside one `Take`
  (in `gc` and in `push`) are taken at the same instant.
* `time.Duration` and `int` are 64-bit: negation and subtraction wrap.
* The mutex makes every method atomic; each method is one state transformer.
-/

namespace rate

/-- Wrap-around of 64-bit signed arithmetic. -/
def wrap64 (x : Int) : Int :=
  (x + 9223372036854775808) % 18446744073709551616 - 9223372036854775808

/-- The error `ErrNoMoreTokens` (interface.go 10). -/
def ErrNoMoreTokens : String := "no more tokens, pls wait and retry"

/-- The struct `limiter` (rate.go 17-22). -/
structure limiter where
  window : Int
  limit : Int
  tokens : List Int
  deriving DecidableEq, Repr

/-- The method `SetLimit` (rate.go 57-68). -/
def SetLimit (l : limiter) (w n : Int) : limiter :=
  let w1 := if w < 0 then wrap64 (-w) else w
  let n1 := if n < 0 then wrap64 (-n) else n
  { l with window := w1, limit := n1 }

/-- The constructor `NewLimiter` (rate.go 10-15). -/
def NewLimiter (w n : Int) : limiter :=
  let l := SetLimit { window := 0, limit := 0, tokens := [] } w n
  { l with tokens := [] }

/-- The method `size` (rate.go 78-80). -/
def size (l : limiter) : Int :=
  l.tokens.length

/-- The method `remains` (rate.go 82-84). -/
def remains (l : limiter) : Int :=
  wrap64 (l.limit - size l)

/-- The boundary `time.Now().Add(-l.window)` (rate.go 94). -/
def outdated (l : limiter) (now : Int) : Int :=
  now + wrap64 (-l.window)

/-- The loop of `gc` (rate.go 98-105) over the remaining tokens, at index `idx`, with
the current value of `n`. -/
def gcLoop (boundary : Int) : List Int → Nat → Nat → Nat
  | [], _, n => n
  | token :: rest, idx, n =>
    if ¬ (token < boundary) then n
    else gcLoop boundary rest (idx + 1) (idx + 1)

/-- The method `shiftN` (rate.go 124-128). -/
def shiftN (l : limiter) (n : Nat) : limiter :=
  if size l ≥ n then { l with tokens := l.tokens.drop n } else l

/-- The method `gc` (rate.go 88-112): the number of tokens dropped and the new state. -/
def gc (now : Int) (l : limiter) : Nat × limiter :=
  if l.tokens.length = 0 then (0, l)
  else
    let n := gcLoop (outdated l now) l.tokens 0 0
    if n > 0 then (n, shiftN l n) else (n, l)

/-- The method `push` (rate.go 120-122). -/
def push (now : Int) (l : limiter) : limiter :=
  { l with tokens := l.tokens ++ [now] }

/-- The method `Take` (rate.go 25-36): the error (`none` is nil) and the new state. -/
def Take (now : Int) (l : limiter) : Option String × limiter :=
  let l1 := (gc now l).2
  if remains l1 = 0 then (some ErrNoMoreTokens, l1)
  else (none, push now l1)

/-- The method `Remains` (rate.go 39-45). -/
def Remains (now : Int) (l : limiter) : Int × limiter :=
  let l1 := (gc now l).2
  (remains l1, l1)

/-- The method `Taken` (rate.go 48-54). -/
def Taken (now : Int) (l : limiter) : Int × limiter :=
  let l1 := (gc now l).2
  (size l1, l1)

/-- A call of one of the methods of the interface `Limiter`. -/
inductive Call
  | take
  | remains
  | taken
  | setLimit (w n : Int)
  deriving DecidableEq, Repr

/-- The state after one call made at time `now`. -/
def exec (l : limiter) (now : Int) : Call → limiter
  | .take => (Take now l).2
  | .remains => (Remains now l).2
  | .taken => (Taken now l).2
  | .setLimit w n => SetLimit l w n

/-- The time of the last successful `Take`, updated by one call made at time `now`. -/
def lastTake (l : limiter) (now : Int) (last : Option Int) : Call → Option Int
  | .take => if (Take now l).1 = none then some now else last
  | _ => last

/-- A history of calls, each with the time at which it is made: the final state and the
time of the last successful `Take`, if there was one. -/
def run : limiter → Option Int → List (Int × Call) → limiter × Option Int
  | l, last, [] => (l, last)
  | l, last, (now, c) :: rest => run (exec l now c) (lastTake l now last c) rest

/-- Successive `Take` calls at the given times: the errors returned, oldest first, and
the final state. -/
def takes : limiter → List Int → List (Option String) × limiter
  | l, [] => ([], l)
  | l, now :: rest =>
    ((Take now l).1 :: (takes (Take now l).2 rest).1, (takes (Take now l).2 rest).2)

/-- An example history: three `Take` calls at 0, 1 and 2 ns on a limiter of 10 tokens per
second, then `SetLimit` lowers the limit to 2 at 3 ns. -/
def exLowered : List (Int × Call) :=
  [(0, Call.take), (1, Call.take), (2, Call.take), (3, Call.setLimit 1000000000 2)]

end rate

/-!
The balancers (`src/balancer/balancer.go`).

* An `Item` is any value with a method `WeightN() int`; it is represented by a name
  and the weight that `WeightN` returns.  The result `nil` of `Next` is `none`.
* `int` is 64-bit: negation and addition wrap.
* The value of `rand.Intn(wsum)` is an argument of the weight balancer; `rand.Intn`
  panics when its argument is not positive.
-/

namespace balancer

/-- Wrap-around of 64-bit signed arithmetic. -/
def wrapGo (x : Int) : Int :=
  (x + 9223372036854775808) % 18446744073709551616 - 9223372036854775808

/-- A value of the interface `Item` (balancer.go 36-38). -/
structure Item where
  name : String
  weight : Int
  deriving DecidableEq, Repr

/-- The method `WeightN` of an item. -/
def Item.WeightN (item : Item) : Int :=
  item.weight

/-- The struct `rrBalancer` (balancer.go 44-46).  The field `current` starts at 0 and
is only ever reset to 0 or incremented, so it is a natural number. -/
structure rrBalancer where
  current : Nat
  deriving DecidableEq, Repr

/-- The constructor `NewRR` (balancer.go 13-15). -/
def NewRR : rrBalancer :=
  { current := 0 }

/-- The method `rrBalancer.Next` (balancer.go 48-60): the item returned and the
balancer afterwards. -/
def rrBalancer.Next (b : rrBalancer) (items : List Item) : Option Item × rrBalancer :=
  if items.length = 0 then (none, b)
  else
    let current := if b.current ≥ items.length then 0 else b.current
    (items[current]?, { current := current + 1 })

/-- Successive calls of `rrBalancer.Next` on the same items: the results, oldest first,
and the balancer afterwards. -/
def rrBalancer.calls (items : List Item) : Nat → rrBalancer → List (Option Item) × rrBalancer
  | 0, b => ([], b)
  | k + 1, b =>
    ((b.Next items).1 :: (rrBalancer.calls items k (b.Next items).2).1,
      (rrBalancer.calls items k (b.Next items).2).2)

/-- What `weightBalancer.Next` does: it returns an item, returns nil, or panics. -/
inductive Picked
  | item (it : Item)
  | nil
  | goPanic (msg : String)
  deriving DecidableEq, Repr

/-- The first loop of `weightBalancer.Next` (balancer.go 71-77), from a given `wsum`. -/
def weightSum : List Item → Int → Int
  | [], wsum => wsum
  | item :: rest, wsum =>
    let val := item.WeightN
    let val1 := if val < 0 then wrapGo (-val) else val
    weightSum rest (wrapGo (wsum + val1))

/-- The second loop of `weightBalancer.Next` (balancer.go 89-94), from a given `n`;
`none` when the loop ends without returning. -/
def pickLoop (randval : Int) : List Item → Int → Option Item
  | [], _ => none
  | item :: rest, n =>
    let n1 := wrapGo (n + item.WeightN)
    if n1 > randval then some item else pickLoop randval rest n1

/-- The method `weightBalancer.Next` (balancer.go 64-96); `randval` is the value that
`rand.Intn(wsum)` returns. -/
def weightNext (items : List Item) (randval : Int) : Picked :=
  if items.length = 0 then Picked.nil
  else
    let wsum := weightSum items 0
    if wsum = 0 then Picked.nil
    else if wsum < 0 then Picked.goPanic "invalid argument to Intn"
    else
      match pickLoop randval items 0 with
      | some item => Picked.item item
      | none => Picked.nil

/-- The same items with every weight replaced by its absolute value. -/
def absWeights (items : List Item) : List Item :=
  items.map (fun it => { it with weight := (it.weight.natAbs : Int) })

/-- Total weight of the items. -/
def totalWeight (items : List Item) : Int :=
  (items.map Item.WeightN).sum

/-- Cumulative weight of the first `i` items. -/
def cumWeight (items : List Item) (i : Nat) : Int :=
  totalWeight (items.take i)

/-- The nodes of the example program (example.go 19-25). -/
def exNodes : List Item :=
  [{ name := "node1", weight := 1 }, { name := "node2", weight := 2 },
    { name := "node3", weight := 3 }, { name := "node4", weight := 4 },
    { name := "node5", weight := 5 }]

/-- Two items whose weights, the largest `int` and 1, add up to 2^63. -/
def exOverflow : List Item :=
  [{ name := "node1", weight := 9223372036854775807 }, { name := "node2", weight := 1 }]

/-- Three items whose weights, twice the largest `int` and 2, add up to 2^64. -/
def exWrapZero : List Item :=
  [{ name := "node1", weight := 9223372036854775807 },
    { name := "node2", weight := 9223372036854775807 }, { name := "node3", weight := 2 }]

end balancer

/-! ## ordermap: a string-keyed map with a sorted key slice

`src/ordermap/ordermap.go`.  The Go map is an association list; a value of type
`interface{}` is an `Option`, `none` being nil.  The key slice is a list; the part of
its backing array that lies beyond its length is only ever read inside `Del`, whose loop
ranges over the slice as it was on entry, so `Del` carries that array explicitly. -/

namespace ordermap

/-- OrderMap of the source: the map `m` and the key slice `keys`. -/
structure OrderMap (α : Type) where
  m : AList (fun _ : String => α)
  keys : List String

/-- New of the source: empty map, empty key slice. -/
def New {α : Type} : OrderMap α := { m := ∅, keys := [] }

/-- Get of the source: `o.m[key]`, nil when the key is absent. -/
def OrderMap.Get {α : Type} (o : OrderMap α) (key : String) : Option α :=
  o.m.lookup key

/-- Set of the source: nothing for an empty key or a nil value; an existing key has its
value replaced; a new key is stored and appended to the key slice. -/
def OrderMap.Set {α : Type} (o : OrderMap α) (key : String) (value : Option α) : OrderMap α :=
  match value with
  | none => o
  | some v =>
    if key = "" then o
    else if (o.m.lookup key).isSome then { m := o.m.insert key v, keys := o.keys }
    else { m := o.m.insert key v, keys := o.keys ++ [key] }

/-- The effect of `append(keys[:idx], keys[idx+1:]...)` on the backing array `arr` of a
slice of length `len`: the elements `idx+1 .. len-1` move one place down, every other
position keeps its element (the old last element stays behind at `len-1`). -/
def shiftDown (arr : List String) (len idx : Nat) : List String :=
  (List.range arr.length).map (fun j =>
    if j < idx then arr.getD j ""
    else if j + 1 < len then arr.getD (j + 1) ""
    else arr.getD j "")

/-- The loop of Del: `remaining` iterations are left, the next index is `idx`, `arr` is
the backing array shared by the ranged-over slice and `o.keys`, and `len` is the current
length of `o.keys`.  `none` is the run-time panic of `o.keys[idx+1:]` when `idx+1`
exceeds the current length. -/
def delLoop (key : String) : Nat → Nat → List String → Nat → Option (List String × Nat)
  | 0, _, arr, len => some (arr, len)
  | remaining + 1, idx, arr, len =>
    match arr[idx]? with
    | none => none
    | some val =>
      if val = key then
        if idx + 1 > len then none
        else delLoop key remaining (idx + 1) (shiftDown arr len idx) (len - 1)
      else delLoop key remaining (idx + 1) arr len

/-- Del of the source: delete the key from the map, then range over the key slice as it
is on entry and cut out every position whose element equals the key. -/
def OrderMap.Del {α : Type} (o : OrderMap α) (key : String) : Option (OrderMap α) :=
  match delLoop key o.keys.length 0 o.keys o.keys.length with
  | none => none
  | some (arr, len) => some { m := o.m.erase key, keys := arr.take len }

/-- Comparison of two strings as character sequences: the `<` of Go strings
(lexicographic; the byte order of UTF-8 is the order of the code points). -/
def lessChars : List Char → List Char → Bool
  | _, [] => false
  | [], _ :: _ => true
  | a :: as, b :: bs =>
    if a < b then true else if a = b then lessChars as bs else false

/-- Less of the source, on two elements of the key slice: `o.keys[i] < o.keys[j]`. -/
def Less (a b : String) : Bool := lessChars a.toList b.toList

/-- The slice `sort.Sort` leaves behind: the keys arranged so that no element is `Less`
than an earlier one.  The sort is an insertion sort here: `Less` is a strict total order
on strings, so every sorting algorithm yields the same slice. -/
def sortKeys (keys : List String) : List String :=
  keys.insertionSort (fun a b => Less b a = false)

/-- Keys of the source: `sort.Sort(o)` then the key slice. -/
def OrderMap.Keys {α : Type} (o : OrderMap α) : List String × OrderMap α :=
  (sortKeys o.keys, { m := o.m, keys := sortKeys o.keys })

/-- One call on an OrderMap. -/
inductive Call (α : Type)
  | set (key : String) (value : Option α)
  | del (key : String)
  | keys

/-- Carry out one call; `none` is a panic. -/
def exec {α : Type} : Call α → OrderMap α → Option (OrderMap α)
  | Call.set key value, o => some (o.Set key value)
  | Call.del key, o => o.Del key
  | Call.keys, o => some o.Keys.2

/-- Carry out a sequence of calls, first to last. -/
def run {α : Type} : List (Call α) → OrderMap α → Option (OrderMap α)
  | [], o => some o
  | c :: rest, o =>
    match exec c o with
    | none => none
    | some o1 => run rest o1

/-- What holds of every OrderMap built from New: the key slice has no duplicates, holds
exactly the keys of the map, and the empty key is not stored. -/
def Inv {α : Type} (o : OrderMap α) : Prop :=
  o.keys.Nodup ∧ (∀ k, k ∈ o.keys ↔ k ∈ o.m) ∧ "" ∉ o.m

/-- Whether key `k` counts as stored after one more call, `b` telling whether it did
before: a Set with that key, not empty, and a value that is not nil stores it; a Del with
that key removes it. -/
def storedStep {α : Type} (k : String) (b : Bool) : Call α → Bool
  | Call.set key value => if key = k ∧ key ≠ "" ∧ value.isSome = true then true else b
  | Call.del key => if key = k then false else b
  | Call.keys => b

/-- The keys stored after a sequence of calls on a new map, in the words of the
specification: set with a non-empty key and a value that is not nil, and not deleted
since. -/
def storedAfter {α : Type} (calls : List (Call α)) (k : String) : Bool :=
  calls.foldl (storedStep k) false

/-- An example sequence of calls. -/
def exCalls : List (Call Nat) :=
  [Call.set "b" (some 1), Call.set "a" (some 2), Call.set "" (some 3), Call.set "c" none,
    Call.set "ab" (some 4), Call.set "b" (some 5), Call.del "a", Call.del "zz",
    Call.set "B" (some 6)]

end ordermap

/-! ## httpmux: choosing the route of a request

`src/httpmux/mux.go`.  A Go string is a `String`, read as its sequence of characters.
The handlers of a route play no part in the choice and are left out.

Two pieces of the Go library are modelled along with the source:

* `sort.Sort` is not stable, so `bestMatch` takes the sorting function as an argument;
  what is proved of `bestMatch` holds for every function that returns its argument
  rearranged in the order of `Less`.
* `regexp`: a compiled expression is a list of items `Tok`.  `MustCompile` reads the
  expressions that `init` produces from patterns made of literal characters, `.`,
  path parameters and `***`; on any other expression it gives `none`.
  `FindStringSubmatch` is the leftmost match a backtracking search finds first, with
  greedy repetition, as in Go.
-/

namespace httpmux

/-! ### The functions of package `strings` that the source calls -/

/-- Whether the first sequence begins with the second. -/
def hasPrefixChars : List Char → List Char → Bool
  | _, [] => true
  | [], _ :: _ => false
  | c :: s, d :: p => (c == d) && hasPrefixChars s p

/-- Whether the second sequence occurs in the first. -/
def containsChars : List Char → List Char → Bool
  | [], sub => sub.isEmpty
  | c :: s, sub => hasPrefixChars (c :: s) sub || containsChars s sub

/-- The fields of a sequence between the occurrences of `sep`; never empty. -/
def splitChars (sep : Char) : List Char → List (List Char)
  | [] => [[]]
  | c :: s =>
    if c = sep then [] :: splitChars sep s
    else
      match splitChars sep s with
      | [] => [[c]]
      | f :: fs => (c :: f) :: fs

/-- The function `strings.HasPrefix`. -/
def HasPrefix (s pre : String) : Bool := hasPrefixChars s.toList pre.toList

/-- The function `strings.HasSuffix`. -/
def HasSuffix (s suf : String) : Bool := hasPrefixChars s.toList.reverse suf.toList.reverse

/-- The function `strings.Contains`. -/
def Contains (s sub : String) : Bool := containsChars s.toList sub.toList

/-- The function `strings.TrimPrefix`. -/
def TrimPrefix (s pre : String) : String :=
  if HasPrefix s pre then String.mk (s.toList.drop pre.toList.length) else s

/-- The function `strings.TrimSuffix`. -/
def TrimSuffix (s suf : String) : String :=
  if HasSuffix s suf then String.mk (s.toList.take (s.toList.length - suf.toList.length)) else s

/-- The function `strings.Split` with a separator of one character. -/
def Split (s : String) (sep : Char) : List String :=
  (splitChars sep s.toList).map String.mk

/-- The call `strings.Replace(s, "***", ".*", -1)`: `skip` is the number of characters
still to drop of an occurrence already replaced. -/
def replaceStars : List Char → Nat → List Char
  | [], _ => []
  | _ :: s, skip + 1 => replaceStars s skip
  | c :: s, 0 =>
    if hasPrefixChars (c :: s) ['*', '*', '*'] then '.' :: '*' :: replaceStars s 2
    else c :: replaceStars s 0

/-! ### Package `regexp`, for the expressions that `init` builds -/

/-- A character of the class `[a-zA-Z0-9._@-]`. -/
def isKeyChar (c : Char) : Bool :=
  (48 ≤ c.toNat && c.toNat ≤ 57) || (65 ≤ c.toNat && c.toNat ≤ 90)
    || (97 ≤ c.toNat && c.toNat ≤ 122) || c == '.' || c == '_' || c == '@' || c == '-'

/-- A character allowed in the name of a capture group: `[a-zA-Z0-9_]`. -/
def isNameChar (c : Char) : Bool :=
  (48 ≤ c.toNat && c.toNat ≤ 57) || (65 ≤ c.toNat && c.toNat ≤ 90)
    || (97 ≤ c.toNat && c.toNat ≤ 122) || c == '_'

/-- A character with a special meaning in an expression. -/
def isMeta (c : Char) : Bool :=
  "\\.+*?()|[]\x7b\x7d^$".toList.contains c

/-- An item of a compiled expression. -/
inductive Tok
  | lit (c : Char)
  | dot
  | dotStar
  | param (name : String)
  deriving DecidableEq, Repr

/-- Where the reader of an expression stands. -/
inductive ReadState
  | normal
  | star
  | opening (todo : List Char)
  | name (n : List Char)
  | cls (todo : List Char) (n : List Char)
  deriving DecidableEq, Repr

/-- The text that opens a named group, after its parenthesis. -/
def groupOpen : List Char := "?P<".toList

/-- The text that follows the name of a group made by `init`. -/
def groupClass : List Char := "[a-zA-Z0-9._@-]+)".toList

/-- Reads an expression character by character.  In state `star` the `*` of `.*` is
dropped; `opening` and `cls` read the fixed text around the name of a group. -/
def readExpr : List Char → ReadState → Option (List Tok)
  | [], ReadState.normal => some []
  | [], _ => none
  | c :: s, ReadState.normal =>
    if c = '(' then readExpr s (ReadState.opening groupOpen)
    else if c = '.' then
      if hasPrefixChars s ['*'] then (readExpr s ReadState.star).map (fun ts => Tok.dotStar :: ts)
      else (readExpr s ReadState.normal).map (fun ts => Tok.dot :: ts)
    else if isMeta c then none
    else (readExpr s ReadState.normal).map (fun ts => Tok.lit c :: ts)
  | _ :: s, ReadState.star => readExpr s ReadState.normal
  | c :: s, ReadState.opening todo =>
    match todo with
    | [] => none
    | [d] => if c = d then readExpr s (ReadState.name []) else none
    | d :: rest => if c = d then readExpr s (ReadState.opening rest) else none
  | c :: s, ReadState.name n =>
    if c = '>' then
      if n.isEmpty then none else readExpr s (ReadState.cls groupClass n)
    else if isNameChar c then readExpr s (ReadState.name (n ++ [c]))
    else none
  | c :: s, ReadState.cls todo n =>
    match todo with
    | [] => none
    | [d] =>
      if c = d then (readExpr s ReadState.normal).map (fun ts => Tok.param (String.mk n) :: ts)
      else none
    | d :: rest => if c = d then readExpr s (ReadState.cls rest n) else none

/-- The names of the groups of a compiled expression, in order. -/
def groupNames : List Tok → List String
  | [] => []
  | Tok.param n :: ts => n :: groupNames ts
  | _ :: ts => groupNames ts

/-- The function `regexp.MustCompile` on the expressions described above; `none` for
any other expression, among them those with a `*` after a `.*` or with a group name
used twice. -/
def MustCompile (expr : String) : Option (List Tok) :=
  match readExpr expr.toList ReadState.normal with
  | none => none
  | some ts => if (groupNames ts).Nodup then some ts else none

/-- The method `SubexpNames`: the empty name of the whole match, then the group names. -/
def SubexpNames (reg : List Tok) : List String :=
  "" :: groupNames reg

/-- The first of `f k`, `f (k - 1)`, ..., `f lo` that is not `none`. -/
def firstDown {α : Type} (f : Nat → Option α) (lo : Nat) : Nat → Option α
  | 0 => if lo = 0 then f 0 else none
  | k + 1 => if k + 1 < lo then none else (f (k + 1)).orElse (fun _ => firstDown f lo k)

/-- Matches the items at the head of the text, longest repetition first: the text left
over and the groups captured, `caps` being those captured so far. -/
def matchHere : List Tok → List Char → List String → Option (List Char × List String)
  | [], s, caps => some (s, caps)
  | Tok.lit c :: ts, s, caps =>
    match s with
    | d :: s1 => if c = d then matchHere ts s1 caps else none
    | [] => none
  | Tok.dot :: ts, s, caps =>
    match s with
    | d :: s1 => if d = '\n' then none else matchHere ts s1 caps
    | [] => none
  | Tok.dotStar :: ts, s, caps =>
    firstDown (fun k => matchHere ts (s.drop k) caps) 0 (s.takeWhile (fun d => d != '\n')).length
  | Tok.param _ :: ts, s, caps =>
    firstDown (fun k => matchHere ts (s.drop k) (caps ++ [String.mk (s.take k)])) 1
      (s.takeWhile isKeyChar).length

/-- The leftmost match in the text: the text matched, then the groups. -/
def findFrom (reg : List Tok) : List Char → Option (List String)
  | [] => (matchHere reg [] []).map (fun r => "" :: r.2)
  | c :: s =>
    match matchHere reg (c :: s) [] with
    | some (left, caps) =>
      some (String.mk ((c :: s).take ((c :: s).length - left.length)) :: caps)
    | none => findFrom reg s

/-- The method `FindStringSubmatch`; the nil slice is `[]`. -/
def FindStringSubmatch (reg : List Tok) (s : String) : List String :=
  (findFrom reg s.toList).getD []

/-! ### Routes -/

/-- The type `Params` (context.go): a `map[string]string`. -/
abbrev Params := AList (fun _ : String => String)

/-- The struct `Route` (mux.go 343-354), without its handlers; `reg` is `none` for the
nil pointer. -/
structure Route where
  Method : String
  Pattern : String
  reg : Option (List Tok)
  paramKeys : List String
  numField : Nat
  lastField : String
  wildchars : Bool
  deriving DecidableEq, Repr

/-- Where the replacement of the path parameters stands. -/
inductive KeyState
  | normal
  | colon
  | key (k : List Char)
  deriving DecidableEq, Repr

/-- The text `init` puts in the place of the parameter `/:key`. -/
def groupFor (k : List Char) : List Char :=
  "/(?P<".toList ++ k ++ ">[a-zA-Z0-9._@-]+)".toList

/-- The call `reg.ReplaceAllStringFunc(pattern, ...)` of `init`, where `reg` is
`/:([a-zA-Z0-9._@-]+)`: every `/:` followed by key characters is replaced, the key being
the longest run of key characters; the new text and the keys, in order.  In state `key`
the character at the head belongs to the key. -/
def replaceKeys : List Char → KeyState → List Char × List String
  | [], _ => ([], [])
  | c :: s, KeyState.normal =>
    match s with
    | d :: e :: _ =>
      if c = '/' ∧ d = ':' ∧ isKeyChar e = true then replaceKeys s KeyState.colon
      else (c :: (replaceKeys s KeyState.normal).1, (replaceKeys s KeyState.normal).2)
    | _ => (c :: (replaceKeys s KeyState.normal).1, (replaceKeys s KeyState.normal).2)
  | _ :: s, KeyState.colon => replaceKeys s (KeyState.key [])
  | c :: s, KeyState.key k =>
    match s with
    | d :: _ =>
      if isKeyChar d then replaceKeys s (KeyState.key (k ++ [c]))
      else (groupFor (k ++ [c]) ++ (replaceKeys s KeyState.normal).1,
        String.mk (k ++ [c]) :: (replaceKeys s KeyState.normal).2)
    | [] => (groupFor (k ++ [c]), [String.mk (k ++ [c])])

/-- The method `init` (mux.go 366-389) applied to the route under construction; `none`
when the expression built is not one that `MustCompile` reads. -/
def Route.init (r : Route) (pattern : String) : Option Route :=
  let keys := (replaceKeys pattern.toList KeyState.normal).2
  let fields := Split (TrimPrefix pattern "/") '/'
  let newRegStr := String.mk (replaceKeys pattern.toList KeyState.normal).1
  let wildchars := if Contains newRegStr "***" then true else r.wildchars
  let newRegStr1 :=
    if Contains newRegStr "***" then String.mk (replaceStars newRegStr.toList 0) else newRegStr
  match MustCompile newRegStr1 with
  | none => none
  | some reg =>
    some { Method := r.Method, Pattern := r.Pattern, reg := some reg, paramKeys := keys,
           numField := fields.length,
           lastField := if fields.length > 0 then fields.getLastD "" else r.lastField,
           wildchars := wildchars }

/-- The function `newRoute` (mux.go 356-364). -/
def newRoute (method pattern : String) : Option Route :=
  let pattern1 := TrimSuffix pattern "/"
  Route.init { Method := method, Pattern := pattern1, reg := none, paramKeys := [],
               numField := 0, lastField := "", wildchars := false } pattern1

/-- The loop of `match` that fills the map of path parameters. -/
def fillParams (matchedNames matchedStrs : List String) : Params :=
  (matchedNames.zip matchedStrs).foldl
    (fun (params : Params) p => if p.1 ≠ "" then params.insert p.1 p.2 else params) ∅

/-- The method `match` (mux.go 392-461): the parameters (`none` is the nil map) and
whether the request matches.  A bare `return` gives back the named results as they
stand. -/
def Route.matchRoute (r : Route) (method path : String) : Option Params × Bool :=
  if ¬ (r.Method = "*" ∨ r.Method = method) then (none, false)
  else
    let fields := Split (TrimPrefix path "/") '/'
    if (if ¬ r.wildchars then fields.length ≠ r.numField else fields.length < r.numField) then
      (none, false)
    else if ¬ Contains r.Pattern "/:" then (none, decide (path = r.Pattern))
    else if fields.length > 0 ∧ ¬ HasPrefix r.lastField ":" ∧ ¬ Contains r.lastField "***"
        ∧ fields.getLastD "" ≠ r.lastField then (none, false)
    else
      match r.reg with
      | none => (none, false)
      | some reg =>
        let matchedStrs := FindStringSubmatch reg path
        if matchedStrs.length = 0 then (none, false)
        else
          let matchedNames := SubexpNames reg
          if matchedStrs.length ≠ matchedNames.length then (none, true)
          else (some (fillParams matchedNames matchedStrs), true)

/-! ### The router -/

/-- The struct `Mux` (mux.go 25-36): the fields that route selection reads.  The field
`prefix` of the source is `pfx`. -/
structure Mux where
  pfx : String
  Routes : List Route
  deriving DecidableEq, Repr

/-- The function `New` (mux.go 39-50). -/
def New (pfx : String) : Mux := { pfx := pfx, Routes := [] }

/-- The method `AllRoutes` (mux.go 140-144). -/
def Mux.AllRoutes (m : Mux) : List Route := m.Routes

/-- The method `AddRoute` (mux.go 154-159); `none` when `newRoute` is. -/
def Mux.AddRoute (m : Mux) (method pattern : String) : Option Mux :=
  (newRoute method (m.pfx ++ pattern)).map (fun route =>
    { pfx := m.pfx, Routes := m.Routes ++ [route] })

/-- The method `GET` (mux.go 238-240). -/
def Mux.GET (m : Mux) (pattern : String) : Option Mux := m.AddRoute "GET" pattern

/-- The method `Less` of `routeSourter` (mux.go 467), on two elements of the slice. -/
def Less (a b : Route) : Bool := decide (a.paramKeys.length < b.paramKeys.length)

/-- The method `bestMatch` (mux.go 296-317); `sortRoutes` is the effect of
`sort.Sort(routeSourter(matched))` on the slice.  `none` is nil. -/
def Mux.bestMatch (sortRoutes : List Route → List Route) (m : Mux) (method path : String) :
    Option Route × Option Params :=
  let path1 := TrimSuffix path "/"
  let matched := m.AllRoutes.filter (fun route => (route.matchRoute method path1).2)
  if matched.length = 0 then (none, none)
  else
    match sortRoutes matched with
    | [] => (none, none)
    | best :: _ => (some best, (best.matchRoute method path1).1)

/-- A sorting function for the examples: insertion sort by `Less`. -/
def sortByLess (l : List Route) : List Route :=
  l.insertionSort (fun a b => Less b a = false)

/-- What `sort.Sort(routeSourter(s))` guarantees of the slice it leaves behind: the same
routes, none of them `Less` than an earlier one. -/
def SortsByLess (sortRoutes : List Route → List Route) : Prop :=
  ∀ l, (sortRoutes l).Perm l ∧ (sortRoutes l).Pairwise (fun a b => Less b a = false)

/-- The first example of the source: routes `/user/all` and `/user/:id`. -/
def exUsers : Option Mux :=
  ((New "").GET "/user/all").bind (fun m => m.GET "/user/:id")

/-- The second example of the source: routes `/user/:name/repoxxx` and
`/user/:name/repo`. -/
def exRepos : Option Mux :=
  ((New "").GET "/user/:name/repoxxx").bind (fun m => m.GET "/user/:name/repo")

/-- The router of the first example. -/
def exUsersMux : Mux := exUsers.getD (New "")

/-- The router of the second example. -/
def exReposMux : Mux := exRepos.getD (New "")

end httpmux

namespace mole

/-! ## The registry -/

theorem lookup_some_mem_keys {m : AList (fun _ : String => ClusterAgent)} {id : String}
    {a : ClusterAgent} (h : m.lookup id = some a) : id ∈ m.keys := by
  have hsome : (m.lookup id).isSome = true := by rw [h]; rfl
  exact AList.mem_keys.mp (AList.lookup_isSome.mp hsome)

theorem keys_insert_length_of_mem (m : AList (fun _ : String => ClusterAgent)) (id : String)
    (a : ClusterAgent) (h : id ∈ m.keys) : (m.insert id a).keys.length = m.keys.length := by
  rw [AList.keys_insert, List.length_cons, List.length_erase_of_mem h]
  have hpos : 0 < m.keys.length := List.length_pos_of_mem h
  omega

theorem keys_insert_count_self (m : AList (fun _ : String => ClusterAgent)) (id : String)
    (a : ClusterAgent) : (m.insert id a).keys.count id = 1 :=
  List.count_eq_one_of_mem (m.insert id a).keys_nodup
    (AList.mem_keys.mp ((AList.mem_insert m).mpr (Or.inl rfl)))

theorem AddAgent_of_registered (s : Sys) (id : String) (a0 : ClusterAgent) (c1 : Conn)
    (hreg : s.m.agents.lookup id = some a0) :
    AddAgent s id c1 = Sys.mk (Master.mk
      (s.m.agents.insert id (ClusterAgent.mk id c1 s.clock s.clock)) s.m.listen s.m.authToken
      s.m.heartbeat) s.pub s.down (s.log ++ [Event.closed a0.conn]) s.clock := by
  simp [AddAgent, hreg, connClose]

/-- C1: when `id` is registered with control connection `c0` and `c1 ≠ c0`,
`AddAgent id c1` (which is what `handle` does on a valid JOIN) closes `c0` and nothing
else, leaves exactly one entry for `id`, whose control connection is `c1`, keeps the
number of registered agents, and leaves the record of every other agent as it was. -/
theorem C1_AddAgent_reconnect_supersedes (valid : Command → Option String) (s : Sys)
    (id wid : String) (a0 : ClusterAgent) (c0 c1 : Conn)
    (hreg : s.m.agents.lookup id = some a0) (hc0 : a0.conn = c0) (hne : c1 ≠ c0)
    (hvalid : valid { Cmd := CmdKind.cmdJoin, AgentID := id, WorkerID := wid } = none) :
    (AddAgent s id c1).log = s.log ++ [Event.closed c0]
    ∧ (Event.closed c1 ∈ (AddAgent s id c1).log ↔ Event.closed c1 ∈ s.log)
    ∧ (∃ a1, Agent (AddAgent s id c1) id = some a1 ∧ a1.conn = c1 ∧ a1.id = id)
    ∧ (AddAgent s id c1).m.agents.keys.count id = 1
    ∧ (AddAgent s id c1).m.agents.keys.length = s.m.agents.keys.length
    ∧ (∀ j, j ≠ id → Agent (AddAgent s id c1) j = Agent s j)
    ∧ handle valid s c1 (.ok { Cmd := CmdKind.cmdJoin, AgentID := id, WorkerID := wid })
        = AddAgent s id c1 := by
  have hs := AddAgent_of_registered s id a0 c1 hreg
  rw [hc0] at hs
  refine ⟨?_, ?_, ?_, ?_, ?_, ?_, ?_⟩
  · rw [hs]
  · rw [hs]
    simp [hne]
  · rw [hs]
    exact ⟨_, AList.lookup_insert _, rfl, rfl⟩
  · rw [hs]
    exact keys_insert_count_self _ _ _
  · rw [hs]
    exact keys_insert_length_of_mem _ _ _ (lookup_some_mem_keys hreg)
  · intro j hj
    rw [hs]
    exact AList.lookup_insert_ne hj
  · simp [handle, hvalid]

/-- C1 at a concrete input: "A1", joined over connection 1, joins again over
connection 2. -/
theorem C1_AddAgent_reconnect_supersedes_witness :
    exJoined.m.agents.lookup "A1" = some { id := "A1", conn := 1, joinAt := 0, lastActive := 0 }
    ∧ (2 : Conn) ≠ 1
    ∧ specValid { Cmd := CmdKind.cmdJoin, AgentID := "A1", WorkerID := "" } = none
    ∧ (AddAgent exJoined "A1" 2).log = exJoined.log ++ [Event.closed 1]
    ∧ (∃ a1, Agent (AddAgent exJoined "A1" 2) "A1" = some a1 ∧ a1.conn = 2 ∧ a1.id = "A1")
    ∧ (AddAgent exJoined "A1" 2).m.agents.keys.count "A1" = 1
    ∧ (AddAgent exJoined "A1" 2).m.agents.keys.length = exJoined.m.agents.keys.length :=
  have h := C1_AddAgent_reconnect_supersedes specValid exJoined "A1" ""
    { id := "A1", conn := 1, joinAt := 0, lastActive := 0 } 1 2
    (by decide) rfl (by decide) (by decide)
  ⟨by decide, by decide, by decide, h.1, h.2.2.1, h.2.2.2.1, h.2.2.2.2.1⟩

/-! ## Dial on an agent that is not registered -/

theorem connWrite_of_closed (s : Sys) (c : Conn) (frame : Command)
    (h : Event.closed c ∈ s.log) :
    connWrite s c frame = (some "use of closed network connection", s) := by
  simp [connWrite, h]

theorem CloseAgent_of_registered (s : Sys) (id : String) (ca : ClusterAgent)
    (hreg : s.m.agents.lookup id = some ca) :
    CloseAgent s id = Sys.mk (Master.mk (s.m.agents.erase id) s.m.listen s.m.authToken
      s.m.heartbeat) s.pub s.down (s.log ++ [Event.closed ca.conn]) s.clock := by
  simp [CloseAgent, hreg, connClose]

/-- C2, refuted as stated: on a broker where "ghost" never joined, `Agent` returns nil
and `Dial` on that nil record does not fail with an error, it panics. -/
theorem C2_counterexample :
    Agent (Sys.start exCfg) "ghost" = none
    ∧ (Dial specValid (Agent (Sys.start exCfg) "ghost") "0123456789" [] [] (Sys.start exCfg)).1
        = DialOutcome.goPanic "invalid memory address or nil pointer dereference"
    ∧ ∀ e, (Dial specValid (Agent (Sys.start exCfg) "ghost") "0123456789" [] []
        (Sys.start exCfg)).1 ≠ DialOutcome.ret none (some e) := by
  refine ⟨by decide, by decide, ?_⟩
  intro e h
  have hp : (Dial specValid (Agent (Sys.start exCfg) "ghost") "0123456789" [] []
      (Sys.start exCfg)).1
      = DialOutcome.goPanic "invalid memory address or nil pointer dereference" := by decide
  rw [hp] at h
  cases h

/-- C2, amended: for an id that is not registered `Agent` returns nil (there is no
AgentNotFound error; the caller checks for nil), and without touching the state.  `Dial`
on the record of an agent removed by `CloseAgent` returns at once a nil connection and the
write error of its closed control connection: nothing is written, nothing is subscribed
and no time passes waiting on the bus. -/
theorem C2_unregistered_lookup_nil_and_stale_dial_fails (valid : Command → Option String)
    (s : Sys) (id wid : String) (ca : ClusterAgent) (pre during : List Act)
    (hreg : Agent s id = some ca) :
    Agent (CloseAgent s id) id = none
    ∧ (∀ j, j ∉ s.m.agents → Agent s j = none)
    ∧ Dial valid (some ca) wid pre during (CloseAgent s id)
        = (DialOutcome.ret none (some "use of closed network connection"), CloseAgent s id) := by
  have hs := CloseAgent_of_registered s id ca hreg
  refine ⟨?_, ?_, ?_⟩
  · rw [hs]
    exact AList.lookup_erase id _
  · intro j hj
    exact AList.lookup_eq_none.mpr hj
  · have hclosed : Event.closed ca.conn ∈ (CloseAgent s id).log := by
      rw [hs]
      simp
    simp only [Dial, connWrite_of_closed _ _ _ hclosed]

/-- C2 amended, at a concrete input: "A1" joined over connection 1 and then left. -/
theorem C2_unregistered_lookup_nil_and_stale_dial_fails_witness :
    Agent exJoined "A1" = some { id := "A1", conn := 1, joinAt := 0, lastActive := 0 }
    ∧ Agent (CloseAgent exJoined "A1") "A1" = none
    ∧ Dial specValid (some { id := "A1", conn := 1, joinAt := 0, lastActive := 0 })
        "0123456789" [] [] (CloseAgent exJoined "A1")
        = (DialOutcome.ret none (some "use of closed network connection"),
            CloseAgent exJoined "A1") :=
  have h := C2_unregistered_lookup_nil_and_stale_dial_fails specValid exJoined "A1"
    "0123456789" { id := "A1", conn := 1, joinAt := 0, lastActive := 0 } [] [] (by decide)
  ⟨by decide, h.1, h.2.2⟩

/-! ## Order of the write and the subscription in Dial -/

/-- C3, evaluated on the code: "A1" is registered over connection 1; `Dial` writes the
NEW_WORKER command first; the worker connection 7 is accepted and published 5 ns later,
before `Dial` has subscribed; the subscription comes after and never sees that worker,
so `Dial` runs into its timeout. -/
theorem C3_Dial_subscribes_after_writing :
    (Dial specValid (Agent exJoined "A1") "0123456789"
        [{ delay := 5, conn := 7, dec := .ok exWorkerCmd }] [] exJoined).2.log
      = [Event.wrote 1 exWorkerCmd,
         Event.published (Value.worker
           { agentID := "A1", workerID := "0123456789", conn := 7, establishedAt := 5 }),
         Event.subscribed 0,
         Event.evicted 0]
    ∧ (Dial specValid (Agent exJoined "A1") "0123456789"
        [{ delay := 5, conn := 7, dec := .ok exWorkerCmd }] [] exJoined).1
      = DialOutcome.ret none (some "agent Dial(): new worker conn timeout") := by
  constructor <;> decide

/-! ## The bus -/

theorem slot_Publish (b : Bus) (v : Value) (t : Nat) :
    (b.Publish v).slot t = (b.slot t).map (Subscriber.offer v) := by
  unfold Bus.slot Bus.Publish
  have h := List.getD_map (l := b.subs) (d := none) (n := t) (Option.map (Subscriber.offer v))
  simpa using h

theorem slot_Subcribe_self (b : Bus) (p : Value → Bool) :
    (b.Subcribe p).2.slot b.subs.length = some { pred := p, ch := none } := by
  simp [Bus.slot, Bus.Subcribe]

theorem slot_Subcribe_ne (b : Bus) (p : Value → Bool) (t : Nat) (h : t ≠ b.subs.length) :
    (b.Subcribe p).2.slot t = b.slot t := by
  unfold Bus.slot Bus.Subcribe
  rcases Nat.lt_or_gt_of_ne h with hlt | hgt
  · exact List.getD_append _ _ _ _ hlt
  · rw [List.getD_eq_default _ _ (by simp; omega), List.getD_eq_default _ _ (by omega)]

theorem slot_Evict_self (b : Bus) (t : Nat) : (b.Evict t).slot t = none := by
  unfold Bus.slot Bus.Evict
  simp only [List.getD_eq_getElem?_getD, List.getElem?_set, if_true]
  split <;> rfl

theorem slot_Evict_ne (b : Bus) (t u : Nat) (h : t ≠ u) : (b.Evict u).slot t = b.slot t := by
  unfold Bus.slot Bus.Evict
  simp only [List.getD_eq_getElem?_getD]
  rw [List.getElem?_set_ne (Ne.symm h)]

theorem registered_Publish (b : Bus) (v : Value) (t : Nat) :
    (b.Publish v).registered t = b.registered t := by
  unfold Bus.registered
  rw [slot_Publish]
  cases b.slot t <;> rfl

theorem length_Publish (b : Bus) (v : Value) : (b.Publish v).subs.length = b.subs.length := by
  simp [Bus.Publish]

/-! ## What one run of handle does to the clock, the trace and the bus -/

theorem handle_clock (valid : Command → Option String) (s : Sys) (conn : Conn)
    (dec : Except String Command) : (handle valid s conn dec).clock = s.clock := by
  unfold handle
  cases dec with
  | error e => rfl
  | ok cmd =>
    dsimp only
    cases valid cmd with
    | some e => rfl
    | none =>
      dsimp only
      cases cmd.Cmd <;> dsimp only [AddAgent, CloseAgent, FreshAgent, publish, connClose] <;>
        split <;> rfl

theorem handle_pub (valid : Command → Option String) (s : Sys) (conn : Conn)
    (dec : Except String Command) :
    (handle valid s conn dec).pub = s.pub ∨
      ∃ cmd, dec = .ok cmd ∧ valid cmd = none ∧ cmd.Cmd = CmdKind.cmdNewWorker ∧
        (handle valid s conn dec).pub = s.pub.Publish (Value.worker
          { agentID := cmd.AgentID, workerID := cmd.WorkerID, conn := conn,
            establishedAt := s.clock }) := by
  unfold handle
  cases dec with
  | error e => exact Or.inl rfl
  | ok cmd =>
    dsimp only
    cases hv : valid cmd with
    | some e => exact Or.inl rfl
    | none =>
      dsimp only
      cases hk : cmd.Cmd with
      | cmdNewWorker =>
        right
        refine ⟨cmd, rfl, hv, hk, ?_⟩
        dsimp only [FreshAgent, publish]
        split <;> rfl
      | cmdJoin =>
        left
        dsimp only [AddAgent, connClose]
        split <;> rfl
      | cmdLeave =>
        left
        dsimp only [CloseAgent, connClose]
        split <;> rfl
      | cmdPing =>
        left
        dsimp only [FreshAgent]
        split <;> rfl

theorem handle_log (valid : Command → Option String) (s : Sys) (conn : Conn)
    (dec : Except String Command) : ∃ l, (handle valid s conn dec).log = s.log ++ l := by
  unfold handle
  cases dec with
  | error e => exact ⟨[], by simp⟩
  | ok cmd =>
    dsimp only
    cases valid cmd with
    | some e => exact ⟨[], by simp⟩
    | none =>
      dsimp only
      cases cmd.Cmd <;> dsimp only [AddAgent, CloseAgent, FreshAgent, publish, connClose] <;>
        split <;> first | exact ⟨_, rfl⟩ | exact ⟨[], by simp⟩

theorem handle_pub_newWorker (valid : Command → Option String) (s : Sys) (conn : Conn)
    (cmd : Command) (hv : valid cmd = none) (hk : cmd.Cmd = CmdKind.cmdNewWorker) :
    (handle valid s conn (.ok cmd)).pub = s.pub.Publish (Value.worker
      { agentID := cmd.AgentID, workerID := cmd.WorkerID, conn := conn,
        establishedAt := s.clock }) := by
  simp only [handle, hv, hk, FreshAgent, publish]
  split <;> rfl

theorem handle_pub_other (valid : Command → Option String) (s : Sys) (conn : Conn)
    (dec : Except String Command)
    (h : ¬ ∃ cmd, dec = .ok cmd ∧ valid cmd = none ∧ cmd.Cmd = CmdKind.cmdNewWorker) :
    (handle valid s conn dec).pub = s.pub := by
  rcases handle_pub valid s conn dec with hp | ⟨cmd, h1, h2, h3, _⟩
  · exact hp
  · exact absurd ⟨cmd, h1, h2, h3⟩ h

theorem run_clock (valid : Command → Option String) (a : Act) (s : Sys) :
    (a.run valid s).clock = s.clock + a.delay := by
  unfold Act.run
  rw [handle_clock]

theorem run_log (valid : Command → Option String) (a : Act) (s : Sys) :
    ∃ l, (a.run valid s).log = s.log ++ l := by
  unfold Act.run
  exact handle_log valid _ a.conn a.dec

theorem run_registered (valid : Command → Option String) (a : Act) (s : Sys) (t : Nat) :
    (a.run valid s).pub.registered t = s.pub.registered t := by
  unfold Act.run
  rcases handle_pub valid { s with clock := s.clock + a.delay } a.conn a.dec with hp | ⟨_, _, _, _, hp⟩
  · rw [hp]
  · rw [hp]
    exact registered_Publish _ _ _

theorem run_length (valid : Command → Option String) (a : Act) (s : Sys) :
    (a.run valid s).pub.subs.length = s.pub.subs.length := by
  unfold Act.run
  rcases handle_pub valid { s with clock := s.clock + a.delay } a.conn a.dec with hp | ⟨_, _, _, _, hp⟩
  · rw [hp]
  · rw [hp]
    exact length_Publish _ _

theorem run_slot_offers (valid : Command → Option String) (id wid : String) (a : Act)
    (s : Sys) (sub : Nat) (ho : a.offers valid id wid = true)
    (hslot : s.pub.slot sub = some { pred := Dial.pred id wid, ch := none }) :
    (a.run valid s).pub.slot sub = some
      { pred := Dial.pred id wid
        ch := some (Value.worker
          { agentID := id, workerID := wid, conn := a.conn, establishedAt := s.clock + a.delay }) } := by
  unfold Act.offers at ho
  unfold Act.run
  cases hd : a.dec with
  | error e => rw [hd] at ho; cases ho
  | ok cmd =>
    rw [hd] at ho
    simp only [Bool.and_eq_true, decide_eq_true_eq, Option.isNone_iff_eq_none] at ho
    obtain ⟨⟨⟨hv, hk⟩, hid⟩, hwid⟩ := ho
    rw [handle_pub_newWorker valid _ a.conn cmd hv hk, slot_Publish]
    dsimp only
    rw [hslot, hid, hwid]
    simp [Subscriber.offer, Dial.pred]

theorem run_slot_not_offers (valid : Command → Option String) (id wid : String) (a : Act)
    (s : Sys) (sub : Nat) (ho : a.offers valid id wid = false)
    (hslot : s.pub.slot sub = some { pred := Dial.pred id wid, ch := none }) :
    (a.run valid s).pub.slot sub = some { pred := Dial.pred id wid, ch := none } := by
  unfold Act.run
  rcases handle_pub valid { s with clock := s.clock + a.delay } a.conn a.dec with
    hp | ⟨cmd, hd, hv, hk, hp⟩
  · rw [hp]
    exact hslot
  · rw [hp, slot_Publish]
    dsimp only
    rw [hslot]
    have hne : ¬ (cmd.AgentID = id ∧ cmd.WorkerID = wid) := by
      intro hc
      unfold Act.offers at ho
      rw [hd] at ho
      simp [hv, hk, hc.1, hc.2] at ho
    have hp2 : Dial.pred id wid (Value.worker
        { agentID := cmd.AgentID, workerID := cmd.WorkerID, conn := a.conn,
          establishedAt := s.clock + a.delay }) = false := by
      simp only [Dial.pred]
      by_cases h1 : cmd.WorkerID = wid
      · have h2 : cmd.AgentID ≠ id := fun h2 => hne ⟨h2, h1⟩
        simp [h2]
      · simp [h1]
    simp [Subscriber.offer, hp2]

theorem select_of_recv (valid : Command → Option String) (sub deadline : Nat)
    (acts : List Act) (s : Sys) (v : Value) (h : s.pub.recv sub = some v) :
    Dial.select valid sub deadline acts s = (some v, s) := by
  cases acts <;> simp [Dial.select, h]

theorem recv_of_slot (b : Bus) (sub : Nat) (x : Subscriber) (h : b.slot sub = some x) :
    b.recv sub = x.ch := by
  simp [Bus.recv, h]

theorem arrival_lt (valid : Command → Option String) (id wid : String) :
    ∀ (acts : List Act) (budget : Nat) (p : Nat × Conn),
      arrival valid id wid budget acts = some p → p.1 < budget := by
  intro acts
  induction acts with
  | nil => intro budget p h; simp [arrival] at h
  | cons a rest ih =>
    intro budget p h
    unfold arrival at h
    split at h
    · rename_i hlt
      split at h
      · cases h
        exact hlt
      · cases hr : arrival valid id wid (budget - a.delay) rest with
        | none => rw [hr] at h; cases h
        | some q =>
          rw [hr] at h
          cases h
          have := ih _ _ hr
          dsimp only
          omega
    · cases h

/-- The wait of `Dial` through the bus computes exactly the specification `arrival`. -/
theorem select_arrival (valid : Command → Option String) (id wid : String) (sub : Nat) :
    ∀ (during : List Act) (s : Sys) (budget : Nat),
      s.pub.slot sub = some { pred := Dial.pred id wid, ch := none } →
      (Dial.select valid sub (s.clock + budget) during s).1
          = (arrival valid id wid budget during).map (fun p => Value.worker
              { agentID := id, workerID := wid, conn := p.2, establishedAt := s.clock + p.1 })
        ∧ (Dial.select valid sub (s.clock + budget) during s).2.clock
          = (match arrival valid id wid budget during with
              | some p => s.clock + p.1
              | none => s.clock + budget) := by
  intro during
  induction during with
  | nil =>
    intro s budget hslot
    have hr : s.pub.recv sub = none := recv_of_slot _ _ _ hslot
    simp [Dial.select, hr, arrival]
  | cons a rest ih =>
    intro s budget hslot
    have hr : s.pub.recv sub = none := recv_of_slot _ _ _ hslot
    by_cases hlt : a.delay < budget
    · have hlt2 : s.clock + a.delay < s.clock + budget := by omega
      cases ho : a.offers valid id wid with
      | true =>
        have hs1 := run_slot_offers valid id wid a s sub ho hslot
        have hr1 := recv_of_slot _ _ _ hs1
        simp only [Dial.select, hr, if_pos hlt2, arrival, if_pos hlt, ho]
        rw [select_of_recv valid sub _ rest _ _ hr1]
        simp [run_clock]
      | false =>
        have hs1 := run_slot_not_offers valid id wid a s sub ho hslot
        have hih := ih (a.run valid s) (budget - a.delay) hs1
        have hc : (a.run valid s).clock + (budget - a.delay) = s.clock + budget := by
          rw [run_clock]; omega
        rw [hc] at hih
        simp only [Dial.select, hr, if_pos hlt2, arrival, if_pos hlt, ho]
        rw [hih.1, hih.2, run_clock]
        cases arrival valid id wid (budget - a.delay) rest with
        | none => simp
        | some q => simp [Nat.add_assoc]
    · have hlt2 : ¬ s.clock + a.delay < s.clock + budget := by omega
      simp [Dial.select, hr, if_neg hlt2, arrival, if_neg hlt]

/-! ## Interleaved runs and the wait of Dial: clock, trace, registrations -/

theorem runActs_clock (valid : Command → Option String) :
    ∀ (acts : List Act) (s : Sys), (runActs valid acts s).clock = s.clock + elapsed acts := by
  intro acts
  induction acts with
  | nil => intro s; simp [runActs, elapsed]
  | cons a rest ih =>
    intro s
    have h := ih (a.run valid s)
    rw [run_clock] at h
    simp only [runActs, h, elapsed, List.map_cons, List.sum_cons]
    omega

theorem runActs_length (valid : Command → Option String) :
    ∀ (acts : List Act) (s : Sys),
      (runActs valid acts s).pub.subs.length = s.pub.subs.length := by
  intro acts
  induction acts with
  | nil => intro s; rfl
  | cons a rest ih =>
    intro s
    simp only [runActs, ih, run_length]

theorem runActs_registered (valid : Command → Option String) (t : Nat) :
    ∀ (acts : List Act) (s : Sys),
      (runActs valid acts s).pub.registered t = s.pub.registered t := by
  intro acts
  induction acts with
  | nil => intro s; rfl
  | cons a rest ih =>
    intro s
    simp only [runActs, ih, run_registered]

theorem runActs_log (valid : Command → Option String) :
    ∀ (acts : List Act) (s : Sys), ∃ l, (runActs valid acts s).log = s.log ++ l := by
  intro acts
  induction acts with
  | nil => intro s; exact ⟨[], by simp [runActs]⟩
  | cons a rest ih =>
    intro s
    obtain ⟨l1, h1⟩ := run_log valid a s
    obtain ⟨l2, h2⟩ := ih (a.run valid s)
    exact ⟨l1 ++ l2, by simp only [runActs, h2, h1, List.append_assoc]⟩

theorem select_registered (valid : Command → Option String) (sub deadline t : Nat) :
    ∀ (acts : List Act) (s : Sys),
      (Dial.select valid sub deadline acts s).2.pub.registered t = s.pub.registered t := by
  intro acts
  induction acts with
  | nil =>
    intro s
    unfold Dial.select
    split <;> rfl
  | cons a rest ih =>
    intro s
    unfold Dial.select
    split
    · rfl
    · split
      · rw [ih, run_registered]
      · rfl

theorem select_log (valid : Command → Option String) (sub deadline : Nat) :
    ∀ (acts : List Act) (s : Sys),
      ∃ l, (Dial.select valid sub deadline acts s).2.log = s.log ++ l := by
  intro acts
  induction acts with
  | nil =>
    intro s
    unfold Dial.select
    split <;> exact ⟨[], by simp⟩
  | cons a rest ih =>
    intro s
    unfold Dial.select
    split
    · exact ⟨[], by simp⟩
    · split
      · obtain ⟨l1, h1⟩ := run_log valid a s
        obtain ⟨l2, h2⟩ := ih (a.run valid s)
        exact ⟨l1 ++ l2, by rw [h2, h1, List.append_assoc]⟩
      · exact ⟨[], by simp⟩

theorem connWrite_ok (s : Sys) (c : Conn) (frame : Command)
    (hopen : Event.closed c ∉ s.log) (hup : c ∉ s.down) :
    connWrite s c frame = (none, { s with log := s.log ++ [Event.wrote c frame] }) := by
  simp [connWrite, hopen, hup]

/-- Unfolding of `Dial` when the `Write` succeeds: `s3` is the state in which the
`select` starts, right after the subscription. -/
theorem Dial_of_write_ok (valid : Command → Option String) (ca : ClusterAgent) (wid : String)
    (pre during : List Act) (s : Sys)
    (hopen : Event.closed ca.conn ∉ s.log) (hup : ca.conn ∉ s.down) :
    ∃ s3 : Sys,
      s3.clock = s.clock + elapsed pre
      ∧ s3.pub.slot s.pub.subs.length = some { pred := Dial.pred ca.id wid, ch := none }
      ∧ (∀ t, t ≠ s.pub.subs.length → s3.pub.registered t = s.pub.registered t)
      ∧ (∃ l, s3.log = s.log ++ Event.wrote ca.conn (newCmd CmdKind.cmdNewWorker ca.id wid) :: l
              ++ [Event.subscribed s.pub.subs.length])
      ∧ Dial valid (some ca) wid pre during s =
        (match (Dial.select valid s.pub.subs.length (s3.clock + Second * 10) during s3).1 with
          | some (Value.worker cw) => DialOutcome.ret (some cw.conn) none
          | some (Value.other _) =>
            DialOutcome.goPanic "interface conversion: interface \x7b\x7d is not *mole.clusterWorker"
          | none => DialOutcome.ret none (some "agent Dial(): new worker conn timeout"),
         { (Dial.select valid s.pub.subs.length (s3.clock + Second * 10) during s3).2 with
            pub := (Dial.select valid s.pub.subs.length (s3.clock + Second * 10) during s3).2.pub.Evict
              s.pub.subs.length
            log := (Dial.select valid s.pub.subs.length (s3.clock + Second * 10) during s3).2.log
              ++ [Event.evicted s.pub.subs.length] }) := by
  have hlen : (runActs valid pre
      { s with log := s.log ++ [Event.wrote ca.conn (newCmd CmdKind.cmdNewWorker ca.id wid)] }).pub.subs.length
      = s.pub.subs.length := runActs_length valid pre _
  obtain ⟨l, hl⟩ := runActs_log valid pre
      { s with log := s.log ++ [Event.wrote ca.conn (newCmd CmdKind.cmdNewWorker ca.id wid)] }
  refine ⟨{ runActs valid pre
      { s with log := s.log ++ [Event.wrote ca.conn (newCmd CmdKind.cmdNewWorker ca.id wid)] } with
      pub := ((runActs valid pre
        { s with log := s.log ++ [Event.wrote ca.conn (newCmd CmdKind.cmdNewWorker ca.id wid)] }).pub.Subcribe
          (Dial.pred ca.id wid)).2
      log := (runActs valid pre
        { s with log := s.log ++ [Event.wrote ca.conn (newCmd CmdKind.cmdNewWorker ca.id wid)] }).log
          ++ [Event.subscribed s.pub.subs.length] }, ?_, ?_, ?_, ?_, ?_⟩
  · exact runActs_clock valid pre _
  · dsimp only
    rw [← hlen]
    exact slot_Subcribe_self _ _
  · intro t ht
    dsimp only
    unfold Bus.registered
    rw [slot_Subcribe_ne _ _ _ (by rw [hlen]; exact ht)]
    exact runActs_registered valid t pre _
  · refine ⟨l, ?_⟩
    dsimp only
    rw [hl]
    simp
  · simp only [Dial, connWrite_ok s ca.conn _ hopen hup, Bus.Subcribe, hlen]
    split <;> simp_all

/-! ## The outcomes of Dial -/

/-- C4: once the command is sent, `Dial` has exactly two outcomes.  If a worker for
`(ca.id, wid)` arrives strictly before the 10-second timer fires, `Dial` returns the
connection of the first such worker with a nil error, at the moment of its arrival;
otherwise it returns a nil connection with the timeout error, exactly when the timer
fires.  It never returns both a connection and an error, and never returns later than
the timer. -/
theorem C4_Dial_worker_or_timeout (valid : Command → Option String) (ca : ClusterAgent)
    (wid : String) (pre during : List Act) (s : Sys)
    (hopen : Event.closed ca.conn ∉ s.log) (hup : ca.conn ∉ s.down) :
    (match arrival valid ca.id wid (Second * 10) during with
      | some p =>
        (Dial valid (some ca) wid pre during s).1 = DialOutcome.ret (some p.2) none
        ∧ (Dial valid (some ca) wid pre during s).2.clock = s.clock + elapsed pre + p.1
        ∧ p.1 < Second * 10
      | none =>
        (Dial valid (some ca) wid pre during s).1
          = DialOutcome.ret none (some "agent Dial(): new worker conn timeout")
        ∧ (Dial valid (some ca) wid pre during s).2.clock
          = s.clock + elapsed pre + Second * 10)
    ∧ (∀ c e, (Dial valid (some ca) wid pre during s).1 ≠ DialOutcome.ret (some c) (some e))
    ∧ (Dial valid (some ca) wid pre during s).2.clock ≤ s.clock + elapsed pre + Second * 10 := by
  obtain ⟨s3, hclock, hslot, _, _, hD⟩ := Dial_of_write_ok valid ca wid pre during s hopen hup
  obtain ⟨h1, h2⟩ := select_arrival valid ca.id wid s.pub.subs.length during s3 (Second * 10) hslot
  rw [hD]
  dsimp only
  rw [h1, h2, hclock]
  cases ha : arrival valid ca.id wid (Second * 10) during with
  | none =>
    refine ⟨⟨rfl, rfl⟩, ?_, Nat.le_refl _⟩
    intro c e h
    cases h
  | some p =>
    have hlt := arrival_lt valid ca.id wid during _ p ha
    refine ⟨⟨rfl, rfl, hlt⟩, ?_, ?_⟩
    · intro c e h
      cases h
    · show s.clock + elapsed pre + p.1 ≤ s.clock + elapsed pre + Second * 10
      omega

/-- C4 at a concrete input: "A1" is registered over connection 1 and its worker
connection 7 arrives 5 ns after `Dial` subscribed. -/
theorem C4_Dial_worker_or_timeout_witness :
    Event.closed 1 ∉ exJoined.log ∧ (1 : Conn) ∉ exJoined.down
    ∧ (Dial specValid (some { id := "A1", conn := 1, joinAt := 0, lastActive := 0 })
        "0123456789" [] [{ delay := 5, conn := 7, dec := .ok exWorkerCmd }] exJoined).1
        = DialOutcome.ret (some 7) none
    ∧ (Dial specValid (some { id := "A1", conn := 1, joinAt := 0, lastActive := 0 })
        "0123456789" [] [{ delay := 5, conn := 7, dec := .ok exWorkerCmd }] exJoined).2.clock
        ≤ exJoined.clock + elapsed [] + Second * 10 :=
  have h := C4_Dial_worker_or_timeout specValid
    { id := "A1", conn := 1, joinAt := 0, lastActive := 0 } "0123456789" []
    [{ delay := 5, conn := 7, dec := .ok exWorkerCmd }] exJoined (by decide) (by decide)
  ⟨by decide, by decide, h.1.1, h.2.2⟩

/-- C5: on every return of `Dial` that follows the subscription (a worker was
delivered, or the timer fired), the subscription made by this call is no longer
registered on the bus, every other subscription is registered exactly as before the
call, and the eviction is the last thing `Dial` did, after the subscription. -/
theorem C5_Dial_evicts_its_subscription (valid : Command → Option String) (ca : ClusterAgent)
    (wid : String) (pre during : List Act) (s : Sys)
    (hopen : Event.closed ca.conn ∉ s.log) (hup : ca.conn ∉ s.down) :
    (Dial valid (some ca) wid pre during s).2.pub.registered s.pub.subs.length = false
    ∧ (∀ t, t ≠ s.pub.subs.length →
        (Dial valid (some ca) wid pre during s).2.pub.registered t = s.pub.registered t)
    ∧ (∃ l1 l2, (Dial valid (some ca) wid pre during s).2.log
        = l1 ++ Event.subscribed s.pub.subs.length :: l2 ++ [Event.evicted s.pub.subs.length]) := by
  obtain ⟨s3, _, _, hreg, ⟨l, hlog⟩, hD⟩ := Dial_of_write_ok valid ca wid pre during s hopen hup
  rw [hD]
  refine ⟨?_, ?_, ?_⟩
  · dsimp only
    unfold Bus.registered
    rw [slot_Evict_self]
    rfl
  · intro t ht
    dsimp only
    unfold Bus.registered
    rw [slot_Evict_ne _ _ _ ht]
    have h1 := select_registered valid s.pub.subs.length (s3.clock + Second * 10) t during s3
    unfold Bus.registered at h1
    rw [h1]
    exact hreg t ht
  · obtain ⟨l2, h2⟩ := select_log valid s.pub.subs.length (s3.clock + Second * 10) during s3
    refine ⟨s.log ++ Event.wrote ca.conn (newCmd CmdKind.cmdNewWorker ca.id wid) :: l, l2, ?_⟩
    dsimp only
    rw [h2, hlog]
    simp

/-- C5 at a concrete input: the dial of "A1" that times out because no worker comes. -/
theorem C5_Dial_evicts_its_subscription_witness :
    Event.closed 1 ∉ exJoined.log ∧ (1 : Conn) ∉ exJoined.down
    ∧ (Dial specValid (some { id := "A1", conn := 1, joinAt := 0, lastActive := 0 })
        "0123456789" [] [] exJoined).1
        = DialOutcome.ret none (some "agent Dial(): new worker conn timeout")
    ∧ (Dial specValid (some { id := "A1", conn := 1, joinAt := 0, lastActive := 0 })
        "0123456789" [] [] exJoined).2.pub.registered exJoined.pub.subs.length = false :=
  have h := C5_Dial_evicts_its_subscription specValid
    { id := "A1", conn := 1, joinAt := 0, lastActive := 0 } "0123456789" [] [] exJoined
    (by decide) (by decide)
  ⟨by decide, by decide, by decide, h.1⟩

/-! ## The predicate of a dial request -/

theorem Dial_pred_iff (id wid : String) (v : Value) :
    Dial.pred id wid v = true ↔
      ∃ cw, v = Value.worker cw ∧ cw.workerID = wid ∧ cw.agentID = id := by
  cases v with
  | worker cw => simp [Dial.pred]
  | other tag => simp [Dial.pred]

/-- C6: the predicate a `Dial` call subscribes with accepts a published value exactly
when it is a `clusterWorker` whose `workerID` is the generated worker id and whose
`agentID` is the id of the dialing agent.  Hence two calls that differ in the worker
id or in the agent id never accept the same value, and one publication is never
delivered to both of their channels. -/
theorem C6_Dial_pred_accepts_only_its_worker (id1 wid1 id2 wid2 : String) (v : Value)
    (hne : wid1 ≠ wid2 ∨ id1 ≠ id2) :
    (Dial.pred id1 wid1 v = true ↔
      ∃ cw, v = Value.worker cw ∧ cw.workerID = wid1 ∧ cw.agentID = id1)
    ∧ ¬ (Dial.pred id1 wid1 v = true ∧ Dial.pred id2 wid2 v = true)
    ∧ (∀ (b : Bus) (t1 t2 : Nat),
        b.slot t1 = some { pred := Dial.pred id1 wid1, ch := none } →
        b.slot t2 = some { pred := Dial.pred id2 wid2, ch := none } →
        ¬ ((b.Publish v).recv t1 = some v ∧ (b.Publish v).recv t2 = some v)) := by
  have hboth : ¬ (Dial.pred id1 wid1 v = true ∧ Dial.pred id2 wid2 v = true) := by
    rintro ⟨h1, h2⟩
    obtain ⟨cw, hv, hw, ha⟩ := (Dial_pred_iff id1 wid1 v).mp h1
    obtain ⟨cw2, hv2, hw2, ha2⟩ := (Dial_pred_iff id2 wid2 v).mp h2
    rw [hv] at hv2
    cases hv2
    rcases hne with h | h
    · exact h (hw.symm.trans hw2)
    · exact h (ha.symm.trans ha2)
  refine ⟨Dial_pred_iff id1 wid1 v, hboth, ?_⟩
  intro b t1 t2 hs1 hs2 ⟨hr1, hr2⟩
  apply hboth
  have key : ∀ (id wid : String) (t : Nat),
      b.slot t = some { pred := Dial.pred id wid, ch := none } →
      (b.Publish v).recv t = some v → Dial.pred id wid v = true := by
    intro id wid t hs hr
    have hslot : (b.Publish v).slot t
        = some (Subscriber.offer v { pred := Dial.pred id wid, ch := none }) := by
      rw [slot_Publish, hs]
      rfl
    rw [recv_of_slot _ _ _ hslot] at hr
    cases hp : Dial.pred id wid v with
    | true => rfl
    | false => simp [Subscriber.offer, hp] at hr
  exact ⟨key id1 wid1 t1 hs1 hr1, key id2 wid2 t2 hs2 hr2⟩

/-- C6 at a concrete input: two dial requests to "A1" with different worker ids, and
the worker that answers the first. -/
theorem C6_Dial_pred_accepts_only_its_worker_witness :
    ("0123456789" ≠ "9876543210" ∨ "A1" ≠ "A1")
    ∧ Dial.pred "A1" "0123456789" (Value.worker
        { agentID := "A1", workerID := "0123456789", conn := 7, establishedAt := 5 }) = true
    ∧ ¬ (Dial.pred "A1" "0123456789" (Value.worker
          { agentID := "A1", workerID := "0123456789", conn := 7, establishedAt := 5 }) = true
        ∧ Dial.pred "A1" "9876543210" (Value.worker
          { agentID := "A1", workerID := "0123456789", conn := 7, establishedAt := 5 }) = true) :=
  have h := C6_Dial_pred_accepts_only_its_worker "A1" "0123456789" "A1" "9876543210"
    (Value.worker { agentID := "A1", workerID := "0123456789", conn := 7, establishedAt := 5 })
    (Or.inl (by decide))
  ⟨Or.inl (by decide), by decide, h.2.1⟩

/-! ## What handle does with a NEW_WORKER, LEAVE or PING frame -/

theorem FreshAgent_log (s : Sys) (id : String) : (FreshAgent s id).log = s.log := by
  unfold FreshAgent
  split <;> rfl

theorem FreshAgent_pub (s : Sys) (id : String) : (FreshAgent s id).pub = s.pub := by
  unfold FreshAgent
  split <;> rfl

theorem FreshAgent_of_unregistered (s : Sys) (id : String)
    (h : s.m.agents.lookup id = none) : FreshAgent s id = s := by
  simp [FreshAgent, h]

theorem CloseAgent_of_unregistered (s : Sys) (id : String)
    (h : s.m.agents.lookup id = none) : CloseAgent s id = s := by
  simp [CloseAgent, h]

theorem FreshAgent_lookup_self (s : Sys) (id : String) (a : ClusterAgent)
    (h : s.m.agents.lookup id = some a) :
    (FreshAgent s id).m.agents.lookup id = some { a with lastActive := s.clock } := by
  simp [FreshAgent, h]

theorem FreshAgent_lookup_ne (s : Sys) (id j : String) (hj : j ≠ id) :
    (FreshAgent s id).m.agents.lookup j = s.m.agents.lookup j := by
  unfold FreshAgent
  split
  · exact AList.lookup_insert_ne hj
  · rfl

theorem FreshAgent_lookup_conn (s : Sys) (id j : String) :
    ((FreshAgent s id).m.agents.lookup j).map ClusterAgent.conn
      = (s.m.agents.lookup j).map ClusterAgent.conn := by
  by_cases hj : j = id
  · subst hj
    cases h : s.m.agents.lookup j with
    | none => rw [FreshAgent_of_unregistered s j h, h]
    | some a => rw [FreshAgent_lookup_self s j a h]; rfl
  · rw [FreshAgent_lookup_ne s id j hj]

theorem FreshAgent_keys_length (s : Sys) (id : String) :
    (FreshAgent s id).m.agents.keys.length = s.m.agents.keys.length := by
  cases h : s.m.agents.lookup id with
  | none => rw [FreshAgent_of_unregistered s id h]
  | some a =>
    simp only [FreshAgent, h]
    exact keys_insert_length_of_mem _ _ _ (lookup_some_mem_keys h)

theorem handle_newWorker (valid : Command → Option String) (s : Sys) (conn : Conn)
    (cmd : Command) (hv : valid cmd = none) (hk : cmd.Cmd = CmdKind.cmdNewWorker) :
    handle valid s conn (.ok cmd) = FreshAgent (publish s (Value.worker
      { agentID := cmd.AgentID, workerID := cmd.WorkerID, conn := conn,
        establishedAt := s.clock })) cmd.AgentID := by
  simp only [handle, hv, hk]

/-- C7: on a valid NEW_WORKER command read from the accepted connection `conn`,
`handle` publishes exactly one `clusterWorker`, carrying `conn` and the command's
`(agent_id, worker_id)`, sets `lastActive` of the named agent to the current time,
closes nothing (in particular not `conn`), and leaves the set of registered agents and
their control connections as they were. -/
theorem C7_handle_new_worker_publishes_and_refreshes (valid : Command → Option String)
    (s : Sys) (conn : Conn) (cmd : Command)
    (hv : valid cmd = none) (hk : cmd.Cmd = CmdKind.cmdNewWorker) :
    (handle valid s conn (.ok cmd)).log = s.log ++ [Event.published (Value.worker
        { agentID := cmd.AgentID, workerID := cmd.WorkerID, conn := conn,
          establishedAt := s.clock })]
    ∧ (handle valid s conn (.ok cmd)).pub = s.pub.Publish (Value.worker
        { agentID := cmd.AgentID, workerID := cmd.WorkerID, conn := conn,
          establishedAt := s.clock })
    ∧ (∀ a, Agent s cmd.AgentID = some a →
        Agent (handle valid s conn (.ok cmd)) cmd.AgentID = some { a with lastActive := s.clock })
    ∧ (Event.closed conn ∈ (handle valid s conn (.ok cmd)).log ↔ Event.closed conn ∈ s.log)
    ∧ (∀ j, (Agent (handle valid s conn (.ok cmd)) j).map ClusterAgent.conn
        = (Agent s j).map ClusterAgent.conn)
    ∧ (∀ j, j ≠ cmd.AgentID → Agent (handle valid s conn (.ok cmd)) j = Agent s j)
    ∧ (handle valid s conn (.ok cmd)).m.agents.keys.length = s.m.agents.keys.length := by
  rw [handle_newWorker valid s conn cmd hv hk]
  refine ⟨?_, ?_, ?_, ?_, ?_, ?_, ?_⟩
  · rw [FreshAgent_log]
    rfl
  · rw [FreshAgent_pub]
    rfl
  · intro a ha
    exact FreshAgent_lookup_self _ _ a ha
  · rw [FreshAgent_log]
    simp [publish]
  · intro j
    exact FreshAgent_lookup_conn _ _ j
  · intro j hj
    exact FreshAgent_lookup_ne _ _ j hj
  · exact FreshAgent_keys_length _ _

/-- C7 at a concrete input: the worker connection 7 of "A1" is accepted. -/
theorem C7_handle_new_worker_publishes_and_refreshes_witness :
    specValid exWorkerCmd = none ∧ exWorkerCmd.Cmd = CmdKind.cmdNewWorker
    ∧ (handle specValid exJoined 7 (.ok exWorkerCmd)).log = exJoined.log ++ [Event.published
        (Value.worker { agentID := "A1", workerID := "0123456789", conn := 7, establishedAt := 0 })]
    ∧ (Event.closed 7 ∈ (handle specValid exJoined 7 (.ok exWorkerCmd)).log
        ↔ Event.closed 7 ∈ exJoined.log) :=
  have h := C7_handle_new_worker_publishes_and_refreshes specValid exJoined 7 exWorkerCmd
    (by decide) (by decide)
  ⟨by decide, by decide, h.1, h.2.2.2.1⟩

theorem Publish_of_no_match (b : Bus) (v : Value) (h : b.matches v = false) :
    b.Publish v = b := by
  unfold Bus.matches at h
  unfold Bus.Publish
  have hall : ∀ o ∈ b.subs, Option.map (Subscriber.offer v) o = o := by
    intro o ho
    cases o with
    | none => rfl
    | some x =>
      have hx : x.pred v = false := by
        cases hp : x.pred v with
        | false => rfl
        | true =>
          have : (b.subs.any fun o => match o with
            | some s => s.pred v
            | none => false) = true := List.any_eq_true.mpr ⟨some x, ho, hp⟩
          rw [h] at this
          cases this
      simp [Subscriber.offer, hx]
  have hmap : b.subs.map (Option.map (Subscriber.offer v)) = b.subs := by
    conv_rhs => rw [← List.map_id b.subs]
    exact List.map_congr_left hall
  rw [hmap]

/-- C8, refuted as stated: after the dial of "A1" timed out and evicted itself, the
late worker connection 7 matches no subscription, and `handle` does not close it. -/
theorem C8_counterexample :
    specValid exWorkerCmd = none
    ∧ exTimedOut.pub.matches (Value.worker
        { agentID := "A1", workerID := "0123456789", conn := 7, establishedAt := exTimedOut.clock })
        = false
    ∧ Event.closed 7 ∉ (handle specValid exTimedOut 7 (.ok exWorkerCmd)).log := by
  refine ⟨by decide, by decide, by decide⟩

/-- C8, amended: when a NEW_WORKER connection is accepted and no subscription on the bus
matches its `(agent_id, worker_id)`, the registry still publishes it, the publication
reaches no subscriber (the bus is left as it was), and the connection is not closed. -/
theorem C8_unmatched_worker_is_published_and_left_open (valid : Command → Option String)
    (s : Sys) (conn : Conn) (cmd : Command)
    (hv : valid cmd = none) (hk : cmd.Cmd = CmdKind.cmdNewWorker)
    (hno : s.pub.matches (Value.worker
      { agentID := cmd.AgentID, workerID := cmd.WorkerID, conn := conn,
        establishedAt := s.clock }) = false) :
    (handle valid s conn (.ok cmd)).pub = s.pub
    ∧ (handle valid s conn (.ok cmd)).log = s.log ++ [Event.published (Value.worker
        { agentID := cmd.AgentID, workerID := cmd.WorkerID, conn := conn,
          establishedAt := s.clock })]
    ∧ (Event.closed conn ∉ s.log → Event.closed conn ∉ (handle valid s conn (.ok cmd)).log) := by
  rw [handle_newWorker valid s conn cmd hv hk]
  refine ⟨?_, ?_, ?_⟩
  · rw [FreshAgent_pub]
    exact Publish_of_no_match _ _ hno
  · rw [FreshAgent_log]
    rfl
  · intro hc
    rw [FreshAgent_log]
    simpa [publish] using hc

/-- C8 amended, at a concrete input: the late worker connection 7 after the timeout. -/
theorem C8_unmatched_worker_is_published_and_left_open_witness :
    specValid exWorkerCmd = none ∧ exWorkerCmd.Cmd = CmdKind.cmdNewWorker
    ∧ exTimedOut.pub.matches (Value.worker
        { agentID := "A1", workerID := "0123456789", conn := 7, establishedAt := exTimedOut.clock })
        = false
    ∧ (handle specValid exTimedOut 7 (.ok exWorkerCmd)).pub = exTimedOut.pub :=
  have h := C8_unmatched_worker_is_published_and_left_open specValid exTimedOut 7 exWorkerCmd
    (by decide) (by decide) (by decide)
  ⟨by decide, by decide, by decide, h.1⟩

/-- C9, refuted as stated: on a broker where nobody has joined, a valid NEW_WORKER frame
naming the unregistered agent "ghost" is published on the bus all the same. -/
theorem C9_counterexample :
    Agent (Sys.start exCfg) "ghost" = none
    ∧ specValid { Cmd := CmdKind.cmdNewWorker, AgentID := "ghost", WorkerID := "0123456789" } = none
    ∧ Event.published (Value.worker
        { agentID := "ghost", workerID := "0123456789", conn := 7, establishedAt := 0 })
      ∈ (handle specValid (Sys.start exCfg) 7
          (.ok { Cmd := CmdKind.cmdNewWorker, AgentID := "ghost", WorkerID := "0123456789" })).log := by
  refine ⟨by decide, by decide, by decide⟩

/-- C9, amended: for every state and every valid NEW_WORKER, LEAVE or PING command that
names an unregistered agent, `handle` leaves the registry unchanged and closes nothing;
on LEAVE and PING it does nothing at all (nothing is published); on NEW_WORKER it
publishes the worker on the bus whether or not the agent is registered, and does nothing
else. -/
theorem C9_unregistered_agent_leaves_registry_unchanged (valid : Command → Option String)
    (s : Sys) (conn : Conn) (cmd : Command)
    (hv : valid cmd = none) (hk : cmd.Cmd ≠ CmdKind.cmdJoin)
    (hun : Agent s cmd.AgentID = none) :
    (handle valid s conn (.ok cmd)).m = s.m
    ∧ (∀ c, Event.closed c ∈ (handle valid s conn (.ok cmd)).log → Event.closed c ∈ s.log)
    ∧ (cmd.Cmd ≠ CmdKind.cmdNewWorker → handle valid s conn (.ok cmd) = s)
    ∧ (cmd.Cmd = CmdKind.cmdNewWorker → handle valid s conn (.ok cmd) = publish s (Value.worker
        { agentID := cmd.AgentID, workerID := cmd.WorkerID, conn := conn,
          establishedAt := s.clock })) := by
  unfold Agent at hun
  cases hc : cmd.Cmd with
  | cmdJoin => exact absurd hc hk
  | cmdNewWorker =>
    have h : handle valid s conn (.ok cmd) = publish s (Value.worker
        { agentID := cmd.AgentID, workerID := cmd.WorkerID, conn := conn,
          establishedAt := s.clock }) := by
      rw [handle_newWorker valid s conn cmd hv hc]
      exact FreshAgent_of_unregistered _ _ hun
    rw [h]
    refine ⟨rfl, ?_, fun hne => absurd rfl hne, fun _ => rfl⟩
    intro c hcl
    simpa [publish] using hcl
  | cmdLeave =>
    have h : handle valid s conn (.ok cmd) = s := by
      simp only [handle, hv, hc]
      exact CloseAgent_of_unregistered _ _ hun
    rw [h]
    exact ⟨rfl, fun _ hcl => hcl, fun _ => rfl, fun hne => by cases hne⟩
  | cmdPing =>
    have h : handle valid s conn (.ok cmd) = s := by
      simp only [handle, hv, hc]
      exact FreshAgent_of_unregistered _ _ hun
    rw [h]
    exact ⟨rfl, fun _ hcl => hcl, fun _ => rfl, fun hne => by cases hne⟩

/-- C9 amended, at a concrete input: a LEAVE naming "ghost" on a broker where only "A1"
has joined. -/
theorem C9_unregistered_agent_leaves_registry_unchanged_witness :
    specValid { Cmd := CmdKind.cmdLeave, AgentID := "ghost", WorkerID := "" } = none
    ∧ CmdKind.cmdLeave ≠ CmdKind.cmdJoin
    ∧ Agent exJoined "ghost" = none
    ∧ handle specValid exJoined 7
        (.ok { Cmd := CmdKind.cmdLeave, AgentID := "ghost", WorkerID := "" }) = exJoined :=
  have h := C9_unregistered_agent_leaves_registry_unchanged specValid exJoined 7
    { Cmd := CmdKind.cmdLeave, AgentID := "ghost", WorkerID := "" }
    (by decide) (by decide) (by decide)
  ⟨by decide, by decide, by decide, h.2.2.1 (by decide)⟩

/-! ## Frames that do not decode or do not validate -/

/-- C10: when decoding the leading frame fails, or the decoded command fails validation,
`handle` does nothing: the state after is the state before, so the registry map is
unchanged (no agent added, removed or refreshed), nothing is published on the bus and
nothing is traced. -/
theorem C10_handle_ignores_undecodable_or_invalid (valid : Command → Option String)
    (s : Sys) (conn : Conn) (dec : Except String Command)
    (hbad : (∃ e, dec = .error e) ∨ (∃ cmd e, dec = .ok cmd ∧ valid cmd = some e)) :
    handle valid s conn dec = s
    ∧ (handle valid s conn dec).m.agents = s.m.agents
    ∧ (handle valid s conn dec).pub = s.pub
    ∧ (handle valid s conn dec).log = s.log := by
  have h : handle valid s conn dec = s := by
    rcases hbad with ⟨e, he⟩ | ⟨cmd, e, hd, hv⟩
    · rw [he]
      rfl
    · rw [hd]
      simp only [handle, hv]
  rw [h]
  exact ⟨rfl, rfl, rfl, rfl⟩

/-- C10 at concrete inputs: a frame that does not decode, and a NEW_WORKER command
without a worker id. -/
theorem C10_handle_ignores_undecodable_or_invalid_witness :
    handle specValid exJoined 7 (.error "unexpected EOF") = exJoined
    ∧ specValid { Cmd := CmdKind.cmdNewWorker, AgentID := "A1", WorkerID := "" }
        = some "MissingField: worker_id"
    ∧ handle specValid exJoined 7
        (.ok { Cmd := CmdKind.cmdNewWorker, AgentID := "A1", WorkerID := "" }) = exJoined :=
  ⟨(C10_handle_ignores_undecodable_or_invalid specValid exJoined 7 (.error "unexpected EOF")
      (Or.inl ⟨_, rfl⟩)).1,
   by decide,
   (C10_handle_ignores_undecodable_or_invalid specValid exJoined 7
      (.ok { Cmd := CmdKind.cmdNewWorker, AgentID := "A1", WorkerID := "" })
      (Or.inr ⟨_, "MissingField: worker_id", rfl, by decide⟩)).1⟩

/-! ## Leaving and heartbeats -/

theorem keys_erase_length_of_mem (m : AList (fun _ : String => ClusterAgent)) (id : String)
    (h : id ∈ m.keys) : (m.erase id).keys.length + 1 = m.keys.length := by
  rw [AList.keys_erase, List.length_erase_of_mem h]
  have hpos : 0 < m.keys.length := List.length_pos_of_mem h
  omega

/-- C11: `CloseAgent id` on a registered id closes the control connection of that agent
(and nothing else) and removes its entry, so that `Agent id` is nil afterwards and one
agent less is registered; the entry of every other agent is unchanged; on an
unregistered id it changes nothing and closes nothing.  This is what `handle` does on a
valid LEAVE. -/
theorem C11_CloseAgent_closes_and_removes (valid : Command → Option String) (s : Sys)
    (conn : Conn) (id wid : String)
    (hvalid : valid { Cmd := CmdKind.cmdLeave, AgentID := id, WorkerID := wid } = none) :
    (∀ a, Agent s id = some a →
      (CloseAgent s id).log = s.log ++ [Event.closed a.conn]
      ∧ Agent (CloseAgent s id) id = none
      ∧ (CloseAgent s id).m.agents.keys.length + 1 = s.m.agents.keys.length)
    ∧ (∀ j, j ≠ id → Agent (CloseAgent s id) j = Agent s j)
    ∧ (Agent s id = none → CloseAgent s id = s)
    ∧ handle valid s conn (.ok { Cmd := CmdKind.cmdLeave, AgentID := id, WorkerID := wid })
        = CloseAgent s id := by
  refine ⟨?_, ?_, ?_, ?_⟩
  · intro a ha
    rw [CloseAgent_of_registered s id a ha]
    exact ⟨rfl, AList.lookup_erase id _, keys_erase_length_of_mem _ _ (lookup_some_mem_keys ha)⟩
  · intro j hj
    cases ha : s.m.agents.lookup id with
    | none => rw [CloseAgent_of_unregistered s id ha]
    | some a =>
      rw [CloseAgent_of_registered s id a ha]
      exact AList.lookup_erase_ne hj
  · intro hn
    exact CloseAgent_of_unregistered s id hn
  · simp only [handle, hvalid]

/-- C11 at a concrete input: "A1", joined over connection 1, leaves. -/
theorem C11_CloseAgent_closes_and_removes_witness :
    specValid { Cmd := CmdKind.cmdLeave, AgentID := "A1", WorkerID := "" } = none
    ∧ Agent exJoined "A1" = some { id := "A1", conn := 1, joinAt := 0, lastActive := 0 }
    ∧ (CloseAgent exJoined "A1").log = exJoined.log ++ [Event.closed 1]
    ∧ Agent (CloseAgent exJoined "A1") "A1" = none
    ∧ (Agent exJoined "ghost" = none → CloseAgent exJoined "ghost" = exJoined) :=
  have h := C11_CloseAgent_closes_and_removes specValid exJoined 7 "A1" "" (by decide)
  have hg := C11_CloseAgent_closes_and_removes specValid exJoined 7 "ghost" "" (by decide)
  have h1 := h.1 { id := "A1", conn := 1, joinAt := 0, lastActive := 0 } (by decide)
  ⟨by decide, by decide, h1.1, h1.2.1, hg.2.2.1⟩

theorem FreshAgent_mem (s : Sys) (id j : String) :
    j ∈ (FreshAgent s id).m.agents ↔ j ∈ s.m.agents := by
  cases h : s.m.agents.lookup id with
  | none => rw [FreshAgent_of_unregistered s id h]
  | some a =>
    simp only [FreshAgent, h, AList.mem_insert]
    constructor
    · rintro (hj | hj)
      · rw [hj]
        exact AList.mem_keys.mpr (lookup_some_mem_keys h)
      · exact hj
    · intro hj
      exact Or.inr hj

/-- C12: `FreshAgent id` changes only the `lastActive` field of the agent registered
under `id` (its id, control connection and `joinAt` stay), keeps the set of registered
ids and the record of every other agent, closes no connection and touches neither the
trace nor the bus; for an unregistered id it changes nothing, so nothing is registered.
This is what `handle` does on a valid PING. -/
theorem C12_FreshAgent_changes_only_lastActive (valid : Command → Option String) (s : Sys)
    (conn : Conn) (id wid : String)
    (hvalid : valid { Cmd := CmdKind.cmdPing, AgentID := id, WorkerID := wid } = none) :
    (∀ a, Agent s id = some a →
      Agent (FreshAgent s id) id
        = some { id := a.id, conn := a.conn, joinAt := a.joinAt, lastActive := s.clock })
    ∧ (∀ j, j ≠ id → Agent (FreshAgent s id) j = Agent s j)
    ∧ (∀ j, j ∈ (FreshAgent s id).m.agents ↔ j ∈ s.m.agents)
    ∧ (FreshAgent s id).m.agents.keys.length = s.m.agents.keys.length
    ∧ (FreshAgent s id).log = s.log
    ∧ (FreshAgent s id).pub = s.pub
    ∧ (Agent s id = none → FreshAgent s id = s)
    ∧ handle valid s conn (.ok { Cmd := CmdKind.cmdPing, AgentID := id, WorkerID := wid })
        = FreshAgent s id := by
  refine ⟨?_, ?_, ?_, ?_, ?_, ?_, ?_, ?_⟩
  · intro a ha
    exact FreshAgent_lookup_self s id a ha
  · intro j hj
    exact FreshAgent_lookup_ne s id j hj
  · intro j
    exact FreshAgent_mem s id j
  · exact FreshAgent_keys_length s id
  · exact FreshAgent_log s id
  · exact FreshAgent_pub s id
  · intro hn
    exact FreshAgent_of_unregistered s id hn
  · simp only [handle, hvalid]

/-- C12 at a concrete input: a heartbeat of "A1" and a heartbeat of the unknown "ghost". -/
theorem C12_FreshAgent_changes_only_lastActive_witness :
    specValid { Cmd := CmdKind.cmdPing, AgentID := "A1", WorkerID := "" } = none
    ∧ Agent exTimedOut "A1" = some { id := "A1", conn := 1, joinAt := 0, lastActive := 0 }
    ∧ Agent (FreshAgent exTimedOut "A1") "A1"
        = some { id := "A1", conn := 1, joinAt := 0, lastActive := exTimedOut.clock }
    ∧ (FreshAgent exTimedOut "A1").log = exTimedOut.log
    ∧ (Agent exTimedOut "ghost" = none → FreshAgent exTimedOut "ghost" = exTimedOut) :=
  have h := C12_FreshAgent_changes_only_lastActive specValid exTimedOut 7 "A1" "" (by decide)
  have hg := C12_FreshAgent_changes_only_lastActive specValid exTimedOut 7 "ghost" "" (by decide)
  ⟨by decide, by decide,
    h.1 { id := "A1", conn := 1, joinAt := 0, lastActive := 0 } (by decide),
    h.2.2.2.2.1, hg.2.2.2.2.2.2.1⟩

end mole

namespace agentmain

/-! ## The reconnect delay of the agent -/

theorem iteration_bounds (joinErr : Bool) (delay : Int)
    (h : delayMin ≤ delay ∧ delay ≤ delayMax) :
    delayMin ≤ (iteration joinErr delay).1 ∧ (iteration joinErr delay).1 ≤ delayMax
    ∧ ∀ sl, (iteration joinErr delay).2 = some sl → delayMin ≤ sl ∧ sl ≤ delayMax := by
  unfold iteration
  unfold delayMin delayMax wrapInt64 Second at *
  cases joinErr with
  | false => simp
  | true =>
    simp only [if_true]
    split
    · simp
    · simp
      omega

theorem loop_append (a b : List Bool) :
    ∀ (delay : Int) (sleeps : List Int),
      loop (a ++ b) delay sleeps = loop b (loop a delay sleeps).1 (loop a delay sleeps).2 := by
  induction a with
  | nil => intro delay sleeps; rfl
  | cons e rest ih =>
    intro delay sleeps
    simp only [List.cons_append, loop]
    split <;> exact ih _ _

theorem loop_bounds (joins : List Bool) :
    ∀ (delay : Int) (sleeps : List Int),
      (delayMin ≤ delay ∧ delay ≤ delayMax) →
      (∀ sl ∈ sleeps, delayMin ≤ sl ∧ sl ≤ delayMax) →
      (delayMin ≤ (loop joins delay sleeps).1 ∧ (loop joins delay sleeps).1 ≤ delayMax)
      ∧ ∀ sl ∈ (loop joins delay sleeps).2, delayMin ≤ sl ∧ sl ≤ delayMax := by
  induction joins with
  | nil => intro delay sleeps hd hs; exact ⟨hd, hs⟩
  | cons e rest ih =>
    intro delay sleeps hd hs
    have hi := iteration_bounds e delay hd
    simp only [loop]
    split
    · rename_i d sl heq
      rw [heq] at hi
      apply ih
      · exact ⟨hi.1, hi.2.1⟩
      · intro x hx
        rcases List.mem_append.mp hx with hx | hx
        · exact hs x hx
        · rw [List.mem_singleton.mp hx]
          exact hi.2.2 sl rfl
    · rename_i d heq
      rw [heq] at hi
      exact ih _ _ ⟨hi.1, hi.2.1⟩ hs

theorem loop_after_success (joins : List Bool) (delay : Int) (sleeps : List Int) :
    (loop (joins ++ [false]) delay sleeps).1 = delayMin := by
  rw [loop_append]
  rfl

theorem main_after_success (pre : List Bool) (hpre : pre = [] ∨ pre.getLast? = some false) :
    (main pre).1 = delayMin := by
  rcases hpre with h | h
  · rw [h]
    rfl
  · obtain ⟨init, hinit⟩ : ∃ init, pre = init ++ [false] := by
      rcases List.eq_nil_or_concat pre with hnil | ⟨init, x, hx⟩
      · rw [hnil] at h
        cases h
      · rw [hx, List.concat_eq_append, List.getLast?_concat] at h
        cases h
        exact ⟨init, by rw [hx, List.concat_eq_append]⟩
    rw [hinit]
    exact loop_after_success init delayMin []

theorem iteration_failed (d : Int) (h0 : 0 ≤ d) (h1 : d ≤ 60000000000) :
    iteration true d = (min (2 * d) 60000000000, some (min (2 * d) 60000000000)) := by
  have hv : (if wrapInt64 (d * 2) > delayMax then delayMax else wrapInt64 (d * 2))
      = min (2 * d) 60000000000 := by
    unfold delayMax wrapInt64 Second
    simp only [min_def]
    split <;> split <;> omega
  simp only [iteration, if_true, hv]

theorem loop_failures (k : Nat) (delay : Int) (sleeps : List Int)
    (hd : delay = min (2 ^ k * Second) (60 * Second)) :
    loop [true] delay sleeps
      = (min (2 ^ (k + 1) * Second) (60 * Second),
          sleeps ++ [min (2 ^ (k + 1) * Second) (60 * Second)]) := by
  have hpos : (0 : Int) < 2 ^ k := by positivity
  have h2 : (2 : Int) ^ (k + 1) = 2 * 2 ^ k := by ring
  have hmin : min (2 * delay) 60000000000 = min (2 ^ (k + 1) * Second) (60 * Second) := by
    rw [hd, h2]
    generalize (2 : Int) ^ k = x at hpos
    unfold Second
    simp only [min_def]
    split <;> split <;> split <;> omega
  have h0 : 0 ≤ delay := by
    rw [hd]
    unfold Second
    exact le_min (by positivity) (by norm_num)
  have h1 : delay ≤ 60000000000 := by
    rw [hd]
    unfold Second
    exact le_trans (min_le_right _ _) (by norm_num)
  simp only [loop, iteration_failed delay h0 h1, hmin]

theorem main_failures (pre : List Bool) (hpre : pre = [] ∨ pre.getLast? = some false) :
    ∀ k : Nat,
      (main (pre ++ List.replicate k true)).1 = min (2 ^ k * Second) (60 * Second)
      ∧ (0 < k → (main (pre ++ List.replicate k true)).2.getLast?
          = some (min (2 ^ k * Second) (60 * Second))) := by
  intro k
  induction k with
  | zero =>
    refine ⟨?_, fun h => absurd h (Nat.lt_irrefl 0)⟩
    simp only [List.replicate_zero, List.append_nil, main_after_success pre hpre]
    unfold delayMin Second
    norm_num
  | succ k ih =>
    have happ : pre ++ List.replicate (k + 1) true = (pre ++ List.replicate k true) ++ [true] := by
      rw [List.replicate_succ', List.append_assoc]
    have hl := loop_failures k (main (pre ++ List.replicate k true)).1
      (main (pre ++ List.replicate k true)).2 ih.1
    have hm : main (pre ++ List.replicate (k + 1) true)
        = (min (2 ^ (k + 1) * Second) (60 * Second),
            (main (pre ++ List.replicate k true)).2
              ++ [min (2 ^ (k + 1) * Second) (60 * Second)]) := by
      rw [happ]
      unfold main
      rw [loop_append]
      exact hl
    rw [hm]
    exact ⟨rfl, fun _ => List.getLast?_concat _⟩

/-- C13: in the retry loop of the agent the delay is a bounded doubling backoff.  After
any sequence of `Join` outcomes the delay lies in [1s, 60s], and so does every duration
that was slept.  After `k` consecutive failed `Join` calls since the start or since the
last successful `Join`, the delay is min(2^k s, 60 s), and (for `k ≥ 1`) that is the
duration of the sleep before the next attempt.  A successful `Join` sets the delay back
to 1s. -/
theorem C13_retry_delay_is_bounded_doubling (pre : List Bool) (k : Nat)
    (hpre : pre = [] ∨ pre.getLast? = some false) :
    (∀ joins : List Bool,
      (Second ≤ (main joins).1 ∧ (main joins).1 ≤ 60 * Second)
      ∧ ∀ sl ∈ (main joins).2, Second ≤ sl ∧ sl ≤ 60 * Second)
    ∧ (main (pre ++ List.replicate k true)).1 = min (2 ^ k * Second) (60 * Second)
    ∧ (0 < k → (main (pre ++ List.replicate k true)).2.getLast?
        = some (min (2 ^ k * Second) (60 * Second)))
    ∧ (∀ joins : List Bool, (main (joins ++ [false])).1 = Second) := by
  have hmax : delayMax = 60 * Second := by
    unfold delayMax wrapInt64 Second
    norm_num
  refine ⟨?_, (main_failures pre hpre k).1, (main_failures pre hpre k).2, ?_⟩
  · intro joins
    have h := loop_bounds joins delayMin [] ⟨le_refl _, by rw [hmax]; unfold delayMin Second; norm_num⟩
      (by intro sl hsl; cases hsl)
    rw [hmax] at h
    exact h
  · intro joins
    exact loop_after_success joins delayMin []

/-- C13 at a concrete input: a successful `Join`, then seven failed ones in a row. -/
theorem C13_retry_delay_is_bounded_doubling_witness :
    ([false].getLast? = some false)
    ∧ (main ([false] ++ List.replicate 7 true)).1 = min (2 ^ 7 * Second) (60 * Second)
    ∧ (main ([false] ++ List.replicate 7 true)).2
        = [2 * Second, 4 * Second, 8 * Second, 16 * Second, 32 * Second, 60 * Second,
            60 * Second] :=
  have h := C13_retry_delay_is_bounded_doubling [false] 7 (Or.inr rfl)
  ⟨rfl, h.2.1, by decide⟩

end agentmain

namespace naivecrypto

/-! ## The base64 alphabet -/

theorem encodeStd_props (i : Nat) (hi : i < 64) :
    decodeMap (encodeStd i) = some i ∧ (encodeStd i).val ≤ 122 ∧ (encodeStd i).val ≠ 59 := by
  interval_cases i <;> decide

theorem quantum_of_bytes (a b c : Byte) :
    quantum ((a.val * 65536 + b.val * 256 + c.val) / 262144 % 64)
        ((a.val * 65536 + b.val * 256 + c.val) / 4096 % 64)
        ((a.val * 65536 + b.val * 256 + c.val) / 64 % 64)
        ((a.val * 65536 + b.val * 256 + c.val) % 64)
      = (a, b, c) := by
  have ha := a.isLt
  have hb := b.isLt
  have hc := c.isLt
  simp only [quantum, mkByte, Prod.mk.injEq]
  refine ⟨Fin.ext ?_, Fin.ext ?_, Fin.ext ?_⟩ <;> simp only [] <;> omega

theorem quantum_of_two_bytes (a b : Byte) :
    (quantum ((a.val * 65536 + b.val * 256) / 262144 % 64)
        ((a.val * 65536 + b.val * 256) / 4096 % 64)
        ((a.val * 65536 + b.val * 256) / 64 % 64) 0).1 = a
    ∧ (quantum ((a.val * 65536 + b.val * 256) / 262144 % 64)
        ((a.val * 65536 + b.val * 256) / 4096 % 64)
        ((a.val * 65536 + b.val * 256) / 64 % 64) 0).2.1 = b := by
  have ha := a.isLt
  have hb := b.isLt
  simp only [quantum, mkByte]
  refine ⟨Fin.ext ?_, Fin.ext ?_⟩ <;> simp only [] <;> omega

theorem quantum_of_one_byte (a : Byte) :
    (quantum ((a.val * 65536) / 262144 % 64) ((a.val * 65536) / 4096 % 64) 0 0).1 = a := by
  have ha := a.isLt
  simp only [quantum, mkByte]
  refine Fin.ext ?_
  simp only []
  omega

/-! ## Round trip of base64 -/

theorem base64Decode_four (out : List Byte) (c0 c1 c2 c3 : Byte) (d0 d1 d2 d3 : Nat)
    (rest : List Byte)
    (h0 : decodeMap c0 = some d0) (h1 : decodeMap c1 = some d1) (h2 : decodeMap c2 = some d2)
    (h3 : decodeMap c3 = some d3) :
    base64Decode [] out (c0 :: c1 :: c2 :: c3 :: rest)
      = base64Decode [] (out ++ [(quantum d0 d1 d2 d3).1, (quantum d0 d1 d2 d3).2.1,
          (quantum d0 d1 d2 d3).2.2]) rest := by
  simp [base64Decode, h0, h1, h2, h3]

theorem base64Decode_encode :
    ∀ (data out : List Byte), base64Decode [] out (base64Encode data) = (out ++ data, false) := by
  intro data
  induction data using base64Encode.induct with
  | case1 a b c rest ih =>
    intro out
    have hlt : ∀ x : Nat, x % 64 < 64 := fun x => Nat.mod_lt x (by decide)
    simp only [base64Encode]
    rw [base64Decode_four out _ _ _ _ _ _ _ _ _
      (encodeStd_props _ (hlt _)).1 (encodeStd_props _ (hlt _)).1
      (encodeStd_props _ (hlt _)).1 (encodeStd_props _ (hlt _)).1]
    rw [quantum_of_bytes a b c, ih]
    simp
  | case2 a b =>
    intro out
    have hlt : ∀ x : Nat, x % 64 < 64 := fun x => Nat.mod_lt x (by decide)
    have hq := quantum_of_two_bytes a b
    have hpad : decodeMap (mkByte 61) = none := by decide
    have hv : (mkByte 61).val = 61 := by decide
    simp only [base64Encode, base64Decode, (encodeStd_props _ (hlt _)).1, List.nil_append,
      List.cons_append, hpad, hv, skipNewlines]
    simp [hq.1, hq.2, hv, skipNewlines]
  | case3 a =>
    intro out
    have hlt : ∀ x : Nat, x % 64 < 64 := fun x => Nat.mod_lt x (by decide)
    have hq := quantum_of_one_byte a
    have hpad : decodeMap (mkByte 61) = none := by decide
    have hv : (mkByte 61).val = 61 := by decide
    simp only [base64Encode, base64Decode, (encodeStd_props _ (hlt _)).1, List.nil_append,
      List.cons_append, hpad, hv, skipNewlines]
    simp [hq, hv, skipNewlines]
  | case4 =>
    intro out
    simp [base64Encode, base64Decode]

theorem base64Encode_chars :
    ∀ (data : List Byte), ∀ c ∈ base64Encode data, c.val ≤ 122 ∧ c.val ≠ 59 := by
  intro data
  have hlt : ∀ x : Nat, x % 64 < 64 := fun x => Nat.mod_lt x (by decide)
  have hpad : (mkByte 61).val ≤ 122 ∧ (mkByte 61).val ≠ 59 := by decide
  induction data using base64Encode.induct with
  | case1 a b c rest ih =>
    intro x hx
    simp only [base64Encode, List.mem_cons] at hx
    rcases hx with h | h | h | h | h
    · rw [h]; exact (encodeStd_props _ (hlt _)).2
    · rw [h]; exact (encodeStd_props _ (hlt _)).2
    · rw [h]; exact (encodeStd_props _ (hlt _)).2
    · rw [h]; exact (encodeStd_props _ (hlt _)).2
    · exact ih x h
  | case2 a b =>
    intro x hx
    simp only [base64Encode, List.mem_cons, List.not_mem_nil, or_false] at hx
    rcases hx with h | h | h | h
    · rw [h]; exact (encodeStd_props _ (hlt _)).2
    · rw [h]; exact (encodeStd_props _ (hlt _)).2
    · rw [h]; exact (encodeStd_props _ (hlt _)).2
    · rw [h]; exact hpad
  | case3 a =>
    intro x hx
    simp only [base64Encode, List.mem_cons, List.not_mem_nil, or_false] at hx
    rcases hx with h | h | h | h
    · rw [h]; exact (encodeStd_props _ (hlt _)).2
    · rw [h]; exact (encodeStd_props _ (hlt _)).2
    · rw [h]; exact hpad
    · rw [h]; exact hpad
  | case4 =>
    intro x hx
    simp [base64Encode] at hx

theorem base64Encode_length :
    ∀ (data : List Byte), data.length ≤ (base64Encode data).length := by
  intro data
  induction data using base64Encode.induct with
  | case1 a b c rest ih =>
    simp only [base64Encode, List.length_cons]
    omega
  | case2 a b => simp [base64Encode]
  | case3 a => simp [base64Encode]
  | case4 => simp [base64Encode]

/-! ## Obfuscation -/

theorem runeBytes_ascii (n : Nat) (h : n < 128) : runeBytes (n : Int) = [mkByte n] := by
  have h1 : ¬ ((n : Int) < 0 ∨ 1114111 < (n : Int) ∨ (55296 ≤ (n : Int) ∧ (n : Int) ≤ 57343)) := by
    omega
  simp only [runeBytes, h1, if_false, Int.toNat_ofNat, h, if_true]

theorem obfuscate_cons (b : Byte) (rest : List Byte) (h : b.val ≤ 126) :
    obfuscate (b :: rest) = mkByte (b.val + 1) :: obfuscate rest := by
  have hr := runeBytes_ascii (b.val + 1) (by omega)
  simp only [Nat.cast_add, Nat.cast_one] at hr
  simp only [obfuscate, hr, List.singleton_append]

theorem deobfuscate_obfuscate :
    ∀ s : List Byte, (∀ c ∈ s, c.val ≤ 126) → deobfuscate (obfuscate s) = s := by
  intro s
  induction s with
  | nil => intro _; rfl
  | cons b rest ih =>
    intro h
    have hb : b.val ≤ 126 := h b (List.mem_cons_self _ _)
    rw [obfuscate_cons b rest hb]
    have hval : (mkByte (b.val + 1)).val = b.val + 1 := by
      simp only [mkByte]
      omega
    have hr := runeBytes_ascii b.val (by omega)
    have hsub : ((mkByte (b.val + 1)).val : Int) - 1 = (b.val : Int) := by
      rw [hval]
      omega
    have hmk : mkByte b.val = b := Fin.ext (by simp only [mkByte]; omega)
    simp only [deobfuscate, hsub, hr, hmk, List.singleton_append]
    rw [ih (fun c hc => h c (List.mem_cons_of_mem _ hc))]

theorem obfuscate_length : ∀ s : List Byte, s.length ≤ (obfuscate s).length := by
  intro s
  induction s with
  | nil => exact Nat.le_refl _
  | cons b rest ih =>
    have hpos : 1 ≤ (runeBytes ((b.val : Int) + 1)).length := by
      unfold runeBytes
      split
      · simp
      · dsimp only
        split
        · simp
        · split
          · simp
          · split <;> simp
    simp only [obfuscate, List.length_append, List.length_cons]
    omega

theorem obfuscate_eq_nil (s : List Byte) (h : obfuscate s = []) : s = [] := by
  have hl := obfuscate_length s
  rw [h] at hl
  exact List.length_eq_zero.mp (Nat.le_zero.mp hl)

/-! ## Splitting at the separator -/

theorem splitFirst_append (sep : Byte) (post : List Byte) :
    ∀ pre : List Byte, (∀ c ∈ pre, c ≠ sep) →
      splitFirst sep (pre ++ sep :: post) = some (pre, post) := by
  intro pre
  induction pre with
  | nil => intro _; simp [splitFirst]
  | cons c rest ih =>
    intro h
    have hc : c ≠ sep := h c (List.mem_cons_self _ _)
    have hrest := ih (fun x hx => h x (List.mem_cons_of_mem _ hx))
    show splitFirst sep (c :: (rest ++ sep :: post)) = some (c :: rest, post)
    simp only [splitFirst, if_neg hc, hrest, Option.map_some']

/-! ## The lucky length -/

set_option maxRecDepth 4000 in
theorem luckyLength_props (n : Nat) (h10 : 10 ≤ n) (h19 : n ≤ 19) :
    Atoi (itoa ((n : Int) + luckyNumber)) = (n : Int) + luckyNumber
    ∧ ∀ c ∈ itoa ((n : Int) + luckyNumber), c.val ≤ 126 := by
  interval_cases n <;> decide

theorem isAlnum_props (b : Byte) (h : isAlnum b = true) : b.val ≤ 126 ∧ b ≠ mkByte 59 := by
  have hv : (mkByte 59).val = 59 := by decide
  simp only [isAlnum, Bool.or_eq_true, Bool.and_eq_true, decide_eq_true_eq] at h
  refine ⟨by omega, ?_⟩
  intro heq
  rw [heq, hv] at h
  omega

/-! ## Round trip of Encode and Decode -/

/-- C14: for every byte sequence `data` and every random text of 10 to 19 characters
drawn from `[0-9a-zA-Z]`, `Decode(Encode(data))` returns exactly `data`; so the result
does not depend on the random text. -/
theorem C14_Decode_Encode_round_trip (randomText data : List Byte)
    (hlen : 10 ≤ randomText.length ∧ randomText.length ≤ 19)
    (hchars : ∀ c ∈ randomText, isAlnum c = true) :
    Decode (Encode randomText data) = Result.ret data := by
  by_cases hd : data.length = 0
  · have hnil : data = [] := List.length_eq_zero.mp hd
    subst hnil
    rfl
  · have hlucky := luckyLength_props randomText.length hlen.1 hlen.2
    have h59 : (mkByte 59).val = 59 := by decide
    have hpre : ∀ c ∈ randomText ++ base64Encode data, c ≠ mkByte 59 := by
      intro c hc
      rcases List.mem_append.mp hc with hc | hc
      · exact (isAlnum_props c (hchars c hc)).2
      · intro heq
        have := (base64Encode_chars data c hc).2
        rw [heq, h59] at this
        exact this rfl
    have hall : ∀ c ∈ randomText ++ base64Encode data ++ [mkByte 59]
        ++ itoa ((randomText.length : Int) + luckyNumber), c.val ≤ 126 := by
      intro c hc
      simp only [List.mem_append, List.mem_singleton] at hc
      rcases hc with ((hc | hc) | hc) | hc
      · exact (isAlnum_props c (hchars c hc)).1
      · have := (base64Encode_chars data c hc).1
        omega
      · rw [hc, h59]
        omega
      · exact hlucky.2 c hc
    have hne : (Encode randomText data).length ≠ 0 := by
      intro h0
      have hnil := obfuscate_eq_nil _ (by
        have := List.length_eq_zero.mp h0
        simpa only [Encode, hd, if_false] using this)
      simp at hnil
    have hsplit : splitFirst (mkByte 59) (randomText ++ base64Encode data ++ [mkByte 59]
        ++ itoa ((randomText.length : Int) + luckyNumber))
        = some (randomText ++ base64Encode data,
            itoa ((randomText.length : Int) + luckyNumber)) := by
      rw [List.append_assoc (randomText ++ base64Encode data), List.singleton_append]
      exact splitFirst_append _ _ _ hpre
    have hreal : wrapInt ((randomText.length : Int) + luckyNumber - luckyNumber)
        = (randomText.length : Int) := by
      unfold wrapInt luckyNumber
      omega
    have hnz : (randomText.length : Int) + luckyNumber ≠ 0 := by
      unfold luckyNumber
      omega
    unfold Decode
    rw [if_neg hne]
    simp only [Encode, hd, if_false, deobfuscate_obfuscate _ hall, hsplit, hlucky.1, hnz, hreal]
    have hlt : ¬ (((randomText ++ base64Encode data).length : Int) < (randomText.length : Int)) := by
      simp only [List.length_append, Nat.cast_add]
      omega
    have hneg : ¬ ((randomText.length : Int) < 0) := by omega
    simp only [hlt, hneg, if_false, Int.toNat_ofNat, List.drop_left, base64Decode_encode,
      List.nil_append]

set_option maxRecDepth 4000 in
theorem exRandomText_alnum : ∀ c ∈ bytesOf "abcdefghij", isAlnum c = true := by
  decide

/-- C14 at a concrete input: the text "hello world" of the test, with the random text
"abcdefghij". -/
theorem C14_Decode_Encode_round_trip_witness :
    (10 ≤ (bytesOf "abcdefghij").length ∧ (bytesOf "abcdefghij").length ≤ 19)
    ∧ (∀ c ∈ bytesOf "abcdefghij", isAlnum c = true)
    ∧ Decode (Encode (bytesOf "abcdefghij") (bytesOf "hello world"))
        = Result.ret (bytesOf "hello world") :=
  ⟨by decide, exRandomText_alnum,
    C14_Decode_Encode_round_trip (bytesOf "abcdefghij") (bytesOf "hello world")
      (by decide) exRandomText_alnum⟩

/-- C15: for every non-empty byte sequence `data`, `Encode(data)` differs from `data`,
whatever random text is drawn: the encoded text is strictly longer than the plain
text. -/
theorem C15_Encode_differs_from_data (randomText data : List Byte) (hne : data ≠ []) :
    Encode randomText data ≠ data
    ∧ data.length < (Encode randomText data).length := by
  have hd : data.length ≠ 0 := fun h => hne (List.length_eq_zero.mp h)
  have hlen : data.length < (Encode randomText data).length := by
    simp only [Encode, hd, if_false]
    have h1 := obfuscate_length (randomText ++ base64Encode data ++ [mkByte 59]
      ++ itoa ((randomText.length : Int) + luckyNumber))
    have h2 := base64Encode_length data
    simp only [List.length_append, List.length_singleton] at h1
    omega
  refine ⟨?_, hlen⟩
  intro heq
  rw [heq] at hlen
  exact Nat.lt_irrefl _ hlen

/-- C15 at a concrete input: the text "hello world" of the test. -/
theorem C15_Encode_differs_from_data_witness :
    bytesOf "hello world" ≠ []
    ∧ Encode (bytesOf "abcdefghij") (bytesOf "hello world") ≠ bytesOf "hello world" :=
  ⟨by decide, (C15_Encode_differs_from_data (bytesOf "abcdefghij") (bytesOf "hello world")
    (by decide)).1⟩

/-- C27, refuted on the code: whenever the deobfuscated text is `random;length` and the
length field parses to a number other than 0 and below the lucky number 9527,
`realRandomLength` is negative, the length check
`len(randomAndEncodedText) < realRandomLength` lets it through, and the slice expression
`randomAndEncodedText[realRandomLength:]` panics: `Decode` does not return the empty
string on such malformed input. -/
theorem C27_Decode_panics_on_a_small_length_field (encoded random luckyLength : List Byte)
    (hsplit : deobfuscate encoded = random ++ mkByte 59 :: luckyLength)
    (hsep : ∀ c ∈ random, c ≠ mkByte 59)
    (hne : Atoi luckyLength ≠ 0)
    (hsmall : Atoi luckyLength < luckyNumber)
    (hfit : -9223372036854775808 + luckyNumber ≤ Atoi luckyLength) :
    wrapInt (Atoi luckyLength - luckyNumber) = Atoi luckyLength - luckyNumber
    ∧ Atoi luckyLength - luckyNumber < 0
    ∧ Decode encoded = Result.goPanic "runtime error: slice bounds out of range" := by
  have hlucky : luckyNumber = 9527 := rfl
  have hw : wrapInt (Atoi luckyLength - luckyNumber) = Atoi luckyLength - luckyNumber := by
    unfold wrapInt
    omega
  have hneg : Atoi luckyLength - luckyNumber < 0 := by omega
  refine ⟨hw, hneg, ?_⟩
  have hlen : ¬ encoded.length = 0 := by
    intro h0
    rw [List.length_eq_zero] at h0
    rw [h0] at hsplit
    have hnil : deobfuscate ([] : List Byte) = [] := rfl
    rw [hnil] at hsplit
    exact absurd hsplit.symm (List.append_ne_nil_of_right_ne_nil _ (List.cons_ne_nil _ _))
  have hcheck : ¬ ((random.length : Int) < Atoi luckyLength - luckyNumber) := by omega
  simp only [Decode, if_neg hlen, hsplit, splitFirst_append (mkByte 59) luckyLength random hsep,
    if_neg hne, hw, if_neg hcheck, if_pos hneg]

set_option maxRecDepth 4000 in
theorem exShort_no_separator : ∀ c ∈ bytesOf "abc", c ≠ mkByte 59 := by
  decide

/-- C27 at a concrete input: the five bytes `bcd<6` deobfuscate to `abc;5`, whose length
field parses to 5, so `realRandomLength` is 5 - 9527 = -9522 and `Decode` panics. -/
theorem C27_Decode_panics_on_a_small_length_field_witness :
    obfuscate (bytesOf "abc;5") = bytesOf "bcd<6"
    ∧ deobfuscate (bytesOf "bcd<6") = bytesOf "abc" ++ mkByte 59 :: bytesOf "5"
    ∧ Atoi (bytesOf "5") = 5
    ∧ Decode (bytesOf "bcd<6") = Result.goPanic "runtime error: slice bounds out of range" :=
  ⟨by decide, by decide, by decide,
    (C27_Decode_panics_on_a_small_length_field (bytesOf "bcd<6") (bytesOf "abc") (bytesOf "5")
      (by decide) exShort_no_separator (by decide) (by decide) (by decide)).2.2⟩

end naivecrypto

namespace dfs

/-! ## Following the map -/

theorem follow_add (m : StrMap) (a : Nat) :
    ∀ (b : Nat) (k : String), follow m (a + b) k = (follow m a k).bind (follow m b) := by
  intro b
  induction b with
  | zero =>
    intro k
    simp only [Nat.add_zero]
    cases follow m a k <;> rfl
  | succ b ih =>
    intro k
    show (follow m (a + b) k).bind (fun x => m.lookup x) = _
    rw [ih]
    cases follow m a k <;> rfl

theorem follow_mul (m : StrMap) (n : Nat) (k : String) (h : follow m n k = some k) :
    ∀ q : Nat, follow m (q * n) k = some k := by
  intro q
  induction q with
  | zero => simp [follow]
  | succ q ih =>
    rw [Nat.succ_mul, follow_add, ih]
    exact h

theorem follow_none_add (m : StrMap) (a : Nat) (k : String) (h : follow m a k = none) :
    ∀ b : Nat, follow m (a + b) k = none := by
  intro b
  rw [follow_add, h]
  rfl

/-- A walk that runs into a node without successor never returns to its start. -/
theorem not_onCycle_of_dead_end (m : StrMap) (start current : String) (j : Nat)
    (hcur : follow m j start = some current) (hend : m.lookup current = none) :
    ¬ onCycle m start := by
  rintro ⟨n, hn, hfn⟩
  have hdead : follow m (j + 1) start = none := by
    show (follow m j start).bind (fun x => m.lookup x) = none
    rw [hcur]
    exact hend
  have h1 := follow_mul m n start hfn (j + 1)
  have hge : j + 1 ≤ (j + 1) * n := Nat.le_mul_of_pos_right _ hn
  have h2 := follow_none_add m (j + 1) start hdead ((j + 1) * n - (j + 1))
  rw [Nat.add_sub_cancel' hge] at h2
  rw [h1] at h2
  cases h2

/-- A walk that comes back to a node other than its start, after visiting distinct
nodes, never returns to its start. -/
theorem not_onCycle_of_inner_repeat (m : StrMap) (start current : String) (i j : Nat)
    (hi : 0 < i) (hij : i < j)
    (hfi : follow m i start = some current) (hfj : follow m j start = some current)
    (hdist : ∀ d, 0 < d → d < j → follow m d start ≠ some start) :
    ¬ onCycle m start := by
  rintro ⟨n, hn, hfn⟩
  have hN := follow_mul m n start hfn i
  have hge : i ≤ i * n := Nat.le_mul_of_pos_right _ hn
  have h1 : follow m (i * n - i) current = some start := by
    have := follow_add m i (i * n - i) start
    rw [Nat.add_sub_cancel' hge, hN, hfi] at this
    exact this.symm
  have h2 : follow m (j + (i * n - i)) start = some start := by
    rw [follow_add, hfj]
    exact h1
  have h3 : follow m (i * n + (j - i)) start = follow m (j - i) start := by
    rw [follow_add, hN]
    rfl
  have heq : j + (i * n - i) = i * n + (j - i) := by omega
  rw [heq, h3] at h2
  exact hdist (j - i) (by omega) (by omega) h2

/-! ## The walk of dfs4circle -/

theorem dfs4circle_spec (m : StrMap) (start : String) :
    ∀ (fuel : Nat) (current : String) (stack : List String),
      (∀ i, i < stack.length → stack[i]? = follow m i start) →
      follow m stack.length start = some current →
      stack.Nodup → (∀ x ∈ stack, x ∈ m.keys) →
      m.keys.length + 1 ≤ fuel + stack.length →
      ∃ r, dfs4circle m start fuel current stack = some r
        ∧ ((r = [] ∧ ¬ onCycle m start)
          ∨ (∃ p, 0 < p ∧ p ≤ m.keys.length ∧ follow m p start = some start
              ∧ (∀ d, 0 < d → d < p → follow m d start ≠ some start)
              ∧ r.length = p + 1 ∧ ∀ i, i ≤ p → r[i]? = follow m i start)) := by
  intro fuel
  induction fuel with
  | zero =>
    intro current stack _ _ hnd hkeys hfuel
    have hle : stack.length ≤ m.keys.length := (hnd.subperm hkeys).length_le
    omega
  | succ fuel ih =>
    intro current stack hidx hcur hnd hkeys hfuel
    have hle : stack.length ≤ m.keys.length := (hnd.subperm hkeys).length_le
    have hdist : ∀ d, 0 < d → d < stack.length → follow m d start ≠ some start := by
      intro d hd hdl heq
      have h0 : stack[0]? = some start := by
        rw [hidx 0 (by omega)]
        rfl
      have hd2 : stack[d]? = some start := by rw [hidx d hdl, heq]
      exact (List.nodup_iff_getElem?_ne_getElem?.mp hnd) 0 d hd hdl (by rw [h0, hd2])
    by_cases hmem : current ∈ stack
    · by_cases hst : current = start
      · refine ⟨stack ++ [current], by simp only [dfs4circle, if_pos hmem, if_pos hst], Or.inr ?_⟩
        have hpos : 0 < stack.length := List.length_pos_of_mem hmem
        refine ⟨stack.length, hpos, hle, by rw [hcur, hst], hdist, by simp, ?_⟩
        intro i hi
        rcases Nat.lt_or_eq_of_le hi with hlt | heq
        · rw [List.getElem?_append_left hlt]
          exact hidx i hlt
        · rw [heq, hcur]
          simp
      · refine ⟨[], by simp only [dfs4circle, if_pos hmem, if_neg hst], Or.inl ⟨rfl, ?_⟩⟩
        obtain ⟨i, hi, hget⟩ := List.getElem_of_mem hmem
        have hfi : follow m i start = some current := by
          rw [← hidx i hi, List.getElem?_eq_getElem hi, hget]
        have hi0 : 0 < i := by
          rcases Nat.eq_zero_or_pos i with h0 | h0
          · rw [h0] at hfi
            simp only [follow, Option.some.injEq] at hfi
            exact absurd hfi.symm hst
          · exact h0
        exact not_onCycle_of_inner_repeat m start current i stack.length hi0 hi hfi hcur hdist
    · cases hl : m.lookup current with
      | none =>
        refine ⟨[], by simp only [dfs4circle, if_neg hmem, hl], Or.inl ⟨rfl, ?_⟩⟩
        exact not_onCycle_of_dead_end m start current stack.length hcur hl
      | some dst =>
        have hrec := ih dst (stack ++ [current])
          (by
            intro i hi
            simp only [List.length_append, List.length_singleton] at hi
            rcases Nat.lt_or_eq_of_le (Nat.lt_succ_iff.mp hi) with hlt | heq
            · rw [List.getElem?_append_left hlt]
              exact hidx i hlt
            · rw [heq, hcur]
              simp)
          (by
            simp only [List.length_append, List.length_singleton]
            show (follow m stack.length start).bind (fun x => m.lookup x) = some dst
            rw [hcur]
            exact hl)
          (by
            rw [List.nodup_append]
            refine ⟨hnd, List.nodup_singleton _, ?_⟩
            intro x hx hx2
            rw [List.mem_singleton.mp hx2] at hx
            exact hmem hx)
          (by
            intro x hx
            rcases List.mem_append.mp hx with hx | hx
            · exact hkeys x hx
            · rw [List.mem_singleton.mp hx]
              have hsome : (m.lookup current).isSome = true := by rw [hl]; rfl
              exact AList.mem_keys.mp (AList.lookup_isSome.mp hsome))
          (by simp only [List.length_append, List.length_singleton]; omega)
        obtain ⟨r, hr, hspec⟩ := hrec
        refine ⟨r, ?_, hspec⟩
        simp only [dfs4circle, if_neg hmem, hl]
        exact hr

theorem circleFrom_spec (m : StrMap) (src : String) :
    circleFrom m src = some (circleOf m src)
    ∧ ((circleOf m src = [] ∧ ¬ onCycle m src)
      ∨ (∃ p, 0 < p ∧ p ≤ m.keys.length ∧ follow m p src = some src
          ∧ (∀ d, 0 < d → d < p → follow m d src ≠ some src)
          ∧ (circleOf m src).length = p + 1
          ∧ ∀ i, i ≤ p → (circleOf m src)[i]? = follow m i src)) := by
  obtain ⟨r, hr, hspec⟩ := dfs4circle_spec m src (m.keys.length + 1) src []
    (by intro i hi; cases hi) rfl List.nodup_nil (by intro x hx; cases hx)
    (by simp)
  have hc : circleOf m src = r := by
    unfold circleOf circleFrom
    rw [hr]
    rfl
  rw [hc]
  exact ⟨hr, hspec⟩

theorem circleOf_ne_nil_iff (m : StrMap) (src : String) :
    0 < (circleOf m src).length ↔ onCycle m src := by
  rcases (circleFrom_spec m src).2 with ⟨hnil, hno⟩ | ⟨p, hp, _, hf, _, hlen, _⟩
  · rw [hnil]
    exact ⟨fun h => absurd h (Nat.lt_irrefl 0), fun h => absurd h hno⟩
  · exact ⟨fun _ => ⟨p, hp, hf⟩, fun _ => by omega⟩

theorem onCycleB_iff (m : StrMap) (k : String) : onCycleB m k = true ↔ onCycle m k := by
  unfold onCycleB
  rw [List.any_eq_true]
  constructor
  · rintro ⟨i, _, hi⟩
    exact ⟨i + 1, Nat.succ_pos i, of_decide_eq_true hi⟩
  · intro h
    rcases (circleFrom_spec m k).2 with ⟨_, hno⟩ | ⟨p, hp, hle, hf, _, _, _⟩
    · exact absurd h hno
    · refine ⟨p - 1, List.mem_range.mpr (by omega), ?_⟩
      have hp1 : p - 1 + 1 = p := by omega
      rw [hp1]
      exact decide_eq_true hf

theorem onCycle_mem (m : StrMap) (k : String) (h : onCycle m k) : k ∈ m := by
  obtain ⟨n, hn, hf⟩ := h
  obtain ⟨n1, rfl⟩ : ∃ n1, n = 1 + n1 := ⟨n - 1, by omega⟩
  rw [follow_add] at hf
  have h1 : follow m 1 k = m.lookup k := rfl
  rw [h1] at hf
  cases hl : m.lookup k with
  | none =>
    rw [hl] at hf
    cases hf
  | some d =>
    have hsome : (m.lookup k).isSome = true := by rw [hl]; rfl
    exact AList.lookup_isSome.mp hsome

/-! ## The loop of dfsAll -/

theorem foldlM_visit (m : StrMap) :
    ∀ (l : List String) (c : Circles),
      l.foldlM (fun (c : Circles) src =>
          (circleFrom m src).map (fun circle =>
            if circle.length > 0 then c.insert src circle else c)) c
        = some (l.foldl (visit m) c) := by
  intro l
  induction l with
  | nil => intro c; rfl
  | cons src rest ih =>
    intro c
    simp only [List.foldlM_cons, List.foldl_cons, (circleFrom_spec m src).1, Option.map_some']
    exact ih _

theorem foldl_visit_lookup (m : StrMap) (k : String) :
    ∀ (l : List String) (c : Circles),
      (l.foldl (visit m) c).lookup k
        = if k ∈ l ∧ 0 < (circleOf m k).length then some (circleOf m k) else c.lookup k := by
  intro l
  induction l with
  | nil => intro c; simp
  | cons src rest ih =>
    intro c
    rw [List.foldl_cons, ih]
    by_cases hk : 0 < (circleOf m k).length
    · by_cases hr : k ∈ rest
      · simp [hr, hk]
      · by_cases hs : k = src
        · subst hs
          simp [hr, hk, visit, AList.lookup_insert]
        · simp [hr, hk, hs, visit]
          split
          · exact AList.lookup_insert_ne hs
          · rfl
    · by_cases hs : k = src
      · subst hs
        simp [hk, visit]
      · simp only [hk, and_false, if_false, visit]
        split
        · exact AList.lookup_insert_ne hs
        · rfl

theorem foldl_visit_keys (m : StrMap) :
    ∀ (l : List String) (c : Circles), l.Nodup → (∀ x ∈ l, x ∉ c) →
      (l.foldl (visit m) c).keys
        = (l.filter (fun k => decide (0 < (circleOf m k).length))).reverse ++ c.keys := by
  intro l
  induction l with
  | nil => intro c _ _; rfl
  | cons src rest ih =>
    intro c hnd hdis
    have hsrc : src ∉ c := hdis src (List.mem_cons_self _ _)
    have hnr : src ∉ rest := (List.nodup_cons.mp hnd).1
    rw [List.foldl_cons, ih (visit m c src) (List.nodup_cons.mp hnd).2]
    · by_cases hk : 0 < (circleOf m src).length
      · have hkeys : (visit m c src).keys = src :: c.keys := by
          simp only [visit, hk, if_true, AList.keys, AList.insert_entries_of_neg hsrc,
            List.keys_cons]
        simp [List.filter_cons, hk, hkeys]
      · simp [List.filter_cons, hk, visit]
    · intro x hx
      have hxc : x ∉ c := hdis x (List.mem_cons_of_mem _ hx)
      unfold visit
      split
      · rw [AList.mem_insert]
        rintro (h | h)
        · rw [h] at hx
          exact hnr hx
        · exact hxc h
      · exact hxc

theorem dfsAll_eq (g : graph) :
    dfsAll g = some { g with c := g.m.keys.foldl (visit g.m) g.c } := by
  unfold dfsAll
  rw [foldlM_visit]
  rfl

/-! ## The copy made by NewGraph -/

theorem foldl_insert_entries :
    ∀ (l : List (Sigma fun _ : String => String)) (acc : StrMap),
      l.NodupKeys → (∀ e ∈ l, e.1 ∉ acc) →
      (l.foldl (fun (acc : StrMap) e => acc.insert e.1 e.2) acc).entries
        = l.reverse ++ acc.entries := by
  intro l
  induction l with
  | nil => intro acc _ _; rfl
  | cons e rest ih =>
    intro acc hnd hdis
    have he : e.1 ∉ acc := hdis e (List.mem_cons_self _ _)
    rw [List.foldl_cons, ih _ (List.nodupKeys_cons.mp hnd).2]
    · rw [AList.insert_entries_of_neg he]
      simp
    · intro x hx
      rw [AList.mem_insert]
      rintro (h | h)
      · have hin : e.1 ∈ rest.keys := by
          rw [← h]
          exact List.mem_keys_of_mem hx
        exact (List.nodupKeys_cons.mp hnd).1 hin
      · exact hdis x (List.mem_cons_of_mem _ hx) h

theorem NewGraph_entries (m : Option StrMap) :
    (NewGraph m).m.entries = (mapOf m).entries.reverse ∧ (NewGraph m).c = ∅ := by
  cases m with
  | none => exact ⟨rfl, rfl⟩
  | some mm =>
    refine ⟨?_, rfl⟩
    show (mm.entries.foldl (fun (acc : StrMap) e => acc.insert e.1 e.2) ∅).entries = _
    rw [foldl_insert_entries mm.entries ∅ mm.nodupKeys (by intro e _ h; cases h)]
    simp [mapOf]

theorem NewGraph_lookup (m : Option StrMap) (k : String) :
    (NewGraph m).m.lookup k = (mapOf m).lookup k := by
  apply AList.perm_lookup
  rw [(NewGraph_entries m).1]
  exact List.reverse_perm _

theorem NewGraph_keys (m : Option StrMap) : (NewGraph m).m.keys = (mapOf m).keys.reverse := by
  simp only [AList.keys, (NewGraph_entries m).1, List.keys, List.map_reverse]

theorem follow_congr (m1 m2 : StrMap) (h : ∀ k, m1.lookup k = m2.lookup k) :
    ∀ (n : Nat) (k : String), follow m1 n k = follow m2 n k := by
  intro n
  induction n with
  | zero => intro k; rfl
  | succ n ih =>
    intro k
    show (follow m1 n k).bind (fun x => m1.lookup x) = (follow m2 n k).bind (fun x => m2.lookup x)
    rw [ih]
    congr 1
    funext x
    exact h x

theorem onCycle_congr (m1 m2 : StrMap) (h : ∀ k, m1.lookup k = m2.lookup k) (k : String) :
    onCycle m1 k ↔ onCycle m2 k := by
  unfold onCycle
  simp only [follow_congr m1 m2 h]

/-! ## The circles of a graph -/

theorem NewGraph_Circles_lookup (m : Option StrMap) (k : String) :
    ((NewGraph m).m.keys.foldl (visit (NewGraph m).m) ∅).lookup k
      = if onCycleB (mapOf m) k = true then some (circleOf (NewGraph m).m k) else none := by
  have hcong := onCycle_congr (NewGraph m).m (mapOf m) (NewGraph_lookup m) k
  rw [foldl_visit_lookup]
  by_cases hc : onCycle (mapOf m) k
  · have hmem : k ∈ (NewGraph m).m.keys := by
      rw [NewGraph_keys, List.mem_reverse]
      exact AList.mem_keys.mp (onCycle_mem _ _ hc)
    have hlen : 0 < (circleOf (NewGraph m).m k).length :=
      (circleOf_ne_nil_iff _ _).mpr (hcong.mpr hc)
    rw [if_pos ⟨hmem, hlen⟩, if_pos ((onCycleB_iff _ _).mpr hc)]
  · have hlen : ¬ 0 < (circleOf (NewGraph m).m k).length := fun h =>
      hc (hcong.mp ((circleOf_ne_nil_iff _ _).mp h))
    rw [if_neg (fun h => hlen h.2), if_neg (fun h => hc ((onCycleB_iff _ _).mp h))]
    rfl

/-- C16: for every map `m` (nil and empty included) `NewGraph(m).Circles()` returns a
map that has an entry for `k` exactly when `k` is a key of `m` lying on a cycle; so it
has as many entries as there are keys on cycles, a node that only leads into a cycle has
no entry, and the value stored for `k` is the path `k, m[k], ..., k` once around the
cycle: it has `p + 1` elements, where `p` is the least positive number of steps after
which the walk from `k` is back at `k`, and its `i`-th element is the node reached from
`k` in `i` steps. -/
theorem C16_Circles_entries_are_the_nodes_on_cycles (m : Option StrMap) :
    ∃ r, (NewGraph m).Circles = some r
      ∧ (∀ k, k ∈ r.1 ↔ k ∈ mapOf m ∧ onCycle (mapOf m) k)
      ∧ (∀ k, ¬ onCycle (mapOf m) k → r.1.lookup k = none)
      ∧ (∀ k path, r.1.lookup k = some path →
          ∃ p, 0 < p ∧ follow (mapOf m) p k = some k
            ∧ (∀ d, 0 < d → d < p → follow (mapOf m) d k ≠ some k)
            ∧ path.length = p + 1 ∧ ∀ i, i ≤ p → path[i]? = follow (mapOf m) i k)
      ∧ r.1.keys.length = ((mapOf m).keys.filter (onCycleB (mapOf m))).length
      ∧ (∀ k, onCycleB (mapOf m) k = true ↔ onCycle (mapOf m) k) := by
  have hc0 : (NewGraph m).c = ∅ := (NewGraph_entries m).2
  refine ⟨((NewGraph m).m.keys.foldl (visit (NewGraph m).m) ∅,
    { NewGraph m with c := (NewGraph m).m.keys.foldl (visit (NewGraph m).m) ∅ }), ?_, ?_, ?_,
    ?_, ?_, ?_⟩
  · simp only [graph.Circles, dfsAll_eq, hc0, Option.map_some']
  · intro k
    rw [← AList.lookup_isSome]
    show (AList.lookup k ((NewGraph m).m.keys.foldl (visit (NewGraph m).m) ∅)).isSome = true ↔ _
    rw [NewGraph_Circles_lookup]
    by_cases hc : onCycle (mapOf m) k
    · rw [if_pos ((onCycleB_iff _ _).mpr hc)]
      exact ⟨fun _ => ⟨onCycle_mem _ _ hc, hc⟩, fun _ => rfl⟩
    · rw [if_neg (fun h => hc ((onCycleB_iff _ _).mp h))]
      exact ⟨fun h => Bool.noConfusion h, fun h => absurd h.2 hc⟩
  · intro k hk
    show AList.lookup k ((NewGraph m).m.keys.foldl (visit (NewGraph m).m) ∅) = none
    rw [NewGraph_Circles_lookup, if_neg (fun h => hk ((onCycleB_iff _ _).mp h))]
  · intro k path hpath
    have hl := NewGraph_Circles_lookup m k
    rw [show AList.lookup k ((NewGraph m).m.keys.foldl (visit (NewGraph m).m) ∅) = some path
      from hpath] at hl
    by_cases hc : onCycle (mapOf m) k
    · rw [if_pos ((onCycleB_iff _ _).mpr hc)] at hl
      have hp : path = circleOf (NewGraph m).m k := Option.some.inj hl
      have hcong := onCycle_congr (NewGraph m).m (mapOf m) (NewGraph_lookup m) k
      have hf := follow_congr (NewGraph m).m (mapOf m) (NewGraph_lookup m)
      rcases (circleFrom_spec (NewGraph m).m k).2 with ⟨_, hno⟩ | ⟨p, hp0, _, hfp, hmin, hlen, hidx⟩
      · exact absurd (hcong.mpr hc) hno
      · refine ⟨p, hp0, ?_, ?_, ?_, ?_⟩
        · rw [← hf]; exact hfp
        · intro d hd hdp
          rw [← hf]
          exact hmin d hd hdp
        · rw [hp]; exact hlen
        · intro i hi
          rw [hp, ← hf]
          exact hidx i hi
    · rw [if_neg (fun h => hc ((onCycleB_iff _ _).mp h))] at hl
      cases hl
  · show (AList.keys ((NewGraph m).m.keys.foldl (visit (NewGraph m).m) ∅)).length = _
    rw [foldl_visit_keys (NewGraph m).m (NewGraph m).m.keys ∅ (NewGraph m).m.keys_nodup
      (by intro x _ h; cases h)]
    have hfilter : (NewGraph m).m.keys.filter
          (fun k => decide (0 < (circleOf (NewGraph m).m k).length))
        = (NewGraph m).m.keys.filter (onCycleB (mapOf m)) := by
      apply List.filter_congr
      intro k _
      have hcong := onCycle_congr (NewGraph m).m (mapOf m) (NewGraph_lookup m) k
      by_cases hc : onCycle (mapOf m) k
      · rw [(onCycleB_iff _ _).mpr hc]
        exact decide_eq_true ((circleOf_ne_nil_iff _ _).mpr (hcong.mpr hc))
      · have hb : onCycleB (mapOf m) k = false := by
          cases hb : onCycleB (mapOf m) k
          · rfl
          · exact absurd ((onCycleB_iff _ _).mp hb) hc
        rw [hb]
        exact decide_eq_false (fun h => hc (hcong.mp ((circleOf_ne_nil_iff _ _).mp h)))
    rw [hfilter, NewGraph_keys, List.filter_reverse]
    simp
  · intro k
    exact onCycleB_iff _ k

/-- C16 at a concrete input: the map a -> b -> c -> d -> e -> b of `TestDFS`, where the
four nodes b, c, d, e are on the cycle and a only leads into it. -/
theorem C16_Circles_entries_are_the_nodes_on_cycles_witness :
    (∃ r, (NewGraph (some exMap)).Circles = some r
      ∧ (∀ k, k ∈ r.1 ↔ k ∈ mapOf (some exMap) ∧ onCycle (mapOf (some exMap)) k)
      ∧ r.1.keys.length
          = ((mapOf (some exMap)).keys.filter (onCycleB (mapOf (some exMap)))).length)
    ∧ ((mapOf (some exMap)).keys.filter (onCycleB (mapOf (some exMap)))).length = 4
    ∧ ((NewGraph (some exMap)).Circles.map (fun r => r.1.lookup "b"))
        = some (some ["b", "c", "d", "e", "b"])
    ∧ ((NewGraph (some exMap)).Circles.map (fun r => r.1.lookup "a")) = some none :=
  have h := C16_Circles_entries_are_the_nodes_on_cycles (some exMap)
  ⟨h.elim (fun r hr => ⟨r, hr.1, hr.2.1, hr.2.2.2.2.1⟩), by decide, by decide, by decide⟩

/-! ## CircleDetect -/

theorem entries_length_pos_iff (c : Circles) : 0 < c.entries.length ↔ ∃ k, k ∈ c := by
  constructor
  · intro h
    obtain ⟨e, he⟩ := List.exists_mem_of_length_pos h
    exact ⟨e.1, AList.mem_keys.mpr (List.mem_keys_of_mem he)⟩
  · rintro ⟨k, hk⟩
    have hk2 : k ∈ c.entries.keys := AList.mem_keys.mp hk
    have hpos : 0 < c.entries.keys.length := List.length_pos_of_mem hk2
    simpa [List.keys] using hpos

theorem foldl_visit_twice (m : Option StrMap) (k : String) :
    ((NewGraph m).m.keys.foldl (visit (NewGraph m).m)
        ((NewGraph m).m.keys.foldl (visit (NewGraph m).m) ∅)).lookup k
      = if onCycleB (mapOf m) k = true then some (circleOf (NewGraph m).m k) else none := by
  rw [foldl_visit_lookup, NewGraph_Circles_lookup]
  by_cases hc : onCycle (mapOf m) k
  · rw [if_pos ((onCycleB_iff _ _).mpr hc)]
    split <;> rfl
  · have hcong := onCycle_congr (NewGraph m).m (mapOf m) (NewGraph_lookup m) k
    have hlen : ¬ 0 < (circleOf (NewGraph m).m k).length := fun h =>
      hc (hcong.mp ((circleOf_ne_nil_iff _ _).mp h))
    rw [if_neg (fun h => hlen h.2)]

/-- C17: `CircleDetect(m)` returns a non-nil error exactly when the single-successor
graph `m` contains a cycle, that is when some key reaches itself by following `m` one or
more steps; it returns nil for the nil map, for the empty map and for every map without
a cycle. -/
theorem C17_CircleDetect_fails_iff_cycle (m : Option StrMap) :
    ∃ e, CircleDetect m = some e
      ∧ (e.isSome = true ↔ ∃ k, onCycle (mapOf m) k)
      ∧ ((∀ k, ¬ onCycle (mapOf m) k) → e = none)
      ∧ CircleDetect none = some none
      ∧ CircleDetect (some ∅) = some none := by
  have hc0 : (NewGraph m).c = ∅ := (NewGraph_entries m).2
  have hpos : 0 < ((NewGraph m).m.keys.foldl (visit (NewGraph m).m)
        ((NewGraph m).m.keys.foldl (visit (NewGraph m).m) ∅)).entries.length
      ↔ ∃ k, onCycle (mapOf m) k := by
    rw [entries_length_pos_iff]
    constructor
    · rintro ⟨k, hk⟩
      rw [← AList.lookup_isSome, foldl_visit_twice] at hk
      by_cases hc : onCycle (mapOf m) k
      · exact ⟨k, hc⟩
      · rw [if_neg (fun h => hc ((onCycleB_iff _ _).mp h))] at hk
        cases hk
    · rintro ⟨k, hc⟩
      refine ⟨k, ?_⟩
      rw [← AList.lookup_isSome, foldl_visit_twice, if_pos ((onCycleB_iff _ _).mpr hc)]
      rfl
  have hD : CircleDetect m
      = if 0 < ((NewGraph m).m.keys.foldl (visit (NewGraph m).m)
            ((NewGraph m).m.keys.foldl (visit (NewGraph m).m) ∅)).entries.length
        then some (some ((NewGraph m).m.keys.foldl (visit (NewGraph m).m)
          ((NewGraph m).m.keys.foldl (visit (NewGraph m).m)
            ((NewGraph m).m.keys.foldl (visit (NewGraph m).m) ∅))))
        else some none := by
    simp only [CircleDetect, graph.Circles, dfsAll_eq, hc0, Option.some_bind, Option.map_some',
      gt_iff_lt]
  by_cases hcyc : ∃ k, onCycle (mapOf m) k
  · refine ⟨_, by rw [hD, if_pos (hpos.mpr hcyc)], ?_, ?_, by decide, by decide⟩
    · exact ⟨fun _ => hcyc, fun _ => rfl⟩
    · intro hno
      obtain ⟨k, hk⟩ := hcyc
      exact absurd hk (hno k)
  · refine ⟨none, by rw [hD, if_neg (fun h => hcyc (hpos.mp h))], ?_, fun _ => rfl,
      by decide, by decide⟩
    exact ⟨fun h => Bool.noConfusion h, fun h => absurd h hcyc⟩

/-- C17 at concrete inputs: the cyclic map of `TestDFS` is rejected, and a map without
a cycle is accepted. -/
theorem C17_CircleDetect_fails_iff_cycle_witness :
    (∃ e, CircleDetect (some exMap) = some e
      ∧ (e.isSome = true ↔ ∃ k, onCycle (mapOf (some exMap)) k))
    ∧ ((CircleDetect (some exMap)).map Option.isSome) = some true
    ∧ ((CircleDetect (some (ofPairs [("a", "b"), ("c", "d"), ("m", "n")]))).map Option.isSome)
        = some false :=
  have h := C17_CircleDetect_fails_iff_cycle (some exMap)
  ⟨h.elim (fun e he => ⟨e, he.1, he.2.1⟩), by decide, by decide⟩

/-! ## The walk of dfs4path -/

theorem dfs4path_spec (m : StrMap) :
    ∀ (fuel : Nat) (start : String) (stack : List String),
      stack.Nodup → (∀ x ∈ stack, x ∈ m.keys) →
      List.Chain' (fun x y => m.lookup x = some y) (stack ++ [start]) →
      m.keys.length + 1 ≤ fuel + stack.length →
      ∃ walked last flag, dfs4path m fuel start stack = some (walked ++ [last], flag)
        ∧ (stack ++ [start]) <+: (walked ++ [last])
        ∧ walked.Nodup ∧ (∀ x ∈ walked, x ∈ m.keys)
        ∧ List.Chain' (fun x y => m.lookup x = some y) (walked ++ [last])
        ∧ ((flag = true ∧ last ∈ walked)
          ∨ (flag = false ∧ last ∉ walked ∧ m.lookup last = none)) := by
  intro fuel
  induction fuel with
  | zero =>
    intro start stack hnd hkeys _ hfuel
    have hle : stack.length ≤ m.keys.length := (hnd.subperm hkeys).length_le
    omega
  | succ fuel ih =>
    intro start stack hnd hkeys hchain hfuel
    have hle : stack.length ≤ m.keys.length := (hnd.subperm hkeys).length_le
    by_cases hmem : start ∈ stack
    · exact ⟨stack, start, true, by simp only [dfs4path, if_pos hmem], List.prefix_refl _, hnd,
        hkeys, hchain, Or.inl ⟨rfl, hmem⟩⟩
    · cases hl : m.lookup start with
      | none =>
        exact ⟨stack, start, false, by simp only [dfs4path, if_neg hmem, hl],
          List.prefix_refl _, hnd, hkeys, hchain, Or.inr ⟨rfl, hmem, hl⟩⟩
      | some dst =>
        have hrec := ih dst (stack ++ [start])
          (by
            rw [List.nodup_append]
            refine ⟨hnd, List.nodup_singleton _, ?_⟩
            intro x hx hx2
            rw [List.mem_singleton.mp hx2] at hx
            exact hmem hx)
          (by
            intro x hx
            rcases List.mem_append.mp hx with hx | hx
            · exact hkeys x hx
            · rw [List.mem_singleton.mp hx]
              have hsome : (m.lookup start).isSome = true := by rw [hl]; rfl
              exact AList.mem_keys.mp (AList.lookup_isSome.mp hsome))
          (by
            rw [List.chain'_append]
            refine ⟨hchain, List.chain'_singleton _, ?_⟩
            intro x hx y hy
            have hlast : (stack ++ [start]).getLast? = some start := by simp
            rw [hlast] at hx
            simp only [Option.mem_def, Option.some.injEq, List.head?_cons] at hx hy
            rw [← hx, ← hy]
            exact hl)
          (by simp only [List.length_append, List.length_singleton]; omega)
        obtain ⟨walked, last, flag, hr, hpre, hrest⟩ := hrec
        refine ⟨walked, last, flag, ?_, ?_, hrest⟩
        · simp only [dfs4path, if_neg hmem, hl]
          exact hr
        · exact (List.prefix_append _ _).trans hpre

theorem dfs4circle_returns (m : StrMap) (start : String) :
    ∀ (fuel : Nat) (current : String) (stack : List String),
      stack.Nodup → (∀ x ∈ stack, x ∈ m.keys) →
      m.keys.length + 1 ≤ fuel + stack.length →
      ∃ r, dfs4circle m start fuel current stack = some r := by
  intro fuel
  induction fuel with
  | zero =>
    intro current stack hnd hkeys hfuel
    have hle : stack.length ≤ m.keys.length := (hnd.subperm hkeys).length_le
    omega
  | succ fuel ih =>
    intro current stack hnd hkeys hfuel
    by_cases hmem : current ∈ stack
    · by_cases hst : current = start
      · exact ⟨stack ++ [current], by simp only [dfs4circle, if_pos hmem, if_pos hst]⟩
      · exact ⟨[], by simp only [dfs4circle, if_pos hmem, if_neg hst]⟩
    · cases hl : m.lookup current with
      | none => exact ⟨[], by simp only [dfs4circle, if_neg hmem, hl]⟩
      | some dst =>
        obtain ⟨r, hr⟩ := ih dst (stack ++ [current])
          (by
            rw [List.nodup_append]
            refine ⟨hnd, List.nodup_singleton _, ?_⟩
            intro x hx hx2
            rw [List.mem_singleton.mp hx2] at hx
            exact hmem hx)
          (by
            intro x hx
            rcases List.mem_append.mp hx with hx | hx
            · exact hkeys x hx
            · rw [List.mem_singleton.mp hx]
              have hsome : (m.lookup current).isSome = true := by rw [hl]; rfl
              exact AList.mem_keys.mp (AList.lookup_isSome.mp hsome))
          (by simp only [List.length_append, List.length_singleton]; omega)
        exact ⟨r, by simp only [dfs4circle, if_neg hmem, hl]; exact hr⟩

theorem PathFromNode_spec (m : Option StrMap) (start : String) :
    ∃ walked last flag, PathFromNode m start = some (walked ++ [last], flag)
      ∧ [start] <+: (walked ++ [last])
      ∧ walked.Nodup ∧ walked.length ≤ (mapOf m).keys.length
      ∧ List.Chain' (fun x y => (mapOf m).lookup x = some y) (walked ++ [last])
      ∧ ((flag = true ∧ last ∈ walked)
        ∨ (flag = false ∧ last ∉ walked ∧ (mapOf m).lookup last = none)) := by
  obtain ⟨walked, last, flag, hr, hpre, hnd, hkeys, hchain, hflag⟩ :=
    dfs4path_spec (NewGraph m).m ((NewGraph m).m.keys.length + 1) start []
      List.nodup_nil (by intro x hx; cases hx) (List.chain'_singleton _) (by simp)
  refine ⟨walked, last, flag, hr, hpre, hnd, ?_, ?_, ?_⟩
  · have hle : walked.length ≤ (NewGraph m).m.keys.length := (hnd.subperm hkeys).length_le
    rw [NewGraph_keys, List.length_reverse] at hle
    exact hle
  · simp only [NewGraph_lookup] at hchain
    exact hchain
  · rw [NewGraph_lookup] at hflag
    exact hflag

/-- C26: `PathFromNode(m, start)` returns a path and a flag.  The path begins with
`start`; every consecutive pair `(x, y)` of it satisfies `m[x] = y`; the elements before
the last are pairwise distinct.  The flag is false exactly when the last element has no
successor in `m`, and then no element of the path is repeated; the flag is true exactly
when the last element equals an earlier element of the path. -/
theorem C26_PathFromNode_walk (m : Option StrMap) (start : String) :
    ∃ path flag last, PathFromNode m start = some (path, flag)
      ∧ path.head? = some start
      ∧ List.Chain' (fun x y => (mapOf m).lookup x = some y) path
      ∧ path.getLast? = some last
      ∧ path.dropLast.Nodup
      ∧ (flag = false ↔ (mapOf m).lookup last = none)
      ∧ (flag = false → path.Nodup)
      ∧ (flag = true ↔ last ∈ path.dropLast) := by
  obtain ⟨walked, last, flag, hr, hpre, hnd, hlen, hchain, hflag⟩ := PathFromNode_spec m start
  have hkeys : ∀ x ∈ walked, (mapOf m).lookup x ≠ none := by
    intro x hx
    rcases List.mem_iff_append.mp hx with ⟨l1, l2, hsplit⟩
    rw [hsplit, List.append_assoc, List.chain'_append] at hchain
    have hc2 := hchain.2.1
    cases l2 with
    | nil =>
      simp only [List.nil_append, List.singleton_append, List.chain'_cons] at hc2
      rw [hc2.1]
      exact Option.some_ne_none _
    | cons y ys =>
      simp only [List.cons_append, List.chain'_cons] at hc2
      rw [hc2.1]
      exact Option.some_ne_none _
  refine ⟨walked ++ [last], flag, last, hr, ?_, hchain, by simp, ?_, ?_, ?_, ?_⟩
  · obtain ⟨t, ht⟩ := hpre
    rw [← ht]
    rfl
  · rw [List.dropLast_concat]
    exact hnd
  · rcases hflag with ⟨hf, hmem⟩ | ⟨hf, hmem, hl⟩
    · rw [hf]
      exact ⟨fun h => Bool.noConfusion h, fun h => absurd h (hkeys last hmem)⟩
    · rw [hf]
      exact ⟨fun _ => hl, fun _ => rfl⟩
  · intro hfalse
    rcases hflag with ⟨hf, hmem⟩ | ⟨hf, hmem, hl⟩
    · rw [hf] at hfalse
      exact Bool.noConfusion hfalse
    · rw [List.nodup_append]
      refine ⟨hnd, List.nodup_singleton _, ?_⟩
      intro x hx hx2
      rw [List.mem_singleton.mp hx2] at hx
      exact hmem hx
  · rw [List.dropLast_concat]
    rcases hflag with ⟨hf, hmem⟩ | ⟨hf, hmem, hl⟩
    · rw [hf]
      exact ⟨fun _ => hmem, fun _ => rfl⟩
    · rw [hf]
      exact ⟨fun h => Bool.noConfusion h, fun h => absurd h hmem⟩

/-- C26 on the map of `example/example.go`: from "a" the walk runs into the cycle
c, d, m and stops at the second "c" with the flag set; from "k" it ends at "n", which
has no successor. -/
theorem C26_PathFromNode_walk_witness :
    PathFromNode (some exGraph) "a" = some (["a", "b", "c", "d", "m", "c"], true)
    ∧ PathFromNode (some exGraph) "k" = some (["k", "n"], false)
    ∧ ∃ path flag last, PathFromNode (some exGraph) "a" = some (path, flag)
        ∧ path.head? = some "a"
        ∧ path.getLast? = some last
        ∧ (flag = true ↔ last ∈ path.dropLast) :=
  ⟨by decide, by decide,
    (C26_PathFromNode_walk (some exGraph) "a").elim (fun path h1 =>
      h1.elim (fun flag h2 => h2.elim (fun last h =>
        ⟨path, flag, last, h.1, h.2.1, h.2.2.2.1, h.2.2.2.2.2.2.2⟩)))⟩

/-- C29: on every map and for every start node, lying on a cycle or not, `dfs4circle`
and `dfs4path` return within `|m| + 1` calls (the budget of the walk, one unit per
call), and the path returned by `PathFromNode` has at most `|m| + 1` elements. -/
theorem C29_walks_terminate (m : Option StrMap) (start current : String) :
    (∃ r, dfs4circle (NewGraph m).m start ((mapOf m).keys.length + 1) current [] = some r)
    ∧ (∃ r, dfs4path (NewGraph m).m ((mapOf m).keys.length + 1) start [] = some r)
    ∧ (∃ r, PathFromNode m start = some r ∧ r.1.length ≤ (mapOf m).keys.length + 1) := by
  have hlen : (NewGraph m).m.keys.length = (mapOf m).keys.length := by
    rw [NewGraph_keys, List.length_reverse]
  refine ⟨?_, ?_, ?_⟩
  · exact dfs4circle_returns (NewGraph m).m start ((mapOf m).keys.length + 1) current []
      List.nodup_nil (by intro x hx; cases hx) (by simp [hlen])
  · obtain ⟨walked, last, flag, hr, _⟩ := PathFromNode_spec m start
    unfold PathFromNode at hr
    rw [hlen] at hr
    exact ⟨_, hr⟩
  · obtain ⟨walked, last, flag, hr, _, _, hle, _⟩ := PathFromNode_spec m start
    refine ⟨_, hr, ?_⟩
    simp only [List.length_append, List.length_singleton]
    omega

end dfs

namespace rate

/-! ## Garbage collection of outdated tokens -/

theorem gcLoop_eq (b : Int) :
    ∀ (ts : List Int) (idx n : Nat),
      gcLoop b ts idx n
        = if (ts.takeWhile (fun t => decide (t < b))).length = 0 then n
          else idx + (ts.takeWhile (fun t => decide (t < b))).length := by
  intro ts
  induction ts with
  | nil => intro idx n; rfl
  | cons t rest ih =>
    intro idx n
    by_cases h : t < b
    · simp only [gcLoop, h, not_true_eq_false, if_false, List.takeWhile_cons, decide_True,
        if_true, List.length_cons, ih, Nat.succ_ne_zero]
      split <;> omega
    · simp [gcLoop, h, List.takeWhile_cons]

theorem drop_takeWhile_length (p : Int → Bool) :
    ∀ ts : List Int, ts.drop (ts.takeWhile p).length = ts.dropWhile p := by
  intro ts
  induction ts with
  | nil => rfl
  | cons t rest ih =>
    cases h : p t <;> simp [List.takeWhile_cons, List.dropWhile_cons, h, ih]

theorem gc_state (now : Int) (l : limiter) :
    (gc now l).2 = { l with tokens := l.tokens.dropWhile (fun t => decide (t < outdated l now)) } := by
  unfold gc
  by_cases h0 : l.tokens.length = 0
  · have hnil : l.tokens = [] := List.length_eq_zero.mp h0
    simp only [h0, if_true, hnil, List.dropWhile_nil]
    cases l
    simp_all
  · simp only [h0, if_false, gcLoop_eq, Nat.zero_add]
    have hle : (l.tokens.takeWhile (fun t => decide (t < outdated l now))).length
        ≤ l.tokens.length := (List.takeWhile_sublist _).length_le
    by_cases hk : (l.tokens.takeWhile (fun t => decide (t < outdated l now))).length = 0
    · simp only [hk, if_true, gt_iff_lt, Nat.lt_irrefl, if_false]
      have := drop_takeWhile_length (fun t => decide (t < outdated l now)) l.tokens
      rw [hk, List.drop_zero] at this
      rw [← this]
    · have hpos : (l.tokens.takeWhile (fun t => decide (t < outdated l now))).length > 0 := by
        omega
      simp only [hk, if_false, hpos, if_true, shiftN, size]
      have hge : (l.tokens.length : Int)
          ≥ ((l.tokens.takeWhile (fun t => decide (t < outdated l now))).length : Int) := by
        exact_mod_cast hle
      simp only [hge, if_true, drop_takeWhile_length]

theorem gc_tokens (now : Int) (l : limiter) :
    (gc now l).2.tokens = l.tokens.dropWhile (fun t => decide (t < outdated l now)) := by
  rw [gc_state]

theorem gc_window (now : Int) (l : limiter) : (gc now l).2.window = l.window := by
  rw [gc_state]

theorem gc_limit (now : Int) (l : limiter) : (gc now l).2.limit = l.limit := by
  rw [gc_state]

theorem dropWhile_idem (p : Int → Bool) :
    ∀ ts : List Int, (ts.dropWhile p).dropWhile p = ts.dropWhile p := by
  intro ts
  induction ts with
  | nil => rfl
  | cons t rest ih =>
    cases h : p t
    · simp [List.dropWhile_cons, h]
    · simpa [List.dropWhile_cons, h] using ih

theorem gc_idem (now : Int) (l : limiter) : (gc now (gc now l).2).2 = (gc now l).2 := by
  rw [gc_state now (gc now l).2, gc_state now l]
  simp only [outdated, dropWhile_idem]

theorem gc_of_none_outdated (now : Int) (l : limiter)
    (h : ∀ t ∈ l.tokens, outdated l now ≤ t) : (gc now l).2 = l := by
  rw [gc_state]
  have hd : l.tokens.dropWhile (fun t => decide (t < outdated l now)) = l.tokens := by
    cases hl : l.tokens with
    | nil => rfl
    | cons t rest =>
      have ht : outdated l now ≤ t := h t (by rw [hl]; exact List.mem_cons_self _ _)
      have hnot : ¬ t < outdated l now := by omega
      simp [List.dropWhile_cons, hnot]
  rw [hd]

theorem takes_within_window (now : Int) :
    ∀ (ts : List Int) (l : limiter),
      0 ≤ l.limit → l.limit < 9223372036854775808 →
      (l.tokens.length : Int) + ts.length ≤ l.limit →
      (∀ t ∈ l.tokens, outdated l now ≤ t) →
      (∀ t ∈ ts, outdated l now ≤ t ∧ t ≤ now) →
      (∀ e ∈ (takes l ts).1, e = none)
      ∧ (takes l ts).1.length = ts.length
      ∧ (takes l ts).2 = { l with tokens := l.tokens ++ ts } := by
  intro ts
  induction ts with
  | nil =>
    intro l _ _ _ _ _
    simp [takes]
  | cons t rest ih =>
    intro l h0 h1 hlen htok hts
    have ht := hts t (List.mem_cons_self _ _)
    have hgc : (gc t l).2 = l := by
      apply gc_of_none_outdated
      intro x hx
      have := htok x hx
      unfold outdated at *
      omega
    have hrem : remains l ≠ 0 := by
      show wrap64 (l.limit - (l.tokens.length : Int)) ≠ 0
      unfold wrap64
      simp only [List.length_cons, Nat.cast_add, Nat.cast_one] at hlen
      omega
    have hTake : Take t l = (none, push t l) := by
      simp only [Take, hgc, hrem, if_false]
    have hih := ih (push t l) h0 h1
      (by simp only [push, List.length_append, List.length_singleton, Nat.cast_add,
            Nat.cast_one, List.length_cons, List.length_nil] at hlen ⊢; omega)
      (by
        intro x hx
        simp only [push, List.mem_append, List.mem_singleton] at hx
        rcases hx with hx | hx
        · exact htok x hx
        · rw [hx]; exact ht.1)
      (by
        intro x hx
        exact hts x (List.mem_cons_of_mem _ hx))
    simp only [takes, hTake]
    refine ⟨?_, ?_, ?_⟩
    · intro e he
      rcases List.mem_cons.mp he with he | he
      · exact he
      · exact hih.1 e he
    · simp [hih.2.1]
    · rw [hih.2.2]
      simp [push]

theorem taken_add_remains (now : Int) (l : limiter) :
    wrap64 ((Taken now l).1 + (Remains now l).1) = wrap64 l.limit := by
  simp only [Taken, Remains, remains, gc_limit]
  unfold wrap64
  omega

/-- C18: token accounting.  For a limiter made by `NewLimiter w L` with `L ≥ 0`, after
`n ≤ L` calls of `Take` that all lie within one window ending at `now`, every `Take`
returned nil, `Taken()` is `n` and `Remains()` is `L - n`.  In every state `l`,
`Taken() + Remains()` is the current limit (in 64-bit arithmetic, and as plain integers
whenever the limit is not negative). -/
theorem C18_token_accounting (w L now : Int) (ts : List Int) (l : limiter)
    (hL : 0 ≤ L ∧ L < 9223372036854775808) (hn : (ts.length : Int) ≤ L)
    (hwin : ∀ t ∈ ts, outdated (NewLimiter w L) now ≤ t ∧ t ≤ now) :
    (∀ e ∈ (takes (NewLimiter w L) ts).1, e = none)
    ∧ (takes (NewLimiter w L) ts).1.length = ts.length
    ∧ (Taken now (takes (NewLimiter w L) ts).2).1 = ts.length
    ∧ (Remains now (takes (NewLimiter w L) ts).2).1 = L - ts.length
    ∧ wrap64 ((Taken now l).1 + (Remains now l).1) = wrap64 l.limit
    ∧ (0 ≤ l.limit → l.limit < 9223372036854775808 →
        (l.tokens.length : Int) < 9223372036854775808 →
        (Taken now l).1 + (Remains now l).1 = l.limit) := by
  have hlim : (NewLimiter w L).limit = L := by
    have hneg : ¬ L < 0 := by omega
    simp [NewLimiter, SetLimit, hneg]
  have htok : (NewLimiter w L).tokens = [] := rfl
  have h := takes_within_window now ts (NewLimiter w L) (by rw [hlim]; exact hL.1)
    (by rw [hlim]; exact hL.2) (by rw [hlim, htok]; simpa using hn)
    (by rw [htok]; intro t ht; cases ht) hwin
  have hgc : (gc now (takes (NewLimiter w L) ts).2).2 = (takes (NewLimiter w L) ts).2 := by
    apply gc_of_none_outdated
    rw [h.2.2]
    intro t ht
    simp only [htok, List.nil_append] at ht
    exact (hwin t ht).1
  refine ⟨h.1, h.2.1, ?_, ?_, taken_add_remains now l, ?_⟩
  · show size (gc now (takes (NewLimiter w L) ts).2).2 = ts.length
    rw [hgc, h.2.2]
    simp [size, htok]
  · show remains (gc now (takes (NewLimiter w L) ts).2).2 = L - ts.length
    rw [hgc, h.2.2]
    show wrap64 ((NewLimiter w L).limit - (((NewLimiter w L).tokens ++ ts).length : Int))
      = L - ts.length
    rw [hlim, htok, List.nil_append]
    unfold wrap64
    omega
  · intro h0 h1 h2
    have hle : ((gc now l).2.tokens.length : Int) ≤ l.tokens.length := by
      rw [gc_tokens]
      exact_mod_cast (List.dropWhile_sublist _).length_le
    simp only [Taken, Remains, remains, size, gc_limit]
    unfold wrap64
    omega

/-- C18 at a concrete input: three `Take` calls at 0, 1 and 2 ns on a limiter of 10
tokens per second, looked at after 5 ns. -/
theorem C18_token_accounting_witness :
    ((0 : Int) ≤ 10 ∧ (10 : Int) < 9223372036854775808)
    ∧ (([0, 1, 2] : List Int).length : Int) ≤ 10
    ∧ (∀ e ∈ (takes (NewLimiter 1000000000 10) [0, 1, 2]).1, e = none)
    ∧ (Taken 5 (takes (NewLimiter 1000000000 10) [0, 1, 2]).2).1 = ([0, 1, 2] : List Int).length
    ∧ (Remains 5 (takes (NewLimiter 1000000000 10) [0, 1, 2]).2).1
        = 10 - ([0, 1, 2] : List Int).length :=
  have h := C18_token_accounting 1000000000 10 5 [0, 1, 2] (NewLimiter 1000000000 10)
    (by decide) (by decide) (by decide)
  ⟨by decide, by decide, h.1, h.2.2.1, h.2.2.2.1⟩

/-! ## Exhaustion -/

/-- C19: when the tokens taken within the current window number exactly `limit`, `Take`
returns `ErrNoMoreTokens` and pushes nothing: the state after it is the state `gc` leaves
(the state itself when no token is outdated), so `Taken()` and `Remains()` give the same
before and after.  `ErrNoMoreTokens` is the only error `Take` ever returns. -/
theorem C19_exhausted_take_returns_ErrNoMoreTokens (l : limiter) (now : Int)
    (hfull : size (gc now l).2 = l.limit) :
    Take now l = (some ErrNoMoreTokens, (gc now l).2)
    ∧ Taken now (Take now l).2 = Taken now l
    ∧ Remains now (Take now l).2 = Remains now l
    ∧ ((∀ t ∈ l.tokens, outdated l now ≤ t) → (Take now l).2 = l)
    ∧ (∀ (l1 : limiter) (now1 : Int),
        (Take now1 l1).1 = none ∨ (Take now1 l1).1 = some ErrNoMoreTokens) := by
  have hrem : remains (gc now l).2 = 0 := by
    unfold remains
    rw [hfull, gc_limit]
    unfold wrap64
    omega
  have hTake : Take now l = (some ErrNoMoreTokens, (gc now l).2) := by
    simp only [Take, hrem, if_true]
  refine ⟨hTake, ?_, ?_, ?_, ?_⟩
  · simp only [hTake, Taken, gc_idem]
  · simp only [hTake, Remains, gc_idem]
  · intro h
    rw [hTake]
    exact gc_of_none_outdated now l h
  · intro l1 now1
    unfold Take
    dsimp only
    split
    · exact Or.inr rfl
    · exact Or.inl rfl

/-- C19 at a concrete input: a limiter of 3 tokens per second after `Take` at 0, 1 and
2 ns, asked again at 3 ns. -/
theorem C19_exhausted_take_returns_ErrNoMoreTokens_witness :
    size (gc 3 (takes (NewLimiter 1000000000 3) [0, 1, 2]).2).2
        = (takes (NewLimiter 1000000000 3) [0, 1, 2]).2.limit
    ∧ Take 3 (takes (NewLimiter 1000000000 3) [0, 1, 2]).2
        = (some ErrNoMoreTokens, (gc 3 (takes (NewLimiter 1000000000 3) [0, 1, 2]).2).2)
    ∧ (Take 3 (takes (NewLimiter 1000000000 3) [0, 1, 2]).2).2.tokens = [0, 1, 2] :=
  have h := C19_exhausted_take_returns_ErrNoMoreTokens
    (takes (NewLimiter 1000000000 3) [0, 1, 2]).2 3 (by decide)
  ⟨by decide, h.1, by decide⟩

/-! ## Histories of calls -/

theorem Take_cases (now : Int) (l : limiter) :
    (Take now l = (some ErrNoMoreTokens, (gc now l).2) ∧ remains (gc now l).2 = 0)
    ∨ (Take now l = (none, push now (gc now l).2) ∧ remains (gc now l).2 ≠ 0) := by
  unfold Take
  dsimp only
  split
  · rename_i h
    exact Or.inl ⟨rfl, h⟩
  · rename_i h
    exact Or.inr ⟨rfl, h⟩

/-- C28, refuted on the code: `Take` refuses only when `remains()` is exactly 0.  In
every state in which more tokens lie inside the window than the limit allows (as after
`SetLimit` has lowered the limit), `remains()` is negative and `Take` succeeds, adding
one more token.  The number of tokens is the length of a slice, below 2^63. -/
theorem C28_Take_succeeds_above_a_lowered_limit (l : limiter) (now : Int)
    (hlim : 0 ≤ l.limit) (hover : l.limit < size (gc now l).2)
    (hfit : size (gc now l).2 < 9223372036854775808) :
    remains (gc now l).2 < 0
    ∧ (Take now l).1 = none
    ∧ size (Take now l).2 = size (gc now l).2 + 1
    ∧ (Take now l).2.limit = l.limit := by
  have hrem : remains (gc now l).2 = l.limit - size (gc now l).2 := by
    show wrap64 ((gc now l).2.limit - size (gc now l).2) = _
    rw [gc_limit]
    unfold wrap64
    omega
  have hneg : remains (gc now l).2 < 0 := by
    rw [hrem]
    omega
  rcases Take_cases now l with ⟨_, h0⟩ | ⟨h, _⟩
  · rw [h0] at hneg
    exact absurd hneg (by decide)
  · rw [h]
    refine ⟨hneg, rfl, ?_, gc_limit now l⟩
    show (((gc now l).2.tokens ++ [now]).length : Int) = ((gc now l).2.tokens.length : Int) + 1
    simp

/-- C28 at a concrete input: on a limiter of 10 tokens per second, three tokens are taken
at 0, 1 and 2 ns and `SetLimit` then lowers the limit to 2; at 4 ns all three tokens are
still inside the window, `remains()` is -1, and `Take` succeeds, leaving 4 tokens taken
against a limit of 2. -/
theorem C28_Take_succeeds_above_a_lowered_limit_witness :
    (run (NewLimiter 1000000000 10) none exLowered).1.limit = 2
    ∧ (Taken 4 (run (NewLimiter 1000000000 10) none exLowered).1).1 = 3
    ∧ (Remains 4 (run (NewLimiter 1000000000 10) none exLowered).1).1 = -1
    ∧ (Take 4 (run (NewLimiter 1000000000 10) none exLowered).1).1 = none
    ∧ (Taken 4 (Take 4 (run (NewLimiter 1000000000 10) none exLowered).1).2).1 = 4 :=
  ⟨by decide, by decide, by decide,
    (C28_Take_succeeds_above_a_lowered_limit (run (NewLimiter 1000000000 10) none exLowered).1 4
      (by decide) (by decide) (by decide)).2.1,
    by decide⟩

end rate

namespace balancer

/-! ## Round robin -/

theorem rr_Next_of_le (items : List Item) (b : rrBalancer) (hn : items ≠ [])
    (hb : b.current ≤ items.length) :
    b.Next items = (items[b.current % items.length]?, { current := b.current % items.length + 1 }) := by
  have hlen : items.length ≠ 0 := fun h => hn (List.length_eq_zero.mp h)
  have hcur : (if b.current ≥ items.length then 0 else b.current) = b.current % items.length := by
    split
    · have heq : b.current = items.length := by omega
      rw [heq, Nat.mod_self]
    · rw [Nat.mod_eq_of_lt (by omega)]
  simp only [rrBalancer.Next, hlen, if_false, hcur]

theorem rr_calls (items : List Item) (hn : items ≠ []) :
    ∀ (k j : Nat) (b : rrBalancer), b.current ≤ items.length →
      b.current % items.length = j % items.length →
      (rrBalancer.calls items k b).1
          = (List.range k).map (fun i => items[(j + i) % items.length]?)
        ∧ (rrBalancer.calls items k b).2.current ≤ items.length
        ∧ (rrBalancer.calls items k b).2.current % items.length = (j + k) % items.length := by
  have hpos : 0 < items.length := List.length_pos.mpr hn
  intro k
  induction k with
  | zero =>
    intro j b hb hj
    exact ⟨rfl, hb, hj⟩
  | succ k ih =>
    intro j b hb hj
    have hN := rr_Next_of_le items b hn hb
    have hlt : b.current % items.length < items.length := Nat.mod_lt _ hpos
    have hnext : (b.current % items.length + 1) % items.length = (j + 1) % items.length := by
      rw [hj]
      exact Nat.mod_add_mod j items.length 1
    have h := ih (j + 1) (b.Next items).2 (by rw [hN]; exact hlt) (by rw [hN]; exact hnext)
    simp only [rrBalancer.calls]
    refine ⟨?_, h.2.1, ?_⟩
    · rw [h.1, hN, hj, List.range_succ_eq_map, List.map_cons, List.map_map]
      simp only [Nat.add_zero, List.cons.injEq, true_and]
      apply List.map_congr_left
      intro i _
      simp only [Function.comp, Nat.succ_eq_add_one]
      rw [show j + 1 + i = j + (i + 1) by omega]
    · rw [h.2.2]
      rw [show j + 1 + k = j + (k + 1) by omega]

/-- C21: round robin.  For a fresh `rrBalancer` and a fixed non-empty item list of
length `n`, the `k`-th call of `Next` returns `items[(k-1) mod n]`; any `n` consecutive
calls (after `j` earlier ones) return the items in list order starting at position
`j mod n`, each item exactly once.  `Next` on an empty list returns nil and leaves the
position as it is. -/
theorem C21_round_robin (items : List Item) (k j : Nat) (b : rrBalancer) (hn : items ≠ []) :
    (rrBalancer.calls items k NewRR).1 = (List.range k).map (fun i => items[i % items.length]?)
    ∧ (0 < k → (rrBalancer.calls items k NewRR).1[k - 1]? = some items[(k - 1) % items.length]?)
    ∧ (rrBalancer.calls items items.length (rrBalancer.calls items j NewRR).2).1
        = (items.rotate (j % items.length)).map some
    ∧ (items.rotate (j % items.length)).Perm items
    ∧ b.Next [] = (none, b) := by
  have hpos : 0 < items.length := List.length_pos.mpr hn
  have h0 := rr_calls items hn k 0 NewRR (Nat.zero_le _) rfl
  have hk : (rrBalancer.calls items k NewRR).1
      = (List.range k).map (fun i => items[i % items.length]?) := by
    rw [h0.1]
    simp
  refine ⟨hk, ?_, ?_, List.rotate_perm _ _, rfl⟩
  · intro hkpos
    rw [hk, List.getElem?_map, List.getElem?_range (by omega)]
    rfl
  · have hj := rr_calls items hn j 0 NewRR (Nat.zero_le _) rfl
    have hn2 := rr_calls items hn items.length j (rrBalancer.calls items j NewRR).2 hj.2.1
      (by rw [hj.2.2, Nat.zero_add])
    rw [hn2.1]
    apply List.ext_getElem?
    intro i
    by_cases hi : i < items.length
    · rw [List.getElem?_map, List.getElem?_range hi, List.getElem?_map,
        List.getElem?_rotate hi]
      simp only [Option.map_some']
      have hmod : (j + i) % items.length = (i + j % items.length) % items.length := by
        rw [Nat.add_comm j i]
        exact (Nat.add_mod_mod i j items.length).symm
      rw [hmod]
      have hlt : (i + j % items.length) % items.length < items.length := Nat.mod_lt _ hpos
      rw [List.getElem?_eq_getElem hlt]
      rfl
    · rw [List.getElem?_eq_none (by simpa using hi), List.getElem?_eq_none (by simpa using hi)]

/-- C21 at a concrete input: the five nodes of the example program, seven calls. -/
theorem C21_round_robin_witness :
    exNodes ≠ []
    ∧ (rrBalancer.calls exNodes 7 NewRR).1
        = (List.range 7).map (fun i => exNodes[i % exNodes.length]?)
    ∧ (rrBalancer.calls exNodes 7 NewRR).1[6]?
        = some (some { name := "node2", weight := 2 }) :=
  have h := C21_round_robin exNodes 7 3 NewRR (by decide)
  ⟨by decide, h.1, by decide⟩

/-! ## Weighted selection -/

theorem totalWeight_cons (item : Item) (rest : List Item) :
    totalWeight (item :: rest) = item.weight + totalWeight rest := by
  simp [totalWeight, Item.WeightN]

theorem totalWeight_nonneg (items : List Item) (h : ∀ it ∈ items, 0 ≤ it.weight) :
    0 ≤ totalWeight items := by
  induction items with
  | nil => simp [totalWeight]
  | cons item rest ih =>
    rw [totalWeight_cons]
    have h1 := h item (List.mem_cons_self _ _)
    have h2 := ih (fun it hit => h it (List.mem_cons_of_mem _ hit))
    omega

theorem cumWeight_zero (items : List Item) : cumWeight items 0 = 0 := by
  simp [cumWeight, totalWeight]

theorem cumWeight_cons_succ (item : Item) (rest : List Item) (i : Nat) :
    cumWeight (item :: rest) (i + 1) = item.weight + cumWeight rest i := by
  simp [cumWeight, totalWeight_cons]

theorem cumWeight_succ (items : List Item) (i : Nat) (it : Item) (h : items[i]? = some it) :
    cumWeight items (i + 1) = cumWeight items i + it.weight := by
  induction items generalizing i with
  | nil => simp at h
  | cons item rest ih =>
    cases i with
    | zero =>
      simp only [List.getElem?_cons_zero, Option.some.injEq] at h
      rw [cumWeight_cons_succ, cumWeight_zero, cumWeight_zero, h]
      omega
    | succ i =>
      simp only [List.getElem?_cons_succ] at h
      rw [cumWeight_cons_succ, cumWeight_cons_succ, ih i h]
      omega

theorem cumWeight_le_total (items : List Item) (h : ∀ it ∈ items, 0 ≤ it.weight) (i : Nat) :
    0 ≤ cumWeight items i ∧ cumWeight items i ≤ totalWeight items := by
  induction items generalizing i with
  | nil => simp [cumWeight, totalWeight]
  | cons item rest ih =>
    have h1 := h item (List.mem_cons_self _ _)
    have hrest := fun it hit => h it (List.mem_cons_of_mem _ hit)
    cases i with
    | zero =>
      rw [cumWeight_zero]
      exact ⟨le_refl _, totalWeight_nonneg _ h⟩
    | succ i =>
      rw [cumWeight_cons_succ, totalWeight_cons]
      have := ih hrest i
      omega

theorem weightSum_nonneg :
    ∀ (items : List Item) (w0 : Int), (∀ it ∈ items, 0 ≤ it.weight) → 0 ≤ w0 →
      w0 + totalWeight items < 9223372036854775808 →
      weightSum items w0 = w0 + totalWeight items := by
  intro items
  induction items with
  | nil => intro w0 _ _ _; simp [weightSum, totalWeight]
  | cons item rest ih =>
    intro w0 h h0 hfit
    have h1 := h item (List.mem_cons_self _ _)
    have hrest := fun it hit => h it (List.mem_cons_of_mem _ hit)
    have h2 := totalWeight_nonneg rest hrest
    rw [totalWeight_cons] at hfit ⊢
    have hneg : ¬ item.weight < 0 := by omega
    have hw : wrapGo (w0 + item.weight) = w0 + item.weight := by
      unfold wrapGo
      omega
    simp only [weightSum, Item.WeightN, hneg, if_false, hw]
    rw [ih (w0 + item.weight) hrest (by omega) (by omega)]
    omega

theorem pickLoop_interval :
    ∀ (items : List Item) (n0 r : Int) (i : Nat) (it : Item),
      (∀ x ∈ items, 0 ≤ x.weight) → 0 ≤ n0 →
      n0 + totalWeight items < 9223372036854775808 →
      items[i]? = some it →
      n0 + cumWeight items i ≤ r → r < n0 + cumWeight items (i + 1) →
      pickLoop r items n0 = some it := by
  intro items
  induction items with
  | nil => intro n0 r i it _ _ _ h; simp at h
  | cons item rest ih =>
    intro n0 r i it h h0 hfit hget hlo hhi
    have h1 := h item (List.mem_cons_self _ _)
    have hrest := fun x hx => h x (List.mem_cons_of_mem _ hx)
    have h2 := totalWeight_nonneg rest hrest
    rw [totalWeight_cons] at hfit
    have hw : wrapGo (n0 + item.weight) = n0 + item.weight := by
      unfold wrapGo
      omega
    cases i with
    | zero =>
      simp only [List.getElem?_cons_zero, Option.some.injEq] at hget
      rw [cumWeight_cons_succ, cumWeight_zero] at hhi
      have hgt : n0 + item.weight > r := by omega
      subst hget
      simp only [pickLoop, Item.WeightN, hw, if_pos hgt]
    | succ i =>
      simp only [List.getElem?_cons_succ] at hget
      rw [cumWeight_cons_succ] at hlo hhi
      have hc := cumWeight_le_total rest hrest i
      have hgt : ¬ n0 + item.weight > r := by omega
      simp only [pickLoop, Item.WeightN, hw, hgt, if_false]
      exact ih (n0 + item.weight) r i it hrest (by omega) (by omega) hget (by omega) (by omega)

theorem interval_exists :
    ∀ (items : List Item) (r : Int), (∀ x ∈ items, 0 ≤ x.weight) →
      0 ≤ r → r < totalWeight items →
      ∃ i it, items[i]? = some it ∧ cumWeight items i ≤ r ∧ r < cumWeight items (i + 1)
        ∧ ∀ j, j < i → cumWeight items (j + 1) ≤ r := by
  intro items
  induction items with
  | nil =>
    intro r _ h0 hlt
    simp only [totalWeight, List.map_nil, List.sum_nil] at hlt
    omega
  | cons item rest ih =>
    intro r h h0 hlt
    have hrest := fun x hx => h x (List.mem_cons_of_mem _ hx)
    rw [totalWeight_cons] at hlt
    by_cases hr : r < item.weight
    · refine ⟨0, item, by simp, ?_, ?_, ?_⟩
      · rw [cumWeight_zero]; exact h0
      · rw [cumWeight_cons_succ, cumWeight_zero]; omega
      · intro j hj; omega
    · obtain ⟨i, it, hget, hlo, hhi, hfirst⟩ := ih (r - item.weight) hrest (by omega) (by omega)
      refine ⟨i + 1, it, by simpa using hget, ?_, ?_, ?_⟩
      · rw [cumWeight_cons_succ]; omega
      · rw [cumWeight_cons_succ]; omega
      · intro j hj
        cases j with
        | zero => rw [cumWeight_cons_succ, cumWeight_zero]; omega
        | succ j =>
          rw [cumWeight_cons_succ]
          have := hfirst j (by omega)
          omega

theorem card_draws_in_interval (a b n : Int) (ha : 0 ≤ a) (hab : a ≤ b) (hbn : b ≤ n) :
    ((Finset.range n.toNat).filter (fun r : Nat => a ≤ (r : Int) ∧ (r : Int) < b)).card
      = (b - a).toNat := by
  have hset : (Finset.range n.toNat).filter (fun r : Nat => a ≤ (r : Int) ∧ (r : Int) < b)
      = Finset.Ico a.toNat b.toNat := by
    ext r
    simp only [Finset.mem_filter, Finset.mem_range, Finset.mem_Ico]
    omega
  rw [hset, Nat.card_Ico]
  omega

theorem weightNext_interval (items : List Item) (hpos : ∀ it ∈ items, 0 ≤ it.weight)
    (hfit : totalWeight items < 9223372036854775808) (i : Nat) (it : Item) (r : Int)
    (hget : items[i]? = some it) (hlo : cumWeight items i ≤ r)
    (hhi : r < cumWeight items (i + 1)) :
    weightNext items r = Picked.item it := by
  have hsum : weightSum items 0 = totalWeight items := by
    rw [weightSum_nonneg items 0 hpos (le_refl _) (by omega)]
    omega
  have hc0 := cumWeight_le_total items hpos i
  have hc1 := cumWeight_le_total items hpos (i + 1)
  have hlen : ¬ items.length = 0 := by
    intro h0
    rw [List.length_eq_zero] at h0
    subst h0
    simp at hget
  have hpick := pickLoop_interval items 0 r i it hpos (le_refl _) (by omega) hget
    (by omega) (by omega)
  have hne : ¬ totalWeight items = 0 := by omega
  have hnn : ¬ totalWeight items < 0 := by omega
  simp only [weightNext, if_neg hlen, hsum, if_neg hne, if_neg hnn, hpick]

theorem absWeights_cons (item : Item) (rest : List Item) :
    absWeights (item :: rest)
      = { name := item.name, weight := (item.weight.natAbs : Int) } :: absWeights rest := rfl

theorem absWeights_nonneg (items : List Item) : ∀ it ∈ absWeights items, 0 ≤ it.weight := by
  intro it hit
  obtain ⟨x, _, hx⟩ := List.mem_map.mp hit
  rw [← hx]
  exact Int.ofNat_nonneg _

theorem weightSum_abs :
    ∀ (items : List Item) (w0 : Int), 0 ≤ w0 →
      w0 + totalWeight (absWeights items) < 9223372036854775808 →
      weightSum items w0 = w0 + totalWeight (absWeights items) := by
  intro items
  induction items with
  | nil => intro w0 _ _; simp [weightSum, absWeights, totalWeight]
  | cons item rest ih =>
    intro w0 h0 hfit
    have h2 := totalWeight_nonneg (absWeights rest) (absWeights_nonneg rest)
    rw [absWeights_cons, totalWeight_cons] at hfit ⊢
    have habs : ((item.weight.natAbs : Int)) = |item.weight| := Int.natCast_natAbs _
    simp only [habs] at hfit ⊢
    by_cases hneg : item.weight < 0
    · have ha : |item.weight| = -item.weight := abs_of_neg hneg
      rw [ha] at hfit ⊢
      have hw1 : wrapGo (-item.weight) = -item.weight := by
        unfold wrapGo
        omega
      have hw2 : wrapGo (w0 + -item.weight) = w0 + -item.weight := by
        unfold wrapGo
        omega
      simp only [weightSum, Item.WeightN, if_pos hneg, hw1, hw2]
      rw [ih (w0 + -item.weight) (by omega) (by omega)]
      omega
    · have ha : |item.weight| = item.weight := abs_of_nonneg (by omega)
      rw [ha] at hfit ⊢
      have hw2 : wrapGo (w0 + item.weight) = w0 + item.weight := by
        unfold wrapGo
        omega
      simp only [weightSum, Item.WeightN, if_neg hneg, hw2]
      rw [ih (w0 + item.weight) (by omega) (by omega)]
      omega

theorem totalWeight_abs_of_neg (items : List Item) (hneg : ∀ it ∈ items, it.weight < 0) :
    totalWeight (absWeights items) = -totalWeight items := by
  induction items with
  | nil => simp [absWeights, totalWeight]
  | cons item rest ih =>
    have h1 := hneg item (List.mem_cons_self _ _)
    rw [absWeights_cons, totalWeight_cons, totalWeight_cons,
      ih (fun it hit => hneg it (List.mem_cons_of_mem _ hit))]
    have habs : ((item.weight.natAbs : Int)) = |item.weight| := Int.natCast_natAbs _
    simp only [habs, abs_of_neg h1]
    omega

theorem pickLoop_of_neg (r : Int) (hr : 0 ≤ r) :
    ∀ (items : List Item) (n : Int), n ≤ 0 → (∀ it ∈ items, it.weight < 0) →
      -9223372036854775808 ≤ n + totalWeight items →
      pickLoop r items n = none := by
  intro items
  induction items with
  | nil => intro n _ _ _; rfl
  | cons item rest ih =>
    intro n hn hneg hfit
    have h1 := hneg item (List.mem_cons_self _ _)
    have hrest := fun it hit => hneg it (List.mem_cons_of_mem _ hit)
    have h2 : totalWeight rest ≤ 0 := by
      have := totalWeight_abs_of_neg rest hrest
      have := totalWeight_nonneg (absWeights rest) (absWeights_nonneg rest)
      omega
    rw [totalWeight_cons] at hfit
    have hw : wrapGo (n + item.weight) = n + item.weight := by
      unfold wrapGo
      omega
    have hgt : ¬ n + item.weight > r := by omega
    simp only [pickLoop, Item.WeightN, hw, if_neg hgt]
    exact ih (n + item.weight) (by omega) hrest (by omega)

/-- C22, refuted on the code: the weight sum counts a negative weight as positive, but
the selection loop adds the weights as they are.  For every non-empty list whose weights
are all negative, `wsum` is the positive sum of the absolute values and yet `Next`
returns nil for every draw, where it returns an item when each weight is replaced by its
absolute value. -/
theorem C22_selection_loop_uses_signed_weights (items : List Item) (r : Int)
    (hne : items ≠ []) (hneg : ∀ it ∈ items, it.weight < 0)
    (hfit : totalWeight (absWeights items) < 9223372036854775808)
    (hr0 : 0 ≤ r) (hr : r < totalWeight (absWeights items)) :
    weightSum items 0 = totalWeight (absWeights items)
    ∧ 0 < weightSum items 0
    ∧ weightNext items r = Picked.nil
    ∧ ∃ it, weightNext (absWeights items) r = Picked.item it := by
  have hsum : weightSum items 0 = totalWeight (absWeights items) := by
    rw [weightSum_abs items 0 (le_refl _) (by omega)]
    omega
  have hpos : 0 < totalWeight (absWeights items) := by omega
  have htot := totalWeight_abs_of_neg items hneg
  have hpick := pickLoop_of_neg r hr0 items 0 (le_refl _) hneg (by omega)
  have hlen : ¬ items.length = 0 := fun h0 => hne (List.length_eq_zero.mp h0)
  refine ⟨hsum, by omega, ?_, ?_⟩
  · have h1 : ¬ totalWeight (absWeights items) = 0 := by omega
    have h2 : ¬ totalWeight (absWeights items) < 0 := by omega
    simp only [weightNext, if_neg hlen, hsum, if_neg h1, if_neg h2, hpick]
  · obtain ⟨i, it, hget, hlo, hhi, _⟩ :=
      interval_exists (absWeights items) r (absWeights_nonneg items) hr0 hr
    exact ⟨it, weightNext_interval (absWeights items) (absWeights_nonneg items) hfit i it r
      hget hlo hhi⟩

/-- C22 at concrete inputs: a single item of weight -1 gives `wsum = 1`, and for the only
possible draw 0 `Next` returns nil, where the item is returned if its weight is 1.  With
weights -2 and 3 the draw 0 returns the second item, where the first is returned with
weights 2 and 3. -/
theorem C22_selection_loop_uses_signed_weights_witness :
    weightSum [{ name := "node1", weight := -1 }] 0 = 1
    ∧ weightNext [{ name := "node1", weight := -1 }] 0 = Picked.nil
    ∧ weightNext (absWeights [{ name := "node1", weight := -1 }]) 0
        = Picked.item { name := "node1", weight := 1 }
    ∧ weightNext [{ name := "node1", weight := -2 }, { name := "node2", weight := 3 }] 0
        = Picked.item { name := "node2", weight := 3 }
    ∧ weightNext (absWeights [{ name := "node1", weight := -2 }, { name := "node2", weight := 3 }]) 0
        = Picked.item { name := "node1", weight := 2 } :=
  ⟨by decide,
    (C22_selection_loop_uses_signed_weights [{ name := "node1", weight := -1 }] 0
      (by decide) (by decide) (by decide) (by decide) (by decide)).2.2.1,
    by decide, by decide, by decide⟩

/-- C23, refuted as stated: the weights of `exWrapZero` are non-negative `int` values
of total 2^64, but the sum `wsum` of the code wraps to 0 and `Next` returns nil for the
draw 0, where the first item has the first cumulative weight above 0.  The weights of
`exOverflow` have total 2^63; `wsum` wraps to -2^63 and `rand.Intn(wsum)` panics. -/
theorem C23_counterexample :
    (∀ it ∈ exWrapZero, 0 ≤ it.weight ∧ it.weight < 9223372036854775808)
    ∧ totalWeight exWrapZero = 18446744073709551616
    ∧ cumWeight exWrapZero 0 ≤ 0 ∧ 0 < cumWeight exWrapZero 1
    ∧ weightSum exWrapZero 0 = 0
    ∧ weightNext exWrapZero 0 = Picked.nil
    ∧ (∀ it ∈ exOverflow, 0 ≤ it.weight ∧ it.weight < 9223372036854775808)
    ∧ totalWeight exOverflow = 9223372036854775808
    ∧ weightSum exOverflow 0 = -9223372036854775808
    ∧ weightNext exOverflow 0 = Picked.goPanic "invalid argument to Intn" := by
  refine ⟨by decide, by decide, by decide, by decide, by decide, by decide, by decide,
    by decide, by decide, by decide⟩

/-- C23, amended: for items with non-negative weights whose total `W` is below 2^63, so
that the `int` sum of the code does not overflow, `Next` returns nil for every draw when
`W = 0`; otherwise a draw `r` in `[0, W)` returns the first item whose cumulative weight
exceeds `r`, that is the item `i` with `cumWeight i ≤ r < cumWeight (i + 1)`; the draws
returning item `i` are exactly `weight i` of the `W` draws; and an item of weight 0 is
never returned. -/
theorem C23_weighted_selection (items : List Item)
    (hpos : ∀ it ∈ items, 0 ≤ it.weight)
    (hfit : totalWeight items < 9223372036854775808) :
    (totalWeight items = 0 → ∀ r, weightNext items r = Picked.nil)
    ∧ (∀ r, 0 ≤ r → r < totalWeight items →
        ∃ i it, items[i]? = some it ∧ weightNext items r = Picked.item it
          ∧ cumWeight items i ≤ r ∧ r < cumWeight items (i + 1)
          ∧ ∀ j, j < i → cumWeight items (j + 1) ≤ r)
    ∧ (∀ i it r, items[i]? = some it → cumWeight items i ≤ r →
        r < cumWeight items (i + 1) → weightNext items r = Picked.item it)
    ∧ (∀ i it, items[i]? = some it →
        ((Finset.range (totalWeight items).toNat).filter
          (fun r : Nat => cumWeight items i ≤ (r : Int)
            ∧ (r : Int) < cumWeight items (i + 1))).card = it.weight.toNat)
    ∧ (∀ r it, 0 ≤ r → r < totalWeight items → weightNext items r = Picked.item it →
        0 < it.weight) := by
  have hsum : weightSum items 0 = totalWeight items := by
    rw [weightSum_nonneg items 0 hpos (le_refl _) (by omega)]
    omega
  refine ⟨?_, ?_, ?_, ?_, ?_⟩
  · intro hW r
    unfold weightNext
    split
    · rfl
    · simp only [hsum, hW, if_true]
  · intro r h0 hlt
    obtain ⟨i, it, hget, hlo, hhi, hfirst⟩ := interval_exists items r hpos h0 hlt
    exact ⟨i, it, hget, weightNext_interval items hpos hfit i it r hget hlo hhi, hlo, hhi,
      hfirst⟩
  · intro i it r hget hlo hhi
    exact weightNext_interval items hpos hfit i it r hget hlo hhi
  · intro i it hget
    have hc0 := cumWeight_le_total items hpos i
    have hc1 := cumWeight_le_total items hpos (i + 1)
    have hs := cumWeight_succ items i it hget
    have hw := hpos it (List.getElem?_mem hget)
    rw [card_draws_in_interval _ _ _ hc0.1 (by omega) hc1.2, hs]
    congr 1
    omega
  · intro r it h0 hlt hnext
    obtain ⟨i, it1, hget, hlo, hhi, _⟩ := interval_exists items r hpos h0 hlt
    have h1 := weightNext_interval items hpos hfit i it1 r hget hlo hhi
    rw [h1] at hnext
    have hs := cumWeight_succ items i it1 hget
    have heq : it1 = it := by
      injection hnext
    subst heq
    omega

/-- C23 at the five example nodes of weights 1 to 5 (`W = 15`): the draw 3 returns
`node3`, whose interval is `[3, 6)`, and three of the fifteen draws fall into it. -/
theorem C23_weighted_selection_witness :
    (∀ it ∈ exNodes, 0 ≤ it.weight)
    ∧ totalWeight exNodes = 15
    ∧ weightNext exNodes 3 = Picked.item { name := "node3", weight := 3 }
    ∧ ((Finset.range (totalWeight exNodes).toNat).filter
          (fun r : Nat => cumWeight exNodes 2 ≤ (r : Int)
            ∧ (r : Int) < cumWeight exNodes (2 + 1))).card = 3 :=
  ⟨by decide, by decide,
    (C23_weighted_selection exNodes (by decide) (by decide)).2.2.1 2
      { name := "node3", weight := 3 } 3 (by decide) (by decide) (by decide),
    (C23_weighted_selection exNodes (by decide) (by decide)).2.2.2.1 2
      { name := "node3", weight := 3 } (by decide)⟩

end balancer

/-! ## ordermap: the key slice and the map agree -/

namespace ordermap

theorem lessChars_iff (a b : List Char) :
    lessChars a b = true ↔ List.Lex (fun x y : Char => x < y) a b := by
  induction a generalizing b with
  | nil =>
    cases b with
    | nil => simp [lessChars]
    | cons y ys => simp [lessChars, List.Lex.nil]
  | cons x xs ih =>
    cases b with
    | nil => simp [lessChars]
    | cons y ys =>
      simp only [lessChars]
      by_cases hlt : x < y
      · simp only [if_pos hlt, true_iff]
        exact List.Lex.rel hlt
      · by_cases heq : x = y
        · subst heq
          simp only [if_neg hlt, if_true, ih ys]
          constructor
          · intro h; exact List.Lex.cons h
          · intro h
            cases h with
            | cons h1 => exact h1
            | rel h1 => exact absurd h1 hlt
        · simp only [if_neg hlt, if_neg heq, Bool.false_eq_true, false_iff]
          intro h
          cases h with
          | cons h1 => exact heq rfl
          | rel h1 => exact hlt h1

theorem Less_asymm (a b : String) (h : Less a b = true) : Less b a = false := by
  cases hba : Less b a with
  | false => rfl
  | true =>
    exact absurd ((lessChars_iff _ _).1 hba)
      (IsAsymm.asymm (r := List.Lex (fun x y : Char => x < y)) _ _ ((lessChars_iff _ _).1 h))

theorem Less_trichotomy (a b : String) (hne : a ≠ b) (h : Less a b = false) :
    Less b a = true := by
  rcases trichotomous_of (List.Lex (fun x y : Char => x < y)) a.toList b.toList with h1 | h1 | h1
  · rw [Less, (lessChars_iff _ _).2 h1] at h
    cases h
  · exact absurd (String.ext h1) hne
  · exact (lessChars_iff _ _).2 h1

theorem Less_trans (a b c : String) (hab : Less a b = true) (hbc : Less b c = true) :
    Less a c = true :=
  (lessChars_iff _ _).2
    (IsTrans.trans (r := List.Lex (fun x y : Char => x < y)) _ _ _
      ((lessChars_iff _ _).1 hab) ((lessChars_iff _ _).1 hbc))

theorem notAfter_total (a b : String) : Less b a = false ∨ Less a b = false := by
  cases hba : Less b a with
  | false => exact Or.inl rfl
  | true => exact Or.inr (Less_asymm b a hba)

theorem notAfter_trans (a b c : String) (hab : Less b a = false) (hbc : Less c b = false) :
    Less c a = false := by
  cases hca : Less c a with
  | false => rfl
  | true =>
    by_cases hbe : a = b
    · subst hbe
      rw [hca] at hbc
      cases hbc
    · have h1 := Less_trichotomy b a (fun h => hbe h.symm) hab
      have h2 := Less_trans c a b hca h1
      rw [h2] at hbc
      cases hbc

theorem sortKeys_perm (keys : List String) : (sortKeys keys).Perm keys :=
  List.perm_insertionSort _ keys

theorem sortKeys_sorted (keys : List String) (hnd : keys.Nodup) :
    List.Sorted (fun a b => Less a b = true) (sortKeys keys) := by
  have hs : List.Sorted (fun a b => Less b a = false) (sortKeys keys) :=
    @List.sorted_insertionSort String (fun a b => Less b a = false) _
      ⟨fun a b => notAfter_total a b⟩ ⟨fun a b c h1 h2 => notAfter_trans a b c h1 h2⟩ keys
  have hnd1 : (sortKeys keys).Nodup := (sortKeys_perm keys).nodup_iff.2 hnd
  unfold List.Sorted at hs ⊢
  have hboth := hs.and hnd1
  exact hboth.imp (fun hp => Less_trichotomy _ _ (fun h => hp.2 h.symm) hp.1)

theorem shiftDown_length (arr : List String) (len idx : Nat) :
    (shiftDown arr len idx).length = arr.length := by
  simp [shiftDown]

theorem shiftDown_getElem? (arr : List String) (len idx j : Nat) (hj : j < arr.length) :
    (shiftDown arr len idx)[j]? = some (if j < idx then arr.getD j ""
      else if j + 1 < len then arr.getD (j + 1) "" else arr.getD j "") := by
  simp [shiftDown, List.getElem?_map, List.getElem?_range hj]

theorem delLoop_no_hit (key : String) :
    ∀ (remaining idx : Nat) (arr : List String) (len : Nat),
      (∀ j, idx ≤ j → j < idx + remaining → ∃ v, arr[j]? = some v ∧ v ≠ key) →
      delLoop key remaining idx arr len = some (arr, len) := by
  intro remaining
  induction remaining with
  | zero => intro idx arr len _; rfl
  | succ remaining ih =>
    intro idx arr len h
    obtain ⟨v, hv, hne⟩ := h idx (le_refl _) (by omega)
    simp only [delLoop, hv, if_neg hne]
    exact ih (idx + 1) arr len (fun j h1 h2 => h j (by omega) (by omega))

theorem delLoop_nodup (key : String) (keys : List String) (hnd : keys.Nodup) :
    ∀ (remaining idx : Nat), idx + remaining = keys.length →
      (∀ j, j < idx → keys[j]? ≠ some key) →
      ∃ arr len, delLoop key remaining idx keys keys.length = some (arr, len)
        ∧ arr.take len = keys.erase key := by
  intro remaining
  induction remaining with
  | zero =>
    intro idx hlen hbefore
    refine ⟨keys, keys.length, rfl, ?_⟩
    have hnot : key ∉ keys := by
      intro hmem
      obtain ⟨j, hj, hget⟩ := List.getElem_of_mem hmem
      exact hbefore j (by omega) (by rw [List.getElem?_eq_getElem hj, hget])
    rw [List.take_length, List.erase_of_not_mem hnot]
  | succ remaining ih =>
    intro idx hlen hbefore
    have hidx : idx < keys.length := by omega
    have hget : keys[idx]? = some keys[idx] := List.getElem?_eq_getElem hidx
    by_cases hval : keys[idx] = key
    · have hle : ¬ idx + 1 > keys.length := by omega
      simp only [delLoop, hget, if_pos hval, if_neg hle]
      have hrest : delLoop key remaining (idx + 1) (shiftDown keys keys.length idx)
          (keys.length - 1) = some (shiftDown keys keys.length idx, keys.length - 1) := by
        apply delLoop_no_hit
        intro j h1 h2
        have hj : j < keys.length := by omega
        rw [shiftDown_getElem? keys keys.length idx j hj]
        have hnlt : ¬ j < idx := by omega
        simp only [if_neg hnlt]
        by_cases hj1 : j + 1 < keys.length
        · refine ⟨_, by rw [if_pos hj1], ?_⟩
          rw [List.getD_eq_getElem?_getD, List.getElem?_eq_getElem hj1, Option.getD_some]
          intro heq
          have := (@List.Nodup.getElem_inj_iff _ _ hnd _ hj1 _ hidx).1 (heq.trans hval.symm)
          omega
        · refine ⟨_, by rw [if_neg hj1], ?_⟩
          rw [List.getD_eq_getElem?_getD, List.getElem?_eq_getElem hj, Option.getD_some]
          intro heq
          have := (@List.Nodup.getElem_inj_iff _ _ hnd _ hj _ hidx).1 (heq.trans hval.symm)
          omega
      refine ⟨_, _, hrest, ?_⟩
      rw [← hval, List.Nodup.erase_getElem hnd idx hidx]
      apply List.ext_getElem?
      intro j
      rw [List.getElem?_eraseIdx, List.getElem?_take]
      by_cases hj : j < keys.length - 1
      · have hj0 : j < keys.length := by omega
        have hj1 : j + 1 < keys.length := by omega
        rw [if_pos hj, shiftDown_getElem? keys keys.length idx j hj0]
        by_cases hji : j < idx
        · rw [if_pos hji, if_pos hji, List.getD_eq_getElem?_getD, List.getElem?_eq_getElem hj0,
            Option.getD_some]
        · rw [if_neg hji, if_neg hji, if_pos hj1, List.getD_eq_getElem?_getD,
            List.getElem?_eq_getElem hj1, Option.getD_some]
      · have hji : ¬ j < idx := by omega
        rw [if_neg hj, if_neg hji]
        exact (List.getElem?_eq_none (by omega)).symm
    · simp only [delLoop, hget, if_neg hval]
      apply ih (idx + 1) (by omega)
      intro j hj
      by_cases hji : j < idx
      · exact hbefore j hji
      · have : j = idx := by omega
        subst this
        rw [hget]
        intro h
        exact hval (Option.some.inj h)

theorem Inv_New {α : Type} : Inv (New : OrderMap α) := by
  refine ⟨List.nodup_nil, ?_, ?_⟩
  · intro k
    simp [New]
  · simp [New]

theorem Inv_Set {α : Type} (o : OrderMap α) (key : String) (value : Option α) (h : Inv o) :
    Inv (o.Set key value) := by
  obtain ⟨hnd, hmem, hempty⟩ := h
  cases value with
  | none => exact ⟨hnd, hmem, hempty⟩
  | some v =>
    simp only [OrderMap.Set]
    by_cases hk : key = ""
    · rw [if_pos hk]
      exact ⟨hnd, hmem, hempty⟩
    · rw [if_neg hk]
      by_cases hin : (o.m.lookup key).isSome
      · rw [if_pos hin]
        have hkm : key ∈ o.m := AList.lookup_isSome.1 hin
        refine ⟨hnd, ?_, ?_⟩
        · intro k
          show k ∈ o.keys ↔ k ∈ o.m.insert key v
          rw [AList.mem_insert, hmem]
          constructor
          · intro h1; exact Or.inr h1
          · intro h1
            rcases h1 with h1 | h1
            · rw [h1]; exact hkm
            · exact h1
        · show "" ∉ o.m.insert key v
          rw [AList.mem_insert]
          intro h1
          rcases h1 with h1 | h1
          · exact hk h1.symm
          · exact hempty h1
      · rw [if_neg hin]
        have hkm : key ∉ o.m := fun h1 => hin (AList.lookup_isSome.2 h1)
        have hkk : key ∉ o.keys := fun h1 => hkm ((hmem key).1 h1)
        refine ⟨?_, ?_, ?_⟩
        · show (o.keys ++ [key]).Nodup
          rw [List.nodup_append]
          refine ⟨hnd, List.nodup_singleton _, ?_⟩
          intro a ha hb
          rw [List.mem_singleton] at hb
          exact hkk (hb ▸ ha)
        · intro k
          show k ∈ o.keys ++ [key] ↔ k ∈ o.m.insert key v
          rw [AList.mem_insert, List.mem_append, List.mem_singleton, hmem]
          exact Or.comm
        · show "" ∉ o.m.insert key v
          rw [AList.mem_insert]
          intro h1
          rcases h1 with h1 | h1
          · exact hk h1.symm
          · exact hempty h1

theorem Del_eq {α : Type} (o : OrderMap α) (key : String) (h : Inv o) :
    o.Del key = some { m := o.m.erase key, keys := o.keys.erase key } := by
  obtain ⟨arr, len, hloop, htake⟩ :=
    delLoop_nodup key o.keys h.1 o.keys.length 0 (by omega) (fun j hj => by omega)
  simp only [OrderMap.Del, hloop, htake]

theorem Inv_erase {α : Type} (o : OrderMap α) (key : String) (h : Inv o) :
    Inv ({ m := o.m.erase key, keys := o.keys.erase key } : OrderMap α) := by
  obtain ⟨hnd, hmem, hempty⟩ := h
  refine ⟨hnd.erase key, ?_, ?_⟩
  · intro k
    show k ∈ o.keys.erase key ↔ k ∈ o.m.erase key
    rw [hnd.mem_erase_iff, AList.mem_erase, hmem]
  · show "" ∉ o.m.erase key
    rw [AList.mem_erase]
    exact fun h1 => hempty h1.2

theorem Inv_Keys {α : Type} (o : OrderMap α) (h : Inv o) : Inv o.Keys.2 := by
  obtain ⟨hnd, hmem, hempty⟩ := h
  refine ⟨(sortKeys_perm o.keys).nodup_iff.2 hnd, ?_, hempty⟩
  intro k
  show k ∈ sortKeys o.keys ↔ k ∈ o.m
  rw [(sortKeys_perm o.keys).mem_iff, hmem]

theorem Set_stored {α : Type} (o : OrderMap α) (key : String) (value : Option α)
    (k : String) :
    ((o.Set key value).Get k).isSome = storedStep k (o.Get k).isSome (Call.set key value) := by
  cases value with
  | none => simp [OrderMap.Set, storedStep]
  | some v =>
    by_cases hk : key = ""
    · simp [OrderMap.Set, storedStep, hk]
    · have hm : ((o.Set key (some v)).Get k) = (o.m.insert key v).lookup k := by
        simp only [OrderMap.Set, if_neg hk, OrderMap.Get]
        split <;> rfl
      rw [hm]
      by_cases hkk : key = k
      · subst hkk
        simp [storedStep, hk, AList.lookup_insert]
      · have hne : k ≠ key := fun h => hkk h.symm
        simp [storedStep, hkk, AList.lookup_insert_ne hne, OrderMap.Get]

theorem erase_stored {α : Type} (o : OrderMap α) (key k : String) :
    (({ m := o.m.erase key, keys := o.keys.erase key } : OrderMap α).Get k).isSome
      = storedStep k (o.Get k).isSome (Call.del key : Call α) := by
  by_cases hkk : key = k
  · subst hkk
    simp [storedStep, OrderMap.Get, AList.lookup_erase]
  · have hne : k ≠ key := fun h => hkk h.symm
    simp [storedStep, hkk, OrderMap.Get, AList.lookup_erase_ne hne]

theorem run_Inv {α : Type} (calls : List (Call α)) :
    ∀ o : OrderMap α, Inv o → ∃ o1, run calls o = some o1 ∧ Inv o1
      ∧ ∀ k, (o1.Get k).isSome = calls.foldl (storedStep k) (o.Get k).isSome := by
  induction calls with
  | nil => intro o h; exact ⟨o, rfl, h, fun _ => rfl⟩
  | cons c rest ih =>
    intro o h
    cases c with
    | set key value =>
      obtain ⟨o1, h1, h2, h3⟩ := ih (o.Set key value) (Inv_Set o key value h)
      refine ⟨o1, by simp only [run, exec, h1], h2, ?_⟩
      intro k
      rw [h3 k, Set_stored]
      rfl
    | del key =>
      obtain ⟨o1, h1, h2, h3⟩ := ih _ (Inv_erase o key h)
      refine ⟨o1, by simp only [run, exec, Del_eq o key h, h1], h2, ?_⟩
      intro k
      rw [h3 k, erase_stored]
      rfl
    | keys =>
      obtain ⟨o1, h1, h2, h3⟩ := ih o.Keys.2 (Inv_Keys o h)
      refine ⟨o1, by simp only [run, exec, h1], h2, ?_⟩
      intro k
      rw [h3 k]
      rfl

theorem erase_absent {α : Type} (m : AList (fun _ : String => α)) (key : String)
    (h : key ∉ m) : m.erase key = m := by
  apply AList.ext
  exact List.kerase_of_not_mem_keys h

/-- C24: after any sequence of Set, Del and Keys calls on an OrderMap made by New, no
call has panicked and `Keys` returns a strictly ascending slice (hence without
duplicates) holding exactly the keys `Get` finds a value for, which are the keys set
with a non-empty key and a value that is not nil and not deleted since.  On such a map,
Set with an empty key or a nil value changes nothing; Set on a stored key replaces its
value and leaves the key slice and the other values as they are; Del of a key that is
not stored changes nothing. -/
theorem C24_Keys_sorted_and_stored {α : Type} (calls : List (Call α)) :
    ∃ o, run calls New = some o
      ∧ List.Sorted (fun a b => Less a b = true) o.Keys.1
      ∧ o.Keys.1.Nodup
      ∧ (∀ k, k ∈ o.Keys.1 ↔ (o.Get k).isSome = true)
      ∧ (∀ k, k ∈ o.Keys.1 ↔ storedAfter calls k = true)
      ∧ (∀ v, o.Set "" v = o)
      ∧ (∀ k, o.Set k none = o)
      ∧ (∀ k v, (o.Get k).isSome = true →
          (o.Set k (some v)).keys = o.keys ∧ (o.Set k (some v)).Get k = some v
          ∧ ∀ k1, k1 ≠ k → (o.Set k (some v)).Get k1 = o.Get k1)
      ∧ (∀ k, o.Get k = none → o.Del k = some o) := by
  obtain ⟨o, hrun, ⟨hnd, hmem, hempty⟩, hstored⟩ := run_Inv calls (New : OrderMap α) Inv_New
  have hkeys : ∀ k, k ∈ o.Keys.1 ↔ (o.Get k).isSome = true := by
    intro k
    show k ∈ sortKeys o.keys ↔ (o.m.lookup k).isSome = true
    rw [(sortKeys_perm o.keys).mem_iff, hmem, AList.lookup_isSome]
  refine ⟨o, hrun, sortKeys_sorted o.keys hnd, (sortKeys_perm o.keys).nodup_iff.2 hnd,
    hkeys, ?_, ?_, ?_, ?_, ?_⟩
  · intro k
    rw [hkeys k, hstored k]
    rfl
  · intro v
    cases v with
    | none => rfl
    | some v => simp only [OrderMap.Set, if_true]
  · intro k
    rfl
  · intro k v hk
    have hk1 : (o.m.lookup k).isSome = true := hk
    have hne : k ≠ "" := by
      intro h0
      rw [h0] at hk1
      exact hempty (AList.lookup_isSome.1 hk1)
    simp only [OrderMap.Set, if_neg hne, hk1, if_true, OrderMap.Get]
    refine ⟨trivial, AList.lookup_insert _, ?_⟩
    intro k1 hk1ne
    exact AList.lookup_insert_ne hk1ne
  · intro k hk
    have hk1 : o.m.lookup k = none := hk
    have hnm : k ∉ o.m := AList.lookup_eq_none.1 hk1
    have hnk : k ∉ o.keys := fun h1 => hnm ((hmem k).1 h1)
    rw [Del_eq o k ⟨hnd, hmem, hempty⟩, erase_absent o.m k hnm, List.erase_of_not_mem hnk]

/-- C24 on an example: nine calls (among them a Set with an empty key, a Set with a nil
value, a Set on a stored key and a Del of an absent key) leave the keys `b`, `ab`, `B`
in insertion order, and `Keys` returns them as `B`, `ab`, `b`. -/
theorem C24_Keys_sorted_and_stored_witness :
    (run exCalls New).map (fun o => o.keys) = some ["b", "ab", "B"]
    ∧ (run exCalls New).map (fun o => o.Keys.1) = some ["B", "ab", "b"]
    ∧ ["B", "ab", "b", "a", "c", "zz", ""].map (storedAfter exCalls)
        = [true, true, true, false, false, false, false]
    ∧ ∃ o, run exCalls New = some o
        ∧ List.Sorted (fun a b => Less a b = true) o.Keys.1
        ∧ (∀ k, k ∈ o.Keys.1 ↔ storedAfter exCalls k = true) :=
  ⟨by decide, by decide, by decide,
    (C24_Keys_sorted_and_stored exCalls).elim
      (fun o h => ⟨o, h.1, h.2.1, h.2.2.2.2.1⟩)⟩

end ordermap

/-! ## httpmux: the route chosen by bestMatch -/

namespace httpmux

theorem bestMatch_spec (sortRoutes : List Route → List Route) (hsort : SortsByLess sortRoutes)
    (m : Mux) (method path : String) :
    ((m.bestMatch sortRoutes method path).1 = none
        ↔ ∀ r ∈ m.Routes, (r.matchRoute method (TrimSuffix path "/")).2 = false)
    ∧ ((m.bestMatch sortRoutes method path).1 = none →
        (m.bestMatch sortRoutes method path).2 = none)
    ∧ (∀ best, (m.bestMatch sortRoutes method path).1 = some best →
        best ∈ m.Routes
        ∧ (best.matchRoute method (TrimSuffix path "/")).2 = true
        ∧ (∀ r ∈ m.Routes, (r.matchRoute method (TrimSuffix path "/")).2 = true →
            best.paramKeys.length ≤ r.paramKeys.length)
        ∧ (m.bestMatch sortRoutes method path).2
            = (best.matchRoute method (TrimSuffix path "/")).1) := by
  obtain ⟨hperm, hpair⟩ := hsort
    (m.Routes.filter (fun route => (route.matchRoute method (TrimSuffix path "/")).2))
  by_cases hlen :
      (m.Routes.filter (fun route => (route.matchRoute method (TrimSuffix path "/")).2)).length = 0
  · have hbm : m.bestMatch sortRoutes method path = (none, none) := by
      simp only [Mux.bestMatch, Mux.AllRoutes, hlen, if_true]
    have hnil := List.length_eq_zero.mp hlen
    rw [hbm]
    refine ⟨⟨fun _ r hr => ?_, fun _ => rfl⟩, fun _ => rfl, fun best h => by cases h⟩
    cases hm : (r.matchRoute method (TrimSuffix path "/")).2 with
    | false => rfl
    | true =>
      have hin : r ∈ m.Routes.filter
          (fun route => (route.matchRoute method (TrimSuffix path "/")).2) :=
        List.mem_filter.mpr ⟨hr, hm⟩
      rw [hnil] at hin
      cases hin
  · cases hs : sortRoutes
        (m.Routes.filter (fun route => (route.matchRoute method (TrimSuffix path "/")).2)) with
    | nil =>
      rw [hs] at hperm
      exact absurd (by rw [← hperm.length_eq]; rfl) hlen
    | cons best tl =>
      have hbm : m.bestMatch sortRoutes method path
          = (some best, (best.matchRoute method (TrimSuffix path "/")).1) := by
        simp only [Mux.bestMatch, Mux.AllRoutes, if_neg hlen, hs]
      rw [hs] at hperm hpair
      have hbest : best ∈ m.Routes.filter
          (fun route => (route.matchRoute method (TrimSuffix path "/")).2) :=
        hperm.mem_iff.mp (List.mem_cons_self _ _)
      have hbest1 := List.mem_filter.mp hbest
      rw [hbm]
      refine ⟨⟨fun h => Option.noConfusion h, fun h => ?_⟩, fun h => Option.noConfusion h,
        fun b hb => ?_⟩
      · have := h best hbest1.1
        rw [hbest1.2] at this
        cases this
      · have hb1 : best = b := Option.some.inj hb
        subst hb1
        refine ⟨hbest1.1, hbest1.2, ?_, rfl⟩
        intro r hr hm
        have hin : r ∈ best :: tl := hperm.mem_iff.mpr (List.mem_filter.mpr ⟨hr, hm⟩)
        rcases List.mem_cons.mp hin with heq | htl
        · rw [heq]
        · have hless := List.rel_of_pairwise_cons hpair htl
          simp only [Less, decide_eq_false_iff_not, not_lt] at hless
          exact hless

theorem sortByLess_sorts : SortsByLess sortByLess := by
  intro l
  refine ⟨List.perm_insertionSort _ l, ?_⟩
  exact @List.sorted_insertionSort Route (fun a b => Less b a = false) _
    ⟨fun a b => by
      simp only [Less, decide_eq_false_iff_not, not_lt]
      exact Nat.le_total _ _⟩
    ⟨fun a b c h1 h2 => by
      simp only [Less, decide_eq_false_iff_not, not_lt] at h1 h2 ⊢
      exact Nat.le_trans h1 h2⟩ l

theorem exUsers_routes :
    exUsers = some exUsersMux
    ∧ TrimSuffix "/user/all" "/" = "/user/all"
    ∧ (∃ r ∈ exUsersMux.Routes, (r.matchRoute "GET" "/user/all").2 = true
        ∧ r.paramKeys.length = 0)
    ∧ (∀ r ∈ exUsersMux.Routes, (r.matchRoute "GET" "/user/all").2 = true →
        r.paramKeys.length = 0 →
        r.Pattern = "/user/all" ∧ (r.matchRoute "GET" "/user/all").1 = none)
    ∧ exUsersMux.Routes.map Route.Pattern = ["/user/all", "/user/:id"]
    ∧ exUsersMux.Routes.map (fun r => (r.matchRoute "GET" "/user/all").2) = [true, true] := by
  decide

theorem exRepos_routes :
    exRepos = some exReposMux
    ∧ TrimSuffix "/user/bbk/repoxxx" "/" = "/user/bbk/repoxxx"
    ∧ (∃ r ∈ exReposMux.Routes, (r.matchRoute "GET" "/user/bbk/repoxxx").2 = true)
    ∧ (∀ r ∈ exReposMux.Routes, (r.matchRoute "GET" "/user/bbk/repoxxx").2 = true →
        r.Pattern = "/user/:name/repoxxx"
        ∧ ((r.matchRoute "GET" "/user/bbk/repoxxx").1.map (fun p => p.entries))
            = some [⟨"name", "bbk"⟩])
    ∧ exReposMux.Routes.map Route.Pattern = ["/user/:name/repoxxx", "/user/:name/repo"]
    ∧ exReposMux.Routes.map (fun r => (r.matchRoute "GET" "/user/bbk/repoxxx").2)
        = [true, false] := by
  decide

/-- C25: whatever rearrangement `sort.Sort` makes, as long as it leaves the matching
routes in the order of `Less`: `bestMatch(method, path)` returns nil, with nil
parameters, exactly when no route matches the path without its trailing slash;
otherwise it returns one of the routes of the router that matches and has the fewest
path parameters of all matching routes, together with the parameters `match` captures
for that route.  With the routes `/user/all` and `/user/:id`, `GET /user/all` selects
`/user/all`; with the routes `/user/:name/repoxxx` and `/user/:name/repo`,
`GET /user/bbk/repoxxx` selects `/user/:name/repoxxx` with the single parameter
`name = bbk`. -/
theorem C25_bestMatch_fewest_params (sortRoutes : List Route → List Route)
    (hsort : SortsByLess sortRoutes) (m : Mux) (method path : String) :
    (((m.bestMatch sortRoutes method path).1 = none
        ↔ ∀ r ∈ m.Routes, (r.matchRoute method (TrimSuffix path "/")).2 = false)
      ∧ ((m.bestMatch sortRoutes method path).1 = none →
          (m.bestMatch sortRoutes method path).2 = none)
      ∧ ∀ best, (m.bestMatch sortRoutes method path).1 = some best →
          best ∈ m.Routes
          ∧ (best.matchRoute method (TrimSuffix path "/")).2 = true
          ∧ (∀ r ∈ m.Routes, (r.matchRoute method (TrimSuffix path "/")).2 = true →
              best.paramKeys.length ≤ r.paramKeys.length)
          ∧ (m.bestMatch sortRoutes method path).2
              = (best.matchRoute method (TrimSuffix path "/")).1)
    ∧ (exUsers = some exUsersMux
      ∧ (exUsersMux.bestMatch sortRoutes "GET" "/user/all").1.map Route.Pattern
          = some "/user/all")
    ∧ (exRepos = some exReposMux
      ∧ (exReposMux.bestMatch sortRoutes "GET" "/user/bbk/repoxxx").1.map Route.Pattern
          = some "/user/:name/repoxxx"
      ∧ (exReposMux.bestMatch sortRoutes "GET" "/user/bbk/repoxxx").2.map
          (fun p => p.entries) = some [⟨"name", "bbk"⟩]) := by
  refine ⟨bestMatch_spec sortRoutes hsort m method path, ?_, ?_⟩
  · obtain ⟨hex, htrim, ⟨r0, hr0, hm0, hk0⟩, hall, _, _⟩ := exUsers_routes
    obtain ⟨hnone, _, hsome⟩ := bestMatch_spec sortRoutes hsort exUsersMux "GET" "/user/all"
    rw [htrim] at hnone hsome
    refine ⟨hex, ?_⟩
    cases hb : (exUsersMux.bestMatch sortRoutes "GET" "/user/all").1 with
    | none =>
      have := hnone.mp hb r0 hr0
      rw [hm0] at this
      cases this
    | some best =>
      obtain ⟨hin, hm, hmin, _⟩ := hsome best hb
      have hle := hmin r0 hr0 hm0
      rw [hk0] at hle
      have := (hall best hin hm (Nat.le_zero.mp hle)).1
      simp only [Option.map_some', this]
  · obtain ⟨hex, htrim, ⟨r0, hr0, hm0⟩, hall, _, _⟩ := exRepos_routes
    obtain ⟨hnone, _, hsome⟩ :=
      bestMatch_spec sortRoutes hsort exReposMux "GET" "/user/bbk/repoxxx"
    rw [htrim] at hnone hsome
    refine ⟨hex, ?_⟩
    cases hb : (exReposMux.bestMatch sortRoutes "GET" "/user/bbk/repoxxx").1 with
    | none =>
      have := hnone.mp hb r0 hr0
      rw [hm0] at this
      cases this
    | some best =>
      obtain ⟨hin, hm, _, hpar⟩ := hsome best hb
      have h := hall best hin hm
      refine ⟨by simp only [Option.map_some', h.1], ?_⟩
      rw [hpar]
      exact h.2

/-- C25 with insertion sort in the place of `sort.Sort`, on the two examples of the
source: the route selected, and for a request no route matches, nil. -/
theorem C25_bestMatch_fewest_params_witness :
    SortsByLess sortByLess
    ∧ (exUsersMux.bestMatch sortByLess "GET" "/user/all").1.map Route.Pattern
        = some "/user/all"
    ∧ (exReposMux.bestMatch sortByLess "GET" "/user/bbk/repoxxx").1.map Route.Pattern
        = some "/user/:name/repoxxx"
    ∧ (exReposMux.bestMatch sortByLess "GET" "/user/bbk/repoxxx").2.map
        (fun p => p.entries) = some [⟨"name", "bbk"⟩]
    ∧ (exReposMux.bestMatch sortByLess "POST" "/user/bbk/repoxxx").1 = none
    ∧ ((exReposMux.bestMatch sortByLess "POST" "/user/bbk/repoxxx").1 = none
        ↔ ∀ r ∈ exReposMux.Routes,
            (r.matchRoute "POST" (TrimSuffix "/user/bbk/repoxxx" "/")).2 = false) :=
  ⟨sortByLess_sorts,
    (C25_bestMatch_fewest_params sortByLess sortByLess_sorts exUsersMux "GET" "/user/all").2.1.2,
    (C25_bestMatch_fewest_params sortByLess sortByLess_sorts exUsersMux "GET"
      "/user/all").2.2.2.1,
    (C25_bestMatch_fewest_params sortByLess sortByLess_sorts exUsersMux "GET"
      "/user/all").2.2.2.2,
    by decide,
    (C25_bestMatch_fewest_params sortByLess sortByLess_sorts exReposMux "POST"
      "/user/bbk/repoxxx").1.1⟩

end httpmux
